import Mathlib

/-!
# ipfs-files-sync: a shallow embedding of `main.go`

The program mirrors a local directory tree into the mutable file system (MFS) of an IPFS
daemon.  The embedding follows `walk`, `readDir` and `addFile` of `main.go` statement by
statement.  Everything the program talks to is explicit:

* the local file system is a value (`Listing`), with the outcome of every local system call
  recorded in it (`readable`, `openable`, `xattr`, `xattrWritable`);
* the daemon is a parameter `ipfs : Shell σ`, as in the source, where `σ` is the daemon's state;
* every external call and every log line is recorded, in order, in a trace of `Event`s.
-/

namespace IpfsFilesSync

/-! ## Paths, hashes, errors -/

/-- A cleaned, rooted, slash-separated path, as the list of its components (`/sync/B` is
`["sync", "B"]`, the root `/` is `[]`).  The destination is rooted: `main` refuses one that does
not begin with a slash. -/
abbrev Path := List String

/-- A content hash as returned by `ipfs.Add`. -/
abbrev Hash := String

/-- Whether a name is one component of a cleaned path: it is not empty, it is not `.` or `..`,
and it has no `/`.  The names that `Readdir` returns for the entries of a local directory are
such names. -/
def plainName (n : String) : Bool :=
  !(n == "") && !(n == ".") && !(n == "..") && !(n.data.contains '/')

/-- The pieces of a string between its slashes, as `path.Clean` reads them. -/
def splitSlash : List Char → List String
  | [] => [""]
  | c :: cs =>
    match splitSlash cs with
    | [] => []
    | w :: ws => if c = '/' then "" :: w :: ws else String.mk (c :: w.data) :: ws

/-- What `path.Clean` does with one piece of a rooted path, given the components before it: an
empty piece and `.` are dropped, `..` drops the component before it (and is dropped itself at
the root), and any other piece is a further component. -/
def cleanStep (p : Path) (c : String) : Path :=
  if c = "" ∨ c = "." then p else if c = ".." then p.dropLast else p ++ [c]

/-- The call `path.Join(dir, name)` for any string `name`, where `dir` is rooted and clean:
the result is `path.Clean(dir + "/" + name)` (and `path.Clean(dir)` for an empty `name`). -/
def pathJoin (dir : Path) (name : String) : Path :=
  (splitSlash name.data).foldl cleanStep dir

/-- Both `path.Join(dest, name)` and `filepath.Join(src, name)` for a `name` that `Readdir`
returned for an entry of a local directory: such a name is one component (`plainName`), and
for one component `path.Join` appends it to the path (`pathJoin_of_plainName`). -/
def childPath (dir : Path) (name : String) : Path := dir ++ [name]

/-- A Go `error`: either one produced by an external call, or `errors.Wrapf(cause, format, args...)`. -/
inductive Error where
  | external (msg : String)
  | wrapf (cause : Error) (format : String) (args : List Path)
  deriving DecidableEq, Repr

deriving instance DecidableEq for Except

/-- The record `UnixFSEntry` of the source; `Kind` is the field `Type`. -/
structure UnixFSEntry where
  Name : String
  Kind : Int
  Size : Int
  Hash : String
  deriving DecidableEq, Repr

/-! ## The daemon interface -/

/-- The requests `ipfs.Request(command, args...).Option(...)` the program builds. -/
inductive Request where
  /-- The command `files/mkdir path` with options `flush`, `parents`. -/
  | mkdir (path : Path) (flush : Bool) (parents : Bool)
  /-- The command `files/rm path` with options `flush`, `recursive`. -/
  | rm (path : Path) (flush : Bool) (recursive : Bool)
  /-- The command `files/ls path` with options `flush`, `U`. -/
  | ls (path : Path) (flush : Bool) (U : Bool)
  /-- The command `files/cp /ipfs/hash path` with option `flush`. -/
  | cp (hash : Hash) (path : Path) (flush : Bool)
  /-- The command `files/flush path`. -/
  | flush (path : Path)
  deriving DecidableEq, Repr

/-- The part of `*shell.Shell` the program uses, over a daemon state `σ`:
`Add` is `ipfs.Add(f, shell.Pin(false))` applied to the bytes of the file, and `Exec` is
`ipfs.Request(...).Exec(ctx, &out)`; the decoded output is only read for `files/ls`. -/
structure Shell (σ : Type) where
  Add : σ → String → Except Error Hash × σ
  Exec : σ → Request → Except Error (List UnixFSEntry) × σ

/-! ## The local file system -/

/-- A regular file of the source tree. -/
structure File where
  /-- The result of `fi.Name()`. -/
  name : String
  /-- Whether `os.Open` succeeds on it. -/
  openable : Bool
  /-- The bytes of the file, which `ipfs.Add` uploads. -/
  content : String
  /-- The value of the extended attribute `user.ipfs-hash`, when the file has one. -/
  xattr : Option String
  /-- Whether `syscall.Setxattr` succeeds on it. -/
  xattrWritable : Bool
  deriving DecidableEq, Repr

/-- The entries of a local directory, in the order `f.Readdir(0)` returns them: subdirectories
(with whether they can be read, and their own entries), regular files, and entries that are
neither (symlinks, devices, sockets). -/
inductive Listing where
  | nil
  | dir (name : String) (readable : Bool) (sub : Listing) (rest : Listing)
  | file (f : File) (rest : Listing)
  | other (name : String) (rest : Listing)
  deriving DecidableEq, Repr

instance : Inhabited Listing := ⟨.nil⟩

/-! ## Traces -/

/-- The function of `main.go` a call is made from (`remakeDir` is the closure inside `walk`). -/
inductive Site where
  | walk
  | remakeDir
  | addFile
  deriving DecidableEq, Repr

/-- An external call. -/
inductive Call where
  /-- The calls `os.Open`, `f.Readdir(0)` and `f.Close` of `readDir(path)`. -/
  | readDir (path : Path)
  /-- The call `os.Open(localPath)` of `addFile`. -/
  | osOpen (path : Path)
  /-- The call `ipfs.Add(f, shell.Pin(false))`. -/
  | add (path : Path)
  /-- The call `syscall.Getxattr(localPath, "user.ipfs-hash", buf)`. -/
  | getxattr (path : Path)
  /-- The call `syscall.Setxattr(localPath, "user.ipfs-hash", value, 0)`. -/
  | setxattr (path : Path) (value : Hash)
  /-- The call `ipfs.Request(...).Exec(...)`. -/
  | request (r : Request)
  deriving DecidableEq, Repr

/-- What a run does, in order: external calls with their outcome (`ok = false` when the call
returned an error), and the lines written with `log.Println`. -/
inductive Event where
  | call (site : Site) (c : Call) (ok : Bool)
  | log (tag : String) (path : Path)
  deriving DecidableEq, Repr

/-! ## Programs -/

/-- What a run leaves behind: its result, the daemon state, and the events in order. -/
structure Outcome (σ α : Type) where
  result : Except Error α
  state : σ
  trace : List Event

/-- The outcome `o`, preceded by the events `t`. -/
def Outcome.after {σ α : Type} (o : Outcome σ α) (t : List Event) : Outcome σ α :=
  ⟨o.result, o.state, t ++ o.trace⟩

/-- A program over the daemon state `σ`. -/
def Prog (σ α : Type) : Type := σ → Outcome σ α

namespace Prog

variable {σ α β : Type}

/-- Return a value: no event, no state change. -/
def ret (a : α) : Prog σ α := fun s => ⟨.ok a, s, []⟩

/-- The Go statement `return err`. -/
def fail (e : Error) : Prog σ α := fun s => ⟨.error e, s, []⟩

/-- Sequencing: the second program runs only when the first returned no error, from the state
the first left, and its events follow those of the first. -/
def bind (m : Prog σ α) (f : α → Prog σ β) : Prog σ β := fun s =>
  match (m s).result with
  | .ok a => (f a (m s).state).after (m s).trace
  | .error e => ⟨.error e, (m s).state, (m s).trace⟩

/-- Record one event. -/
def emit (e : Event) : Prog σ Unit := fun s => ⟨.ok (), s, [e]⟩

end Prog

instance {σ : Type} : Monad (Prog σ) where
  pure := Prog.ret
  bind := Prog.bind

/-- Whether a result is `err == nil`. -/
def isOk {ε α : Type} : Except ε α → Bool
  | .ok _ => true
  | .error _ => false

/-- A request sent to the daemon from `site`: the call is recorded with its outcome, and the
error (or the decoded output) is handed to the caller, as `Exec` does. -/
def request {σ : Type} (ipfs : Shell σ) (site : Site) (r : Request) :
    Prog σ (Except Error (List UnixFSEntry)) := fun s =>
  ⟨.ok (ipfs.Exec s r).1, (ipfs.Exec s r).2, [.call site (.request r) (isOk (ipfs.Exec s r).1)]⟩

/-- The statement
`if err := ipfs.Request(...).Exec(ctx, &out); err != nil { return errors.Wrapf(err, format, args...) }`
made from `site`. -/
def exec {σ : Type} (ipfs : Shell σ) (site : Site) (r : Request) (format : String)
    (args : List Path) : Prog σ (List UnixFSEntry) := do
  match ← request ipfs site r with
  | .error err => Prog.fail (.wrapf err format args)
  | .ok out => pure out

/-- The statement `hash, err := ipfs.Add(f, shell.Pin(false)); if err != nil { return
errors.Wrapf(err, format, args...) }` on the file `f` at `localPath`. -/
def add {σ : Type} (ipfs : Shell σ) (localPath : Path) (f : File) (format : String)
    (args : List Path) : Prog σ Hash := fun s =>
  match (ipfs.Add s f.content).1 with
  | .ok hash => ⟨.ok hash, (ipfs.Add s f.content).2, [.call .addFile (.add localPath) true]⟩
  | .error err =>
    ⟨.error (.wrapf err format args), (ipfs.Add s f.content).2,
      [.call .addFile (.add localPath) false]⟩

/-- A call to the local system made from `site`, which succeeds when `ok` and else makes the
function return `err`. -/
def sys {σ : Type} (site : Site) (c : Call) (ok : Bool) (err : Error) : Prog σ Unit := fun s =>
  ⟨if ok then .ok () else .error err, s, [.call site c ok]⟩

/-! ## `addFile` -/

/-- The size of the buffer `originalHash` that `addFile` reads the cached hash into. -/
def originalHashSize : Nat := 256

/-- The call `syscall.Getxattr(localPath, "user.ipfs-hash", originalHash[:])`: the value of the
attribute, or `none` when the call returns an error, which it does when the file has no such
attribute and (`ERANGE`) when the value does not fit the buffer. -/
def Getxattr (f : File) : Option String :=
  match f.xattr with
  | some v => if v.utf8ByteSize ≤ originalHashSize then some v else none
  | none => none

/-- The test `err == nil && sz == len(hash) && string(originalHash[:sz]) == hash` of `addFile`. -/
def cacheHit (f : File) (hash : Hash) : Bool :=
  match Getxattr f with
  | some originalHash => originalHash.utf8ByteSize == hash.utf8ByteSize && originalHash == hash
  | none => false

/-- The function `addFile(ctx, ipfs, localPath, remotePath, flushDepth)`, where `f` is the file at
`localPath`; the result is the file afterwards (its `xattr` may have been rewritten). -/
def addFile {σ : Type} (ipfs : Shell σ) (localPath : Path) (f : File) (remotePath : Path)
    (flushDepth : Int) : Prog σ File := do
  sys .addFile (.osOpen localPath) f.openable
    (.wrapf (.external "open") "addFile(%q, %q): open" [localPath, remotePath])
  let hash ← add ipfs localPath f "addFile(%q, %q): write" [localPath, remotePath]
  Prog.emit (.call .addFile (.getxattr localPath) (Getxattr f).isSome)
  if cacheHit f hash then do
    Prog.emit (.log "SAME" remotePath)
    pure f
  else do
    let _ ← request ipfs .addFile (.rm remotePath false true)
    let _ ← exec ipfs .addFile (.cp hash remotePath (decide (flushDepth ≥ 0)))
      "addFile(%q, %q): copy" [localPath, remotePath]
    Prog.emit (.log "FILE" remotePath)
    (if flushDepth ≥ 0 then Prog.emit (.log "FLUSH" remotePath) else pure ())
    sys .addFile (.setxattr localPath hash) f.xattrWritable
      (.wrapf (.external "setxattr") "addFile(%q, %q): cache hash" [localPath, remotePath])
    pure { f with xattr := some hash }

/-! ## `readDir` and `walk` -/

/-- What `readDir(path)` returns for a directory it could read, with entries `es` (the loop
`for _, fi := range infos`): the names of the subdirectories and the regular files, each in
listing order; other entries are skipped. -/
def readDir : Listing → List String × List File
  | .nil => ([], [])
  | .dir name _ _ rest => (name :: (readDir rest).1, (readDir rest).2)
  | .file f rest => ((readDir rest).1, f :: (readDir rest).2)
  | .other _ rest => readDir rest

/-- The loop `for _, fi := range files` of `walk`: `addFile` on every regular file, in order,
stopping at the first error.  The result is the listing with the files as `addFile` left them. -/
def walkFiles {σ : Type} (ipfs : Shell σ) (src dest : Path) (flushDepth : Int) :
    Listing → Prog σ Listing
  | .nil => pure .nil
  | .dir name readable sub rest => do
    let rest' ← walkFiles ipfs src dest flushDepth rest
    pure (.dir name readable sub rest')
  | .file f rest => do
    let f' ← addFile ipfs (childPath src f.name) f (childPath dest f.name) (flushDepth - 1)
    let rest' ← walkFiles ipfs src dest flushDepth rest
    pure (.file f' rest')
  | .other name rest => do
    let rest' ← walkFiles ipfs src dest flushDepth rest
    pure (.other name rest')

/-- The closure `remakeDir` of `walk`. -/
def remakeDir {σ : Type} (ipfs : Shell σ) (dest : Path) : Prog σ Unit := do
  let _ ← exec ipfs .remakeDir (.rm dest false true) "rm -r %q" [dest]
  let _ ← exec ipfs .remakeDir (.mkdir dest false true) "mkdir -p %q" [dest]
  pure ()

/-- The loop `for _, file := range existingFiles.Entries` of `walk`, where `children` holds the
keys of the map `children`: every listed entry whose name is not a key is removed, at the path
`path.Join(dest, file.Name)`; the name is whatever the daemon listed. -/
def removeOrphans {σ : Type} (ipfs : Shell σ) (dest : Path) (children : List String) :
    List UnixFSEntry → Prog σ Unit
  | [] => pure ()
  | file :: entries =>
    if !(decide (file.Name ∈ children)) then do
      let _ ← exec ipfs .walk (.rm (pathJoin dest file.Name) false true)
        "rm -r %q" [pathJoin dest file.Name]
      Prog.emit (.log "DELETE" (pathJoin dest file.Name))
      removeOrphans ipfs dest children entries
    else
      removeOrphans ipfs dest children entries

/-- Lines 89 to 93 of `walk`: a directory with regular files and no subdirectory is created
before its files are added. -/
def precreate {σ : Type} (ipfs : Shell σ) (dirs : List String) (files : List File)
    (dest : Path) : Prog σ Unit :=
  if dirs.length == 0 && files.length != 0 then do
    let _ ← exec ipfs .walk (.mkdir dest false true) "mkdir -p %q" [dest]
    pure ()
  else pure ()

/-- Lines 114 to 136 of `walk`: an empty directory is remade; any other is listed, and the
listed entries that are not among the subdirectories and files just processed are removed. -/
def reconcile {σ : Type} (ipfs : Shell σ) (dirs : List String) (files : List File)
    (dest : Path) : Prog σ Unit :=
  if dirs.length == 0 && files.length == 0 then
    remakeDir ipfs dest
  else do
    let existingFiles ← exec ipfs .walk (.ls dest false true) "ls %q" [dest]
    removeOrphans ipfs dest (dirs ++ files.map File.name) existingFiles

/-- Lines 138 to 143 of `walk`: the directory is flushed when the counter is not negative. -/
def flushDir {σ : Type} (ipfs : Shell σ) (dest : Path) (flushDepth : Int) : Prog σ Unit :=
  if flushDepth ≥ 0 then do
    let _ ← exec ipfs .walk (.flush dest) "flush %q" [dest]
    Prog.emit (.log "FLUSH" dest)
  else pure ()

/-- The statements of `walk` after the loop over `dirs` (lines 89 to 145), where `es` are the
entries of `src` and `dirs`, `files` what `readDir` returned for them. -/
def walkAfterDirs {σ : Type} (ipfs : Shell σ) (src : Path) (es : Listing)
    (dirs : List String) (files : List File) (dest : Path) (flushDepth : Int) :
    Prog σ Listing := do
  precreate ipfs dirs files dest
  let es' ← walkFiles ipfs src dest flushDepth es
  reconcile ipfs dirs files dest
  flushDir ipfs dest flushDepth
  pure es'

/-- The body of `walk` on the directory `src` with entries `es`, given the program `loop` that
runs the loop over `dirs`: `readDir(src)` fails when the directory is not `readable`. -/
def walkBody {σ : Type} (ipfs : Shell σ) (src : Path) (readable : Bool) (es : Listing)
    (dest : Path) (flushDepth : Int) (loop : Prog σ Listing) : Prog σ Listing := do
  sys .walk (.readDir src) readable (.external "readdir")
  let es1 ← loop
  walkAfterDirs ipfs src es1 (readDir es).1 (readDir es).2 dest flushDepth

/-- The loop `for _, dir := range dirs` of `walk`: the recursive call
`walk(ctx, ipfs, filepath.Join(src, dir), path.Join(dest, dir), flushDepth-1)` on every
subdirectory, in order, stopping at the first error. -/
def walkDirs {σ : Type} (ipfs : Shell σ) (src dest : Path) (flushDepth : Int) :
    Listing → Prog σ Listing
  | .nil => pure .nil
  | .dir name readable sub rest => do
    let sub' ← walkBody ipfs (childPath src name) readable sub (childPath dest name) (flushDepth - 1)
      (walkDirs ipfs (childPath src name) (childPath dest name) (flushDepth - 1) sub)
    let rest' ← walkDirs ipfs src dest flushDepth rest
    pure (.dir name readable sub' rest')
  | .file f rest => do
    let rest' ← walkDirs ipfs src dest flushDepth rest
    pure (.file f rest')
  | .other name rest => do
    let rest' ← walkDirs ipfs src dest flushDepth rest
    pure (.other name rest')

/-- The function `walk(ctx, ipfs, src, dest, flushDepth)` on the directory `src`, which can be
read when `readable` and then has the entries `es`.  The result is the listing after the run. -/
def walk {σ : Type} (ipfs : Shell σ) (src : Path) (readable : Bool) (es : Listing)
    (dest : Path) (flushDepth : Int) : Prog σ Listing :=
  walkBody ipfs src readable es dest flushDepth (walkDirs ipfs src dest flushDepth es)

/-! ## The mutable file system of the daemon -/

/-- What a path of the remote tree holds. -/
inductive Kind where
  | dir
  | file (hash : Hash)
  deriving DecidableEq, Repr

/-- Modelled from the spec: the remote mutable tree is kept by the IPFS daemon, which is not part
of the repository.  A state of the tree lists the paths that exist below the root, with what
each holds; the root always exists and is a directory. -/
abbrev MFS := List (Path × Kind)

namespace MFS

/-- What the tree holds at `p`, if anything. -/
def get : MFS → Path → Option Kind
  | _, [] => some .dir
  | [], _ :: _ => none
  | (q, k) :: s, n :: p => if q = n :: p then some k else get s (n :: p)

/-- Whether `p` is a directory of the tree. -/
def isDir (s : MFS) (p : Path) : Bool := s.get p == some .dir

/-- Whether `p` exists in the tree. -/
def exists_ (s : MFS) (p : Path) : Bool := (s.get p).isSome

/-- The tree without `p` and everything below it. -/
def remove (s : MFS) (p : Path) : MFS := s.filter (fun e => !(p.isPrefixOf e.1))

/-- The names of the children of `p`, in the order the tree lists them. -/
def children (s : MFS) (p : Path) : List String :=
  (s.filterMap (fun e => if e.1.dropLast = p then e.1.getLast? else none)).dedup

/-- The tree with a directory at `p` and at every missing ancestor of `p`. -/
def withDirs (s : MFS) (p : Path) : MFS :=
  ((p.inits.filter (fun q => !(s.exists_ q))).map (fun q => (q, Kind.dir))) ++ s

/-- Modelled from the spec: `mkdirAll(path)` creates the directory and its missing ancestors and
does nothing when it already exists; it fails when a file is in the way. -/
def mkdirAll (s : MFS) (p : Path) : Except Error MFS :=
  if p.inits.any (fun q => !(s.isDir q) && s.exists_ q) then .error (.external "not a directory")
  else .ok (s.withDirs p)

/-- Modelled from the spec: `removeRecursive(path)` deletes a subtree; it fails when the path
does not exist, and the root cannot be removed. -/
def removeRecursive (s : MFS) (p : Path) : Except Error MFS :=
  if p = [] then .error (.external "cannot delete root")
  else if !(s.exists_ p) then .error (.external "file does not exist")
  else .ok (s.remove p)

/-- Modelled from the spec: `bindContent(hash, path)` attaches uploaded content at `path`,
replacing any prior binding; the parent of `path` must be a directory. -/
def bindContent (s : MFS) (hash : Hash) (p : Path) : Except Error MFS :=
  if p = [] then .error (.external "cannot replace root")
  else if !(s.isDir p.dropLast) then .error (.external "parent is not a directory")
  else .ok ((p, Kind.file hash) :: s.remove p)

/-- Modelled from the spec: `listChildren(path)` is read-only and gives the children of a
directory; only their names are filled in, as the program asks for no details. -/
def listChildren (s : MFS) (p : Path) : Except Error (List UnixFSEntry) :=
  if s.isDir p then .ok ((s.children p).map (fun n => ⟨n, 0, 0, ""⟩))
  else .error (.external "not a directory")

/-- Modelled from the spec: `flush(path)` blocks until the subtree is persisted; it leaves the
tree as it is and fails when the path does not exist. -/
def flush (s : MFS) (p : Path) : Except Error Unit :=
  if s.exists_ p then .ok () else .error (.external "file does not exist")

/-- A request to the files API, on a tree. The durability option `flush` of a request does not
change what the tree holds. -/
def exec (s : MFS) : Request → Except Error (List UnixFSEntry) × MFS
  | .mkdir p _ parents =>
    if parents then
      match s.mkdirAll p with
      | .ok s' => (.ok [], s')
      | .error e => (.error e, s)
    else if s.exists_ p then (.error (.external "file already exists"), s)
    else if p = [] || !(s.isDir p.dropLast) then (.error (.external "file does not exist"), s)
    else (.ok [], (p, Kind.dir) :: s)
  | .rm p _ recursive =>
    if !recursive && s.isDir p then (.error (.external "is a directory"), s)
    else
      match s.removeRecursive p with
      | .ok s' => (.ok [], s')
      | .error e => (.error e, s)
  | .ls p _ _ =>
    match s.listChildren p with
    | .ok entries => (.ok entries, s)
    | .error e => (.error e, s)
  | .cp hash p _ =>
    match s.bindContent hash p with
    | .ok s' => (.ok [], s')
    | .error e => (.error e, s)
  | .flush p =>
    match s.flush p with
    | .ok _ => (.ok [], s)
    | .error e => (.error e, s)

end MFS

/-- Modelled from the spec: the daemon as the program sees it, with `digest` the deterministic
content hash the upload returns for the bytes of a file. -/
def mfs (digest : String → Hash) : Shell MFS where
  Add := fun s content => (.ok (digest content), s)
  Exec := MFS.exec

/-! ## Definitions used to state the properties -/

/-- The outcome of `addFile` spelled out case by case; `addFile_eq` proves it is what `addFile`
computes. -/
def addFileOutcome {σ : Type} (ipfs : Shell σ) (localPath : Path) (f : File) (remotePath : Path)
    (flushDepth : Int) (s : σ) : Outcome σ File :=
  let eOpen := Event.call .addFile (.osOpen localPath)
  let eAdd := Event.call .addFile (.add localPath)
  let eGet := Event.call .addFile (.getxattr localPath) (Getxattr f).isSome
  if f.openable = false then
    ⟨.error (.wrapf (.external "open") "addFile(%q, %q): open" [localPath, remotePath]), s,
      [eOpen false]⟩
  else
    let s1 := (ipfs.Add s f.content).2
    match (ipfs.Add s f.content).1 with
    | .error err =>
      ⟨.error (.wrapf err "addFile(%q, %q): write" [localPath, remotePath]), s1,
        [eOpen true, eAdd false]⟩
    | .ok hash =>
      if cacheHit f hash = true then
        ⟨.ok f, s1, [eOpen true, eAdd true, eGet, .log "SAME" remotePath]⟩
      else
        let rm := Request.rm remotePath false true
        let cp := Request.cp hash remotePath (decide (flushDepth ≥ 0))
        let s2 := (ipfs.Exec s1 rm).2
        let s3 := (ipfs.Exec s2 cp).2
        let eRm := Event.call .addFile (.request rm) (isOk (ipfs.Exec s1 rm).1)
        let eCp := Event.call .addFile (.request cp)
        let eSet := Event.call .addFile (.setxattr localPath hash)
        match (ipfs.Exec s2 cp).1 with
        | .error err =>
          ⟨.error (.wrapf err "addFile(%q, %q): copy" [localPath, remotePath]), s3,
            [eOpen true, eAdd true, eGet, eRm, eCp false]⟩
        | .ok _ =>
          ⟨if f.xattrWritable = true then .ok { f with xattr := some hash }
            else .error (.wrapf (.external "setxattr") "addFile(%q, %q): cache hash"
              [localPath, remotePath]), s3,
            [eOpen true, eAdd true, eGet, eRm, eCp true, .log "FILE" remotePath] ++
              (if flushDepth ≥ 0 then [.log "FLUSH" remotePath] else []) ++
              [eSet f.xattrWritable]⟩


/-- Whether a request is a `files/rm`. -/
def Request.isRm : Request → Bool
  | .rm _ _ _ => true
  | _ => false

/-- Whether a request is a `files/cp`. -/
def Request.isCp : Request → Bool
  | .cp _ _ _ => true
  | _ => false

/-- Whether a request asks for durability: its option `flush` is true, or it is a `files/flush`. -/
def Request.durable : Request → Bool
  | .mkdir _ fl _ => fl
  | .rm _ fl _ => fl
  | .ls _ fl _ => fl
  | .cp _ _ fl => fl
  | .flush _ => true

/-- The path of the remote tree a request acts on. -/
def Request.path : Request → Path
  | .mkdir p _ _ => p
  | .rm p _ _ => p
  | .ls p _ _ => p
  | .cp _ p _ => p
  | .flush p => p

/-- Whether an event is a request to the daemon that satisfies `p`. -/
def Event.isRequest (p : Request → Bool) : Event → Bool
  | .call _ (.request r) _ => p r
  | _ => false

/-- Whether an event is an external call that returned an error. -/
def Event.failed : Event → Bool
  | .call _ _ ok => !ok
  | .log _ _ => false

/-- Whether an event is the `files/rm` that `addFile` sends before its `files/cp`. -/
def Event.isPreRemoval : Event → Bool
  | .call .addFile (.request (.rm _ _ _)) _ => true
  | _ => false

/-- Whether an event is the `syscall.Getxattr` of `addFile`. -/
def Event.isCacheRead : Event → Bool
  | .call _ (.getxattr _) _ => true
  | _ => false

/-- Every event of every run of `m` satisfies `P`. -/
def Prog.All {σ α : Type} (P : Event → Prop) (m : Prog σ α) : Prop :=
  ∀ s, ∀ e ∈ (m s).trace, P e

/-- An event that requests durability is, for a run of `walk` on `dest` with counter
`flushDepth`, within the flush horizon: it is the `files/flush` of a directory `dest ++ r` with
`r.length ≤ flushDepth`, or the `files/cp` of a file to `dest ++ r` with
`1 ≤ r.length ≤ flushDepth`. -/
def Event.withinHorizon (dest : Path) (flushDepth : Int) (e : Event) : Prop :=
  e.isRequest Request.durable = true →
    (∃ r ok, e = .call .walk (.request (.flush (dest ++ r))) ok ∧ (r.length : Int) ≤ flushDepth) ∨
    (∃ r hash ok, e = .call .addFile (.request (.cp hash (dest ++ r) true)) ok ∧ r ≠ [] ∧
      (r.length : Int) ≤ flushDepth)

/-- The directories below a directory with entries `es`, at any depth: the path of each relative
to that directory, whether it can be read, and its entries. -/
def Listing.subdirs : Listing → List (Path × Bool × Listing)
  | .nil => []
  | .dir name readable sub rest =>
    ([name], readable, sub) :: (sub.subdirs.map fun d => (name :: d.1, d.2)) ++ rest.subdirs
  | .file _ rest => rest.subdirs
  | .other _ rest => rest.subdirs

/-- Whether an event is an external call that failed and whose error `walk` does not ignore:
any failed call other than the pre-removal of `addFile` and its cache read. -/
def Event.fatal (e : Event) : Bool :=
  e.failed && !e.isPreRemoval && !e.isCacheRead

/-- A run stops at its first fatal event: when it returns no error none of its events is fatal,
and when it returns an error its last event is fatal and no earlier one is. -/
def Outcome.stopsAtFirstFatal {σ α : Type} (o : Outcome σ α) : Prop :=
  match o.result with
  | .ok _ => ∀ e ∈ o.trace, e.fatal = false
  | .error _ => ∃ pre e, o.trace = pre ++ [e] ∧ e.fatal = true ∧ ∀ e' ∈ pre, e'.fatal = false

/-- Every run of `m` stops at its first fatal event. -/
def Prog.Strict {σ α : Type} (m : Prog σ α) : Prop :=
  ∀ s, (m s).stopsAtFirstFatal

/-- A tree is well formed when the parent of every path that exists is a directory, and every
component of every path that exists is a name (`plainName`), as in every tree that was built
through the files API. -/
def MFS.wf (s : MFS) : Bool :=
  s.all (fun e => (e.1 = [] || s.isDir e.1.dropLast) && e.1.all plainName)

/-- Every run of `m` from a state that satisfies `I` ends in a state that satisfies `I`. -/
def Prog.Keeps {σ α : Type} (I : σ → Prop) (m : Prog σ α) : Prop :=
  ∀ s, I s → I (m s).state

/-- The keys of the map `children` of `walk` when both of its loops are done: the names of the
subdirectories and of the regular files of the directory. -/
def Listing.childNames (es : Listing) : List String :=
  (readDir es).1 ++ (readDir es).2.map File.name

/-- The file with the hash of its content in its cache. -/
def File.cached (dg : String → Hash) (f : File) : File :=
  { f with xattr := some (dg f.content) }

/-- The listing in which every regular file of the directory itself caches the hash of its
content. -/
def Listing.cacheTop (dg : String → Hash) : Listing → Listing
  | .nil => .nil
  | .dir name readable sub rest => .dir name readable sub (cacheTop dg rest)
  | .file f rest => .file (f.cached dg) (cacheTop dg rest)
  | .other name rest => .other name (cacheTop dg rest)

/-- The listing in which every regular file, at any depth, caches the hash of its content. -/
def Listing.cacheAll (dg : String → Hash) : Listing → Listing
  | .nil => .nil
  | .dir name readable sub rest => .dir name readable (cacheAll dg sub) (cacheAll dg rest)
  | .file f rest => .file (f.cached dg) (cacheAll dg rest)
  | .other name rest => .other name (cacheAll dg rest)

/-- The listing in which every regular file below a subdirectory caches the hash of its
content. -/
def Listing.cacheSubs (dg : String → Hash) : Listing → Listing
  | .nil => .nil
  | .dir name readable sub rest => .dir name readable (cacheAll dg sub) (cacheSubs dg rest)
  | .file f rest => .file f (cacheSubs dg rest)
  | .other name rest => .other name (cacheSubs dg rest)

/-- The entries of a directory and of every directory below it have pairwise distinct names
(among subdirectories and regular files), as in every file system. -/
def Listing.noDup (es : Listing) : Bool :=
  (([], true, es) :: es.subdirs).all fun d => decide d.2.2.childNames.Nodup

/-- The subdirectories and regular files of a directory and of every directory below it have
names that are one path component, as in every file system. -/
def Listing.plain (es : Listing) : Bool :=
  (([], true, es) :: es.subdirs).all fun d => d.2.2.childNames.all plainName

/-- What a run of `walk` establishes for the remote directory `p` and the local directory with
entries `es`: `p` is a directory, every child of `p` has the name of a subdirectory or regular
file of `es`, every subdirectory of `es` is a directory below `p`, and every regular file of `es`
whose cache read does not give the hash of its content is bound to that hash below `p`. -/
def Level (dg : String → Hash) (s : MFS) (p : Path) (es : Listing) : Prop :=
  s.get p = some .dir ∧
  (∀ n, s.get (p ++ [n]) ≠ none → n ∈ es.childNames) ∧
  (∀ n ∈ (readDir es).1, s.get (p ++ [n]) = some .dir) ∧
  (∀ f ∈ (readDir es).2, Getxattr f ≠ some (dg f.content) →
    s.get (p ++ [f.name]) = some (.file (dg f.content)))

/-- What a run of `walk` establishes for the regular files of the local directory with entries
`es` and destination `p`, from the remote tree `s` to `s'`: the remote path of a file whose cache
read gives the hash of its content holds what it held before the run, and the cache of any other
file could be written. -/
def FilesPost (dg : String → Hash) (s s' : MFS) (p : Path) (es : Listing) : Prop :=
  ∀ f ∈ (readDir es).2,
    (Getxattr f = some (dg f.content) → s'.get (p ++ [f.name]) = s.get (p ++ [f.name])) ∧
    (Getxattr f ≠ some (dg f.content) → f.xattrWritable = true)

/-- What the loop over `dirs` of `walk` establishes, from the remote tree `s` to `s'`: the files
below the subdirectories cache their hashes, the remote tree changes only below the
destinations of the subdirectories (and at missing ancestors of `dest`), and every directory
below has its `Level` and its `FilesPost`. -/
def DirsPost (dg : String → Hash) (es : Listing) (dest : Path) (s s' : MFS) (es' : Listing) :
    Prop :=
  es' = es.cacheSubs dg ∧
  (∀ q, (∀ n ∈ (readDir es).1, ¬ (dest ++ [n]) <+: q) → ¬ q <+: dest → s'.get q = s.get q) ∧
  (∀ d ∈ es.subdirs, Level dg s' (dest ++ d.1) d.2.2 ∧ FilesPost dg s s' (dest ++ d.1) d.2.2)

/-- What `walk` establishes, from the remote tree `s` to `s'`: every file caches its hash, the
remote tree changes only at and below `dest` (and at missing ancestors of `dest`), the
directory and every directory below it have their `Level` and their `FilesPost`, and `dest` is
not the root of the remote tree when the source directory is empty. -/
def WalkPost (dg : String → Hash) (es : Listing) (dest : Path) (s s' : MFS) (es' : Listing) :
    Prop :=
  es' = es.cacheAll dg ∧
  (∀ q, ¬ dest <+: q → ¬ q <+: dest → s'.get q = s.get q) ∧
  (∀ d ∈ ([], true, es) :: es.subdirs,
    Level dg s' (dest ++ d.1) d.2.2 ∧ FilesPost dg s s' (dest ++ d.1) d.2.2) ∧
  (es.childNames = [] → dest ≠ [])

/-- Whether an event is a request that changes what the remote tree holds: a `files/rm` or a
`files/cp`. -/
def Event.mutates (e : Event) : Bool :=
  e.isRequest fun r => r.isRm || r.isCp

/-- The events of the loop over the listed entries of `dest` when it removes `names`: for each
name the `files/rm` of its path, which succeeds, and the log line `DELETE`. -/
def deleteEvents (dest : Path) : List String → List Event
  | [] => []
  | n :: names =>
    .call .walk (.request (.rm (dest ++ [n]) false true)) true :: .log "DELETE" (dest ++ [n]) ::
      deleteEvents dest names

/-- The tree without the children `names` of `dest`. -/
def MFS.prune (s : MFS) (dest : Path) (names : List String) : MFS :=
  names.foldl (fun s n => s.remove (dest ++ [n])) s

/-- The children of the remote directory `dest` that are not entries of the local directory
`es`. -/
def MFS.orphans (s : MFS) (dest : Path) (es : Listing) : List String :=
  (s.children dest).filter fun n => !(decide (n ∈ es.childNames))

/-- The local directory with entries `es` is ready on the remote directory `p` of the tree
`s`: the directory can be read, `p` is a directory, each regular file can be opened, and each
regular file either has a cache read that gives the hash of its content, or caches that hash
(which then does not fit the buffer), can have its cache written, and is bound to that hash
in `p`. -/
def Ready (dg : String → Hash) (s : MFS) (p : Path) (readable : Bool) (es : Listing) : Prop :=
  readable = true ∧ s.get p = some .dir ∧
  ∀ f ∈ (readDir es).2, f.openable = true ∧
    (Getxattr f = some (dg f.content) ∨
      (f.xattr = some (dg f.content) ∧ f.xattrWritable = true ∧
        s.get (p ++ [f.name]) = some (.file (dg f.content))))

/-- The requests `addFile` sends for the regular files of the directory `d` whose cache read
does not give the hash of their content, when `walk` runs with counter `N` on the source
directory and the remote paths exist: for each such file the pre-removal, and the copy of its
hash with the option `flush` that `walk` gives it at the depth of `d`. -/
def republished (dg : String → Hash) (N : Int) (dest : Path) (d : Path × Bool × Listing) :
    List Event :=
  ((readDir d.2.2).2.filter fun f => Getxattr f != some (dg f.content)).flatMap fun f =>
    [.call .addFile (.request (.rm (dest ++ d.1 ++ [f.name]) false true)) true,
      .call .addFile (.request (.cp (dg f.content) (dest ++ d.1 ++ [f.name])
        (decide (N - d.1.length - 1 ≥ 0)))) true]

/-- The request of `remakeDir` that removes the remote directory of `d`, when `d` is empty. -/
def remade (dest : Path) (d : Path × Bool × Listing) : List Event :=
  if d.2.2.childNames = [] then [.call .remakeDir (.request (.rm (dest ++ d.1) false true)) true]
  else []

/-- The requests of the loop over the listed entries that remove the orphans of the remote
directory of `d`, when `d` is not empty. -/
def swept (s : MFS) (dest : Path) (d : Path × Bool × Listing) : List Event :=
  if d.2.2.childNames = [] then []
  else (s.orphans (dest ++ d.1) d.2.2).map fun n =>
    .call .walk (.request (.rm (dest ++ d.1 ++ [n]) false true)) true

/-- The `files/rm` and `files/cp` requests that `walk` sends for the directory `d`. -/
def levelMutations (dg : String → Hash) (N : Int) (s : MFS) (dest : Path)
    (d : Path × Bool × Listing) : List Event :=
  republished dg N dest d ++ remade dest d ++ swept s dest d

/-- The path `q` is at or below a child of the remote directory of one of the directories `ls`
whose name is not the name of an entry of that directory. -/
def Stale (ls : List (Path × Bool × Listing)) (dest q : Path) : Prop :=
  ∃ d ∈ ls, ∃ n, n ∉ d.2.2.childNames ∧ (dest ++ d.1 ++ [n]) <+: q

/-- What the part of a run of `walk` that handles the directories `ls`, all ready, does, from
the remote tree `s` to `s'` with events `t`: nothing is left at or below a child of a remote
directory that has no local entry of that name, every other path holds what it held, the
`files/rm` and `files/cp` requests are, up to their order, those of `levelMutations`, and `SAME`
is logged for every file whose cache read gives the hash of its content. -/
def Swept (dg : String → Hash) (N : Int) (ls : List (Path × Bool × Listing)) (dest : Path)
    (s s' : MFS) (t : List Event) : Prop :=
  (∀ q, Stale ls dest q → s'.get q = none) ∧
  (∀ q, ¬ Stale ls dest q → s'.get q = s.get q) ∧
  (t.filter Event.mutates).Perm (ls.flatMap (levelMutations dg N s dest)) ∧
  (∀ d ∈ ls, ∀ f ∈ (readDir d.2.2).2, Getxattr f = some (dg f.content) →
    Event.log "SAME" (dest ++ d.1 ++ [f.name]) ∈ t)

/-- No directory of the source tree is empty: the source directory and every directory below it
has a subdirectory or a regular file. -/
def Listing.noEmptyDir (es : Listing) : Bool :=
  (([], true, es) :: es.subdirs).all fun d => !d.2.2.childNames.isEmpty

/-- The hash that the upload returns for each regular file of the source tree fits the buffer
that `addFile` reads the cache into. -/
def Listing.hashesFit (dg : String → Hash) (es : Listing) : Bool :=
  (([], true, es) :: es.subdirs).all fun d =>
    (readDir d.2.2).2.all fun f => decide ((dg f.content).utf8ByteSize ≤ originalHashSize)

/-- The source directory (readable when `readable`) and every directory below it can be read,
and every regular file can be opened. -/
def Listing.healthy (readable : Bool) (es : Listing) : Bool :=
  (([], readable, es) :: es.subdirs).all fun d =>
    d.2.1 && (readDir d.2.2).2.all fun f => f.openable

/-- The cache read of every regular file of the source tree gives the hash of its content: the
cache holds that hash, and it fits the buffer. -/
def Listing.allCached (dg : String → Hash) (es : Listing) : Bool :=
  (([], true, es) :: es.subdirs).all fun d =>
    (readDir d.2.2).2.all fun f => Getxattr f == some (dg f.content)

/-- The remote tree below `dest` mirrors the source tree: at every level the remote directory
exists and its children have exactly the names of the subdirectories and regular files of the
local directory. -/
def MFS.mirrors (s : MFS) (dest : Path) (es : Listing) : Bool :=
  (([], true, es) :: es.subdirs).all fun d =>
    s.isDir (dest ++ d.1) &&
    (s.children (dest ++ d.1)).all (fun n => decide (n ∈ d.2.2.childNames)) &&
    d.2.2.childNames.all (fun n => decide (n ∈ s.children (dest ++ d.1)))

/-! ## Concrete inputs -/

/-- A string of 257 bytes, one more than `originalHashSize`. -/
def hash257 : Hash := String.mk (List.replicate 257 'Q')

/-- A regular file whose cached hash is `hash257`. -/
def f257 : File := ⟨"x.bin", true, "data", some hash257, true⟩

/-- The digest of the examples: the content of the file after `Qm`. -/
def exDigest (content : String) : Hash := "Qm" ++ content

/-- The source tree `A/{x.txt, B/{y.txt}}`, with no file cached yet. -/
def exTree : Listing :=
  .file ⟨"x.txt", true, "hello", none, true⟩
    (.dir "B" true (.file ⟨"y.txt", true, "world", none, true⟩ .nil) .nil)

/-- The tree `exTree` after a run: every file caches the hash of its content. -/
def exTreeCached : Listing :=
  .file ⟨"x.txt", true, "hello", some "Qmhello", true⟩
    (.dir "B" true (.file ⟨"y.txt", true, "world", some "Qmworld", true⟩ .nil) .nil)

/-- The remote tree after `exTree` has been synchronized to `/sync`. -/
def exRemote : MFS :=
  [(["sync", "x.txt"], .file "Qmhello"), (["sync", "B", "y.txt"], .file "Qmworld"),
    (["sync"], .dir), (["sync", "B"], .dir)]

/-- The source tree `A/{E/, x.txt}` with an empty directory `E`; the file is cached. -/
def exTreeWithEmpty : Listing :=
  .dir "E" true .nil (.file ⟨"x.txt", true, "hello", some "Qmhello", true⟩ .nil)

/-- The remote tree that mirrors `exTreeWithEmpty` below `/sync`. -/
def exRemoteWithEmpty : MFS :=
  [(["sync", "x.txt"], .file "Qmhello"), (["sync", "E"], .dir), (["sync"], .dir)]

/-- The source tree `A/{x.bin}` whose file has a content of 255 bytes, so that its digest
`exDigest` has 257 bytes; the file is not cached yet. -/
def exTreeLong : Listing :=
  .file ⟨"x.bin", true, String.mk (List.replicate 255 'a'), none, true⟩ .nil

/-- A daemon that accepts every request and lists nothing. -/
def exShell : Shell Unit where
  Add := fun s _ => (.ok "", s)
  Exec := fun s _ => (.ok [], s)
section
variable {σ α β : Type}

/-! ## Reasoning about programs -/

theorem bind_def (m : Prog σ α) (f : α → Prog σ β) : (m >>= f) = Prog.bind m f := rfl

theorem pure_def (a : α) : (pure a : Prog σ α) = Prog.ret a := rfl

@[simp] theorem Outcome.after_result (o : Outcome σ α) (t : List Event) :
    (o.after t).result = o.result := rfl

@[simp] theorem Outcome.after_state (o : Outcome σ α) (t : List Event) :
    (o.after t).state = o.state := rfl

@[simp] theorem Outcome.after_trace (o : Outcome σ α) (t : List Event) :
    (o.after t).trace = t ++ o.trace := rfl

@[simp] theorem Outcome.after_mk (r : Except Error α) (s : σ) (t u : List Event) :
    (Outcome.mk r s u).after t = ⟨r, s, t ++ u⟩ := rfl

theorem Prog.bind_ok {m : Prog σ α} {f : α → Prog σ β} {s s1 : σ} {a : α} {t1 : List Event}
    (h : m s = ⟨.ok a, s1, t1⟩) : (m >>= f) s = (f a s1).after t1 := by
  simp [bind_def, Prog.bind, h]

theorem Prog.bind_error {m : Prog σ α} {f : α → Prog σ β} {s s1 : σ} {e : Error}
    {t1 : List Event} (h : m s = ⟨.error e, s1, t1⟩) :
    (m >>= f) s = ⟨.error e, s1, t1⟩ := by
  simp [bind_def, Prog.bind, h]

theorem Outcome.eta (o : Outcome σ α) : o = ⟨o.result, o.state, o.trace⟩ := rfl

theorem Prog.bind_eq_ok {m : Prog σ α} {f : α → Prog σ β} {s s2 : σ} {b : β} {t : List Event}
    (h : (m >>= f) s = ⟨.ok b, s2, t⟩) :
    ∃ a s1 t1 t2, m s = ⟨.ok a, s1, t1⟩ ∧ f a s1 = ⟨.ok b, s2, t2⟩ ∧ t = t1 ++ t2 := by
  rcases hm : m s with ⟨r, s1, t1⟩
  cases r with
  | error e => rw [Prog.bind_error hm] at h; cases h
  | ok a =>
    rw [Prog.bind_ok hm] at h
    simp only [Outcome.after, Outcome.mk.injEq] at h
    obtain ⟨h1, h2, h3⟩ := h
    refine ⟨a, s1, t1, (f a s1).trace, rfl, ?_, h3.symm⟩
    rw [Outcome.eta (f a s1), h1, h2]

theorem exec_apply (ipfs : Shell σ) (site : Site) (r : Request) (format : String)
    (args : List Path) (s : σ) :
    exec ipfs site r format args s =
      match (ipfs.Exec s r).1 with
      | .ok out => ⟨.ok out, (ipfs.Exec s r).2, [.call site (.request r) true]⟩
      | .error err =>
        ⟨.error (.wrapf err format args), (ipfs.Exec s r).2, [.call site (.request r) false]⟩ := by
  simp only [exec, bind_def, Prog.bind, request]
  cases (ipfs.Exec s r).1 <;> simp [Prog.fail, pure_def, Prog.ret, isOk]

theorem cacheHit_iff (f : File) (hash : Hash) : cacheHit f hash = true ↔ Getxattr f = some hash := by
  unfold cacheHit
  cases h : Getxattr f with
  | none => simp
  | some v =>
    simp only [Bool.and_eq_true, beq_iff_eq, Option.some.injEq]
    constructor
    · exact fun h => h.2
    · rintro rfl; exact ⟨rfl, rfl⟩

theorem Getxattr_eq_some (f : File) (v : String) :
    Getxattr f = some v ↔ f.xattr = some v ∧ v.utf8ByteSize ≤ originalHashSize := by
  unfold Getxattr
  cases h : f.xattr with
  | none => simp
  | some w =>
    by_cases hw : w.utf8ByteSize ≤ originalHashSize
    · simp only [hw, if_true, Option.some.injEq]
      constructor
      · rintro rfl; exact ⟨rfl, hw⟩
      · exact fun h => h.1
    · simp only [hw, if_false, Option.some.injEq, false_iff, not_and, reduceCtorEq]
      rintro rfl; exact hw

theorem addFile_eq (ipfs : Shell σ) (localPath : Path) (f : File) (remotePath : Path)
    (flushDepth : Int) (s : σ) :
    addFile ipfs localPath f remotePath flushDepth s =
      addFileOutcome ipfs localPath f remotePath flushDepth s := by
  unfold addFileOutcome
  cases hopen : f.openable
  · simp [addFile, bind_def, Prog.bind, sys, hopen]
  · cases hadd : (ipfs.Add s f.content).1 with
    | error err => simp [addFile, bind_def, Prog.bind, sys, hopen, add, hadd]
    | ok hash =>
      cases hc : cacheHit f hash
      · by_cases hN : flushDepth ≥ 0 <;>
        cases hcp : (ipfs.Exec ((ipfs.Exec (ipfs.Add s f.content).2 (.rm remotePath false true)).2)
            (.cp hash remotePath (decide (flushDepth ≥ 0)))).1 <;>
        cases hw : f.xattrWritable <;>
        simp only [hN, decide_True, decide_False] at hcp <;>
        simp [addFile, bind_def, Prog.bind, sys, hopen, add, hadd, hc, Prog.emit, request,
            exec_apply, hcp, hN, hw, pure_def, Prog.ret]
      · simp [addFile, bind_def, Prog.bind, sys, hopen, add, hadd, hc, Prog.emit, pure_def,
          Prog.ret]

/-- The run of `addFile` when the file can be opened, the upload returns `hash`, and the cache
read gives `hash`. -/
theorem addFile_hit (ipfs : Shell σ) (localPath remotePath : Path) (f : File) (flushDepth : Int)
    (s : σ) (hash : Hash) (hopen : f.openable = true)
    (hadd : (ipfs.Add s f.content).1 = .ok hash) (hget : Getxattr f = some hash) :
    addFile ipfs localPath f remotePath flushDepth s =
      ⟨.ok f, (ipfs.Add s f.content).2,
        [.call .addFile (.osOpen localPath) true, .call .addFile (.add localPath) true,
          .call .addFile (.getxattr localPath) true, .log "SAME" remotePath]⟩ := by
  have hc : cacheHit f hash = true := (cacheHit_iff f hash).2 hget
  simp [addFile_eq, addFileOutcome, hopen, hadd, hc, hget]

end

/-! ## Change detection in `addFile` -/

section
variable {σ : Type}

/-- C5, as amended.  Let `addFile` open the file and the upload return `hash`.  If the cached
value is `hash` and is at most 256 bytes long (the size of the buffer it is read into), `addFile`
returns success with the file as it was, having sent no request to the daemon and written no
cache: its only steps are the open, the upload, the cache read and the log line `SAME`.  If the
cached value is absent or differs from `hash`, `addFile` does not log `SAME`, and it sends the
`files/rm` and the `files/cp`. -/
theorem addFile_cache_hit_untouched (ipfs : Shell σ) (localPath remotePath : Path) (f : File)
    (flushDepth : Int) (s : σ) (hash : Hash) (hopen : f.openable = true)
    (hadd : (ipfs.Add s f.content).1 = .ok hash) :
    (f.xattr = some hash → hash.utf8ByteSize ≤ originalHashSize →
      addFile ipfs localPath f remotePath flushDepth s =
        ⟨.ok f, (ipfs.Add s f.content).2,
          [.call .addFile (.osOpen localPath) true, .call .addFile (.add localPath) true,
            .call .addFile (.getxattr localPath) true, .log "SAME" remotePath]⟩) ∧
    (f.xattr ≠ some hash →
      Event.log "SAME" remotePath ∉ (addFile ipfs localPath f remotePath flushDepth s).trace ∧
      (∃ ok, Event.call .addFile (.request (.rm remotePath false true)) ok ∈
        (addFile ipfs localPath f remotePath flushDepth s).trace) ∧
      (∃ ok, Event.call .addFile (.request (.cp hash remotePath (decide (flushDepth ≥ 0)))) ok ∈
        (addFile ipfs localPath f remotePath flushDepth s).trace)) := by
  constructor
  · intro hx hlen
    exact addFile_hit ipfs localPath remotePath f flushDepth s hash hopen hadd
      ((Getxattr_eq_some f hash).2 ⟨hx, hlen⟩)
  · intro hx
    have hc : cacheHit f hash = false := by
      rw [Bool.eq_false_iff]
      intro h
      exact hx ((Getxattr_eq_some f hash).1 ((cacheHit_iff f hash).1 h)).1
    rw [addFile_eq]
    simp only [addFileOutcome, hopen, hadd, hc, Bool.true_eq_false, Bool.false_eq_true, if_false]
    cases (ipfs.Exec (ipfs.Exec (ipfs.Add s f.content).2 (Request.rm remotePath false true)).2
      (Request.cp hash remotePath (decide (flushDepth ≥ 0)))).1 <;>
    by_cases hN : flushDepth ≥ 0 <;> simp [hN]

/-- The theorem `addFile_cache_hit_untouched` at a file whose cache holds the hash of its
content, on an empty remote tree. -/
theorem addFile_cache_hit_untouched_witness :
    (⟨"x.txt", true, "hello", some "Qmhello", true⟩ : File).openable = true ∧
    ((mfs (fun c => "Qm" ++ c)).Add [] "hello").1 = .ok "Qmhello" ∧
    addFile (mfs (fun c => "Qm" ++ c)) ["A", "x.txt"] ⟨"x.txt", true, "hello", some "Qmhello", true⟩
        ["sync", "x.txt"] 3 [] =
      ⟨.ok ⟨"x.txt", true, "hello", some "Qmhello", true⟩, [],
        [.call .addFile (.osOpen ["A", "x.txt"]) true, .call .addFile (.add ["A", "x.txt"]) true,
          .call .addFile (.getxattr ["A", "x.txt"]) true, .log "SAME" ["sync", "x.txt"]]⟩ :=
  ⟨rfl, rfl,
    (addFile_cache_hit_untouched (mfs (fun c => "Qm" ++ c)) ["A", "x.txt"] ["sync", "x.txt"]
      ⟨"x.txt", true, "hello", some "Qmhello", true⟩ 3 [] "Qmhello" rfl rfl).1 rfl (by decide)⟩

set_option maxRecDepth 100000 in
/-- C5 as stated fails: the cached value of `f257` is present and identical to the hash the
upload returns, yet `addFile` sends a `files/cp`, because the 257 bytes do not fit the buffer
the cache is read into. -/
theorem addFile_cache_hit_counterexample :
    f257.xattr = some hash257 ∧
    ((mfs (fun _ => hash257)).Add [(["sync"], .dir)] f257.content).1 = .ok hash257 ∧
    Event.call .addFile (.request (.cp hash257 ["sync", "x.bin"] true)) true ∈
      (addFile (mfs (fun _ => hash257)) ["A", "x.bin"] f257 ["sync", "x.bin"] 3
        [(["sync"], .dir)]).trace := by
  decide

/-- C4, as amended.  Let the cache of a file hold `h1`, and let the upload of its bytes return
`h2` different from `h1`.  Then `addFile` sends exactly one `files/cp`, of `/ipfs/h2` to the
remote path; when it returns success the cache of the file holds `h2` and nothing else of the
file has changed; and if `h2` is at most 256 bytes long, a further `addFile` on that file, in
any state of the daemon in which the upload returns `h2` again, returns success with no request
to the daemon: its only steps are the open, the upload, the cache read and the log line `SAME`. -/
theorem addFile_change_detection (ipfs : Shell σ) (localPath remotePath : Path) (f : File)
    (flushDepth : Int) (s : σ) (h1 h2 : Hash) (hopen : f.openable = true)
    (hx : f.xattr = some h1) (hadd : (ipfs.Add s f.content).1 = .ok h2) (hne : h2 ≠ h1) :
    (∃ ok, (addFile ipfs localPath f remotePath flushDepth s).trace.filter
        (Event.isRequest Request.isCp) =
      [.call .addFile (.request (.cp h2 remotePath (decide (flushDepth ≥ 0)))) ok]) ∧
    (∀ f', (addFile ipfs localPath f remotePath flushDepth s).result = .ok f' →
      f' = { f with xattr := some h2 } ∧
      (h2.utf8ByteSize ≤ originalHashSize → ∀ (s' : σ) (flushDepth' : Int),
        (ipfs.Add s' f'.content).1 = .ok h2 →
        addFile ipfs localPath f' remotePath flushDepth' s' =
          ⟨.ok f', (ipfs.Add s' f'.content).2,
            [.call .addFile (.osOpen localPath) true, .call .addFile (.add localPath) true,
              .call .addFile (.getxattr localPath) true, .log "SAME" remotePath]⟩)) := by
  have hc : cacheHit f h2 = false := by
    rw [Bool.eq_false_iff]
    intro h
    have := ((Getxattr_eq_some f h2).1 ((cacheHit_iff f h2).1 h)).1
    rw [hx] at this
    exact hne (Option.some.inj this).symm
  rw [addFile_eq]
  simp only [addFileOutcome, hopen, hadd, hc, Bool.true_eq_false, Bool.false_eq_true, if_false]
  cases hcp : (ipfs.Exec (ipfs.Exec (ipfs.Add s f.content).2
      (Request.rm remotePath false true)).2
      (Request.cp h2 remotePath (decide (flushDepth ≥ 0)))).1 with
  | error err =>
    refine ⟨⟨false, ?_⟩, ?_⟩
    · simp [Event.isRequest, Request.isCp, List.filter]
    · intro f' hf'
      simp at hf'
  | ok out =>
    refine ⟨⟨true, ?_⟩, ?_⟩
    · by_cases hN : flushDepth ≥ 0 <;>
        simp [Event.isRequest, Request.isCp, List.filter, hN]
    · intro f' hf'
      cases hw : f.xattrWritable
      · simp [hw] at hf'
      · simp only [hw, if_true, Except.ok.injEq] at hf'
        subst hf'
        refine ⟨rfl, ?_⟩
        intro hlen s' N' hadd'
        have key := addFile_hit ipfs localPath remotePath { f with xattr := some h2 } N' s' h2
          hopen hadd' ((Getxattr_eq_some _ h2).2 ⟨rfl, hlen⟩)
        rw [hopen, hw] at key
        exact key

/-- The theorem `addFile_change_detection` at a file whose content changed from `hello` to
`world`, in a remote directory that holds the old version. -/
theorem addFile_change_detection_witness :
    (∃ ok, (addFile (mfs (fun c => "Qm" ++ c)) ["A", "x.txt"]
        ⟨"x.txt", true, "world", some "Qmhello", true⟩ ["sync", "x.txt"] 3
        [(["sync", "x.txt"], .file "Qmhello"), (["sync"], .dir)]).trace.filter
        (Event.isRequest Request.isCp) =
      [.call .addFile (.request (.cp "Qmworld" ["sync", "x.txt"] (decide ((3 : Int) ≥ 0)))) ok]) :=
  (addFile_change_detection (mfs (fun c => "Qm" ++ c)) ["A", "x.txt"] ["sync", "x.txt"]
    ⟨"x.txt", true, "world", some "Qmhello", true⟩ 3
    [(["sync", "x.txt"], .file "Qmhello"), (["sync"], .dir)] "Qmhello" "Qmworld" rfl rfl rfl
    (by decide)).1

set_option maxRecDepth 100000 in
/-- C4 as stated fails: the cache of the file holds `Qmhello`, the upload returns the 257 bytes
of `hash257`, and `addFile` publishes the file and caches that hash; a further `addFile` on the
unchanged file sends a `files/cp` again instead of logging `SAME`. -/
theorem addFile_change_detection_counterexample :
    (addFile (mfs (fun _ => hash257)) ["A", "x.bin"] ⟨"x.bin", true, "data", some "Qmhello", true⟩
        ["sync", "x.bin"] 3 [(["sync"], .dir)]).result = .ok f257 ∧
    Event.log "SAME" ["sync", "x.bin"] ∉
      (addFile (mfs (fun _ => hash257)) ["A", "x.bin"] f257 ["sync", "x.bin"] 3
        [(["sync", "x.bin"], .file hash257), (["sync"], .dir)]).trace ∧
    Event.call .addFile (.request (.cp hash257 ["sync", "x.bin"] true)) true ∈
      (addFile (mfs (fun _ => hash257)) ["A", "x.bin"] f257 ["sync", "x.bin"] 3
        [(["sync", "x.bin"], .file hash257), (["sync"], .dir)]).trace := by
  decide

end

section
variable {σ α β : Type}

/-! ## Properties of every event of a run -/

theorem all_pure {P : Event → Prop} (a : α) : Prog.All P (pure a : Prog σ α) := by
  intro s e he
  simp [pure_def, Prog.ret] at he

theorem all_fail {P : Event → Prop} (err : Error) : Prog.All P (Prog.fail err : Prog σ α) := by
  intro s e he
  simp [Prog.fail] at he

theorem all_bind {P : Event → Prop} {m : Prog σ α} {f : α → Prog σ β}
    (hm : Prog.All P m) (hf : ∀ a, Prog.All P (f a)) : Prog.All P (m >>= f) := by
  intro s e he
  simp only [bind_def, Prog.bind] at he
  cases hr : (m s).result with
  | error err =>
    rw [hr] at he
    exact hm s e he
  | ok a =>
    rw [hr] at he
    simp only [Outcome.after_trace, List.mem_append] at he
    rcases he with he | he
    · exact hm s e he
    · exact hf a _ e he

theorem all_emit {P : Event → Prop} {e : Event} (h : P e) :
    Prog.All P (Prog.emit e : Prog σ Unit) := by
  intro s e' he
  simp only [Prog.emit, List.mem_singleton] at he
  exact he ▸ h

theorem all_sys {P : Event → Prop} {site : Site} {c : Call} {ok : Bool} {err : Error}
    (h : P (.call site c ok)) : Prog.All P (sys site c ok err : Prog σ Unit) := by
  intro s e' he
  simp only [IpfsFilesSync.sys, List.mem_singleton] at he
  exact he ▸ h

theorem all_request {P : Event → Prop} {ipfs : Shell σ} {site : Site} {r : Request}
    (h : ∀ ok, P (.call site (.request r) ok)) : Prog.All P (request ipfs site r) := by
  intro s e' he
  simp only [IpfsFilesSync.request, List.mem_singleton] at he
  exact he ▸ h _

theorem all_exec {P : Event → Prop} {ipfs : Shell σ} {site : Site} {r : Request}
    {format : String} {args : List Path}
    (h : ∀ ok, P (.call site (.request r) ok)) : Prog.All P (exec ipfs site r format args) := by
  intro s e' he
  rw [exec_apply] at he
  cases hr : (ipfs.Exec s r).1 <;> rw [hr] at he <;>
    simp only [List.mem_singleton] at he <;> exact he ▸ h _

theorem all_ite {P : Event → Prop} {c : Prop} [Decidable c] {a b : Prog σ α}
    (ha : c → Prog.All P a) (hb : ¬c → Prog.All P b) : Prog.All P (if c then a else b) := by
  split
  · exact ha ‹_›
  · exact hb ‹_›

theorem all_mono {P Q : Event → Prop} {m : Prog σ α} (h : ∀ e, P e → Q e)
    (hm : Prog.All P m) : Prog.All Q m :=
  fun s e he => h e (hm s e he)

/-- The events of a run of `addFile`. -/
theorem addFile_trace_mem {ipfs : Shell σ} {localPath remotePath : Path} {f : File}
    {flushDepth : Int} {s : σ} :
    ∀ e ∈ (addFile ipfs localPath f remotePath flushDepth s).trace,
      (∃ ok, e = .call .addFile (.osOpen localPath) ok) ∨
      (∃ ok, e = .call .addFile (.add localPath) ok) ∨
      (∃ ok, e = .call .addFile (.getxattr localPath) ok) ∨
      (∃ ok, e = .call .addFile (.request (.rm remotePath false true)) ok) ∨
      (∃ hash ok,
        e = .call .addFile (.request (.cp hash remotePath (decide (flushDepth ≥ 0)))) ok) ∨
      (∃ hash ok, e = .call .addFile (.setxattr localPath hash) ok) ∨
      (∃ tag, e = .log tag remotePath) := by
  rw [addFile_eq]
  unfold addFileOutcome
  cases hopen : f.openable
  · simp
  · cases hadd : (ipfs.Add s f.content).1 with
    | error err => simp
    | ok hash =>
      dsimp only
      cases hc : cacheHit f hash
      · cases hcp : (ipfs.Exec (ipfs.Exec (ipfs.Add s f.content).2
            (Request.rm remotePath false true)).2
            (Request.cp hash remotePath (decide (flushDepth ≥ 0)))).1 <;>
          by_cases hN : flushDepth ≥ 0 <;>
          cases hg : Getxattr f <;>
          cases hw : f.xattrWritable <;>
          simp [hN]
      · cases hg : Getxattr f <;> simp

end

section
variable {σ α β : Type}

/-! ## The flush horizon -/

theorem Event.withinHorizon_of_not_durable {dest : Path} {N : Int} {e : Event}
    (h : e.isRequest Request.durable = false) : e.withinHorizon dest N := by
  intro hd
  rw [h] at hd
  cases hd

theorem Event.withinHorizon_sub {dest : Path} {N : Int} {name : String} {e : Event}
    (h : e.withinHorizon (childPath dest name) (N - 1)) : e.withinHorizon dest N := by
  intro hd
  rcases h hd with ⟨r, ok, he, hr⟩ | ⟨r, hash, ok, he, hne, hr⟩
  · refine Or.inl ⟨name :: r, ok, ?_, ?_⟩
    · simp [he, childPath]
    · simp only [List.length_cons, Nat.cast_add, Nat.cast_one]; omega
  · refine Or.inr ⟨name :: r, hash, ok, ?_, by simp, ?_⟩
    · simp [he, childPath]
    · simp only [List.length_cons, Nat.cast_add, Nat.cast_one]; omega

theorem addFile_withinHorizon (ipfs : Shell σ) (localPath dest : Path) (f : File) (name : String)
    (N : Int) :
    Prog.All (Event.withinHorizon dest N) (addFile ipfs localPath f (childPath dest name) (N - 1)) := by
  intro s e he
  rcases addFile_trace_mem e he with ⟨ok, rfl⟩ | ⟨ok, rfl⟩ | ⟨ok, rfl⟩ | ⟨ok, rfl⟩ |
    ⟨hash, ok, rfl⟩ | ⟨hash, ok, rfl⟩ | ⟨tag, rfl⟩
  iterate 4 exact Event.withinHorizon_of_not_durable rfl
  · intro hd
    simp only [Event.isRequest, Request.durable, decide_eq_true_eq] at hd
    refine Or.inr ⟨[name], hash, ok, ?_, by simp, ?_⟩
    · simp [hd, childPath]
    · simp only [List.length_singleton, Nat.cast_one]; omega
  iterate 2 exact Event.withinHorizon_of_not_durable rfl

theorem walkFiles_withinHorizon (ipfs : Shell σ) (src dest : Path) (N : Int) (es : Listing) :
    Prog.All (Event.withinHorizon dest N) (walkFiles ipfs src dest N es) := by
  induction es with
  | nil => exact all_pure _
  | dir name readable sub rest _ ih => exact all_bind ih (fun _ => all_pure _)
  | file f rest ih =>
    exact all_bind (addFile_withinHorizon ipfs _ dest f f.name N)
      (fun _ => all_bind ih (fun _ => all_pure _))
  | other name rest ih => exact all_bind ih (fun _ => all_pure _)

theorem remakeDir_withinHorizon (ipfs : Shell σ) (dest : Path) (N : Int) :
    Prog.All (Event.withinHorizon dest N) (remakeDir ipfs dest) :=
  all_bind (all_exec fun _ => Event.withinHorizon_of_not_durable rfl)
    (fun _ => all_bind (all_exec fun _ => Event.withinHorizon_of_not_durable rfl)
      (fun _ => all_pure _))

theorem removeOrphans_withinHorizon (ipfs : Shell σ) (dest : Path) (N : Int)
    (children : List String) (entries : List UnixFSEntry) :
    Prog.All (Event.withinHorizon dest N) (removeOrphans ipfs dest children entries) := by
  induction entries with
  | nil => exact all_pure _
  | cons file entries ih =>
    unfold removeOrphans
    refine all_ite (fun _ => ?_) (fun _ => ih)
    exact all_bind (all_exec fun _ => Event.withinHorizon_of_not_durable rfl)
      (fun _ => all_bind (all_emit (Event.withinHorizon_of_not_durable rfl))
        (fun _ => ih))

theorem walkAfterDirs_withinHorizon (ipfs : Shell σ) (src : Path) (es : Listing)
    (dirs : List String) (files : List File) (dest : Path) (N : Int) :
    Prog.All (Event.withinHorizon dest N) (walkAfterDirs ipfs src es dirs files dest N) := by
  unfold walkAfterDirs
  refine all_bind ?_ (fun _ => all_bind (walkFiles_withinHorizon ipfs src dest N es)
    (fun _ => all_bind ?_ (fun _ => all_bind ?_ (fun _ => all_pure _))))
  · exact all_ite
      (fun _ => all_bind (all_exec fun _ => Event.withinHorizon_of_not_durable rfl)
        (fun _ => all_pure _))
      (fun _ => all_pure _)
  · exact all_ite (fun _ => remakeDir_withinHorizon ipfs dest N)
      (fun _ => all_bind (all_exec fun _ => Event.withinHorizon_of_not_durable rfl)
        (fun _ => removeOrphans_withinHorizon ipfs dest N _ _))
  · refine all_ite (fun hN => ?_) (fun _ => all_pure _)
    refine all_bind (all_exec fun ok => ?_)
      (fun _ => all_emit (Event.withinHorizon_of_not_durable rfl))
    intro _
    exact Or.inl ⟨[], ok, by simp, by simpa using hN⟩

theorem walkBody_withinHorizon (ipfs : Shell σ) (src : Path) (readable : Bool) (es : Listing)
    (dest : Path) (N : Int) (loop : Prog σ Listing)
    (hloop : Prog.All (Event.withinHorizon dest N) loop) :
    Prog.All (Event.withinHorizon dest N) (walkBody ipfs src readable es dest N loop) :=
  all_bind (all_sys (Event.withinHorizon_of_not_durable rfl))
    (fun _ => all_bind hloop (fun _ => walkAfterDirs_withinHorizon ipfs src _ _ _ dest N))

theorem walkDirs_withinHorizon (ipfs : Shell σ) (src dest : Path) (N : Int) (es : Listing) :
    Prog.All (Event.withinHorizon dest N) (walkDirs ipfs src dest N es) := by
  induction es generalizing src dest N with
  | nil => exact all_pure _
  | dir name readable sub rest ihsub ihrest =>
    refine all_bind ?_ (fun _ => all_bind (ihrest src dest N) (fun _ => all_pure _))
    exact all_mono (fun e => Event.withinHorizon_sub)
      (walkBody_withinHorizon ipfs _ readable sub _ _ _ (ihsub _ _ _))
  | file f rest ih => exact all_bind (ih src dest N) (fun _ => all_pure _)
  | other name rest ih => exact all_bind (ih src dest N) (fun _ => all_pure _)

theorem walk_withinHorizon (ipfs : Shell σ) (src : Path) (readable : Bool) (es : Listing)
    (dest : Path) (N : Int) :
    Prog.All (Event.withinHorizon dest N) (walk ipfs src readable es dest N) :=
  walkBody_withinHorizon ipfs src readable es dest N _ (walkDirs_withinHorizon ipfs src dest N es)

end

section
variable {σ α β : Type}

/-! ## Runs that return no error -/

theorem Prog.bind_eq_ok_iff {m : Prog σ α} {f : α → Prog σ β} {s s2 : σ} {b : β}
    {t : List Event} :
    (m >>= f) s = ⟨.ok b, s2, t⟩ ↔
      ∃ a s1 t1 t2, m s = ⟨.ok a, s1, t1⟩ ∧ f a s1 = ⟨.ok b, s2, t2⟩ ∧ t = t1 ++ t2 := by
  constructor
  · exact Prog.bind_eq_ok
  · rintro ⟨a, s1, t1, t2, hm, hf, rfl⟩
    rw [Prog.bind_ok hm, hf]
    rfl

theorem Prog.pure_eq_ok_iff {a b : α} {s s' : σ} {t : List Event} :
    (pure a : Prog σ α) s = ⟨.ok b, s', t⟩ ↔ b = a ∧ s' = s ∧ t = [] := by
  simp only [pure_def, Prog.ret, Outcome.mk.injEq, Except.ok.injEq]
  constructor
  · rintro ⟨rfl, rfl, rfl⟩; exact ⟨rfl, rfl, rfl⟩
  · rintro ⟨rfl, rfl, rfl⟩; exact ⟨rfl, rfl, rfl⟩

theorem Prog.emit_eq_ok_iff {e : Event} {u : Unit} {s s' : σ} {t : List Event} :
    (Prog.emit e : Prog σ Unit) s = ⟨.ok u, s', t⟩ ↔ s' = s ∧ t = [e] := by
  simp only [Prog.emit, Outcome.mk.injEq, true_and]
  constructor
  · rintro ⟨rfl, rfl⟩; exact ⟨rfl, rfl⟩
  · rintro ⟨rfl, rfl⟩; exact ⟨rfl, rfl⟩

theorem sys_eq_ok_iff {site : Site} {c : Call} {ok : Bool} {err : Error} {u : Unit} {s s' : σ}
    {t : List Event} :
    sys site c ok err s = ⟨.ok u, s', t⟩ ↔ ok = true ∧ s' = s ∧ t = [.call site c true] := by
  cases ok <;> simp [sys, eq_comm]

theorem exec_eq_ok_iff {ipfs : Shell σ} {site : Site} {r : Request} {format : String}
    {args : List Path} {out : List UnixFSEntry} {s s' : σ} {t : List Event} :
    exec ipfs site r format args s = ⟨.ok out, s', t⟩ ↔
      ipfs.Exec s r = (.ok out, s') ∧ t = [.call site (.request r) true] := by
  rw [exec_apply]
  rcases h : ipfs.Exec s r with ⟨res, s1⟩
  cases res <;> simp [eq_comm, and_assoc]

theorem flushDir_eq_ok_iff {ipfs : Shell σ} {dest : Path} {N : Int} {u : Unit} {s s' : σ}
    {t : List Event} :
    flushDir ipfs dest N s = ⟨.ok u, s', t⟩ ↔
      (N ≥ 0 ∧ (∃ out, ipfs.Exec s (.flush dest) = (.ok out, s')) ∧
        t = [.call .walk (.request (.flush dest)) true, .log "FLUSH" dest]) ∨
      (¬ N ≥ 0 ∧ s' = s ∧ t = []) := by
  unfold flushDir
  by_cases hN : N ≥ 0
  · rw [if_pos hN]
    simp only [Prog.bind_eq_ok_iff, exec_eq_ok_iff, Prog.emit_eq_ok_iff]
    constructor
    · rintro ⟨out, s1, t1, t2, ⟨h1, rfl⟩, ⟨rfl, rfl⟩, rfl⟩
      exact Or.inl ⟨hN, ⟨out, h1⟩, rfl⟩
    · rintro (⟨_, ⟨out, h1⟩, rfl⟩ | ⟨h, _⟩)
      · exact ⟨out, s', _, _, ⟨h1, rfl⟩, ⟨rfl, rfl⟩, rfl⟩
      · exact absurd hN h
  · rw [if_neg hN]
    simp only [Prog.pure_eq_ok_iff]
    constructor
    · rintro ⟨_, rfl, rfl⟩; exact Or.inr ⟨hN, rfl, rfl⟩
    · rintro (⟨h, _⟩ | ⟨_, rfl, rfl⟩)
      · exact absurd h hN
      · exact ⟨trivial, rfl, rfl⟩

theorem walkAfterDirs_eq_ok_iff {ipfs : Shell σ} {src : Path} {es es' : Listing}
    {dirs : List String} {files : List File} {dest : Path} {N : Int} {s s' : σ}
    {t : List Event} :
    walkAfterDirs ipfs src es dirs files dest N s = ⟨.ok es', s', t⟩ ↔
      ∃ s1 t1 s2 t2 s3 t3 t4,
        precreate ipfs dirs files dest s = ⟨.ok (), s1, t1⟩ ∧
        walkFiles ipfs src dest N es s1 = ⟨.ok es', s2, t2⟩ ∧
        reconcile ipfs dirs files dest s2 = ⟨.ok (), s3, t3⟩ ∧
        flushDir ipfs dest N s3 = ⟨.ok (), s', t4⟩ ∧
        t = t1 ++ (t2 ++ (t3 ++ t4)) := by
  simp only [walkAfterDirs, Prog.bind_eq_ok_iff, Prog.pure_eq_ok_iff]
  constructor
  · rintro ⟨_, s1, t1, _, h1, ⟨es1, s2, t2, _, h2, ⟨_, s3, t3, _, h3,
      ⟨_, s4, t4, _, h4, ⟨rfl, rfl, rfl⟩, rfl⟩, rfl⟩, rfl⟩, rfl⟩
    exact ⟨s1, t1, s2, t2, s3, t3, t4, h1, h2, h3, h4, by simp⟩
  · rintro ⟨s1, t1, s2, t2, s3, t3, t4, h1, h2, h3, h4, rfl⟩
    exact ⟨(), s1, t1, _, h1, ⟨es', s2, t2, _, h2, ⟨(), s3, t3, _, h3,
      ⟨(), s', t4, [], h4, ⟨rfl, rfl, rfl⟩, by simp⟩, rfl⟩, rfl⟩, rfl⟩

theorem walkBody_eq_ok_iff {ipfs : Shell σ} {src : Path} {readable : Bool} {es es' : Listing}
    {dest : Path} {N : Int} {loop : Prog σ Listing} {s s' : σ} {t : List Event} :
    walkBody ipfs src readable es dest N loop s = ⟨.ok es', s', t⟩ ↔
      readable = true ∧ ∃ es1 s1 t1 t2,
        loop s = ⟨.ok es1, s1, t1⟩ ∧
        walkAfterDirs ipfs src es1 (readDir es).1 (readDir es).2 dest N s1 = ⟨.ok es', s', t2⟩ ∧
        t = .call .walk (.readDir src) true :: (t1 ++ t2) := by
  simp only [walkBody, Prog.bind_eq_ok_iff, sys_eq_ok_iff]
  constructor
  · rintro ⟨_, _, _, _, ⟨hr, rfl, rfl⟩, ⟨es1, s1, t1, t2, h1, h2, rfl⟩, rfl⟩
    exact ⟨hr, es1, s1, t1, t2, h1, h2, rfl⟩
  · rintro ⟨hr, es1, s1, t1, t2, h1, h2, rfl⟩
    exact ⟨(), s, _, _, ⟨hr, rfl, rfl⟩, ⟨es1, s1, t1, t2, h1, h2, rfl⟩, rfl⟩

theorem walkDirs_dir_eq_ok_iff {ipfs : Shell σ} {src dest : Path} {N : Int} {name : String}
    {readable : Bool} {sub rest es' : Listing} {s s' : σ} {t : List Event} :
    walkDirs ipfs src dest N (.dir name readable sub rest) s = ⟨.ok es', s', t⟩ ↔
      ∃ sub' s1 t1 rest' t2,
        walk ipfs (childPath src name) readable sub (childPath dest name) (N - 1) s =
          ⟨.ok sub', s1, t1⟩ ∧
        walkDirs ipfs src dest N rest s1 = ⟨.ok rest', s', t2⟩ ∧
        es' = .dir name readable sub' rest' ∧ t = t1 ++ t2 := by
  simp only [walkDirs, walk, Prog.bind_eq_ok_iff, Prog.pure_eq_ok_iff]
  constructor
  · rintro ⟨sub', s1, t1, _, h1, ⟨rest', s2, t2, _, h2, ⟨rfl, rfl, rfl⟩, rfl⟩, rfl⟩
    exact ⟨sub', s1, t1, rest', t2, h1, h2, rfl, by simp⟩
  · rintro ⟨sub', s1, t1, rest', t2, h1, h2, rfl, rfl⟩
    exact ⟨sub', s1, t1, _, h1, ⟨rest', s', t2, [], h2, ⟨rfl, rfl, rfl⟩, by simp⟩, rfl⟩

theorem walkDirs_file_eq_ok_iff {ipfs : Shell σ} {src dest : Path} {N : Int} {f : File}
    {rest es' : Listing} {s s' : σ} {t : List Event} :
    walkDirs ipfs src dest N (.file f rest) s = ⟨.ok es', s', t⟩ ↔
      ∃ rest', walkDirs ipfs src dest N rest s = ⟨.ok rest', s', t⟩ ∧ es' = .file f rest' := by
  simp only [walkDirs, Prog.bind_eq_ok_iff, Prog.pure_eq_ok_iff]
  constructor
  · rintro ⟨rest', s1, t1, _, h1, ⟨rfl, rfl, rfl⟩, rfl⟩
    exact ⟨rest', by simpa using h1, rfl⟩
  · rintro ⟨rest', h1, rfl⟩
    exact ⟨rest', s', t, [], h1, ⟨rfl, rfl, rfl⟩, by simp⟩

theorem walkDirs_other_eq_ok_iff {ipfs : Shell σ} {src dest : Path} {N : Int} {name : String}
    {rest es' : Listing} {s s' : σ} {t : List Event} :
    walkDirs ipfs src dest N (.other name rest) s = ⟨.ok es', s', t⟩ ↔
      ∃ rest', walkDirs ipfs src dest N rest s = ⟨.ok rest', s', t⟩ ∧
        es' = .other name rest' := by
  simp only [walkDirs, Prog.bind_eq_ok_iff, Prog.pure_eq_ok_iff]
  constructor
  · rintro ⟨rest', s1, t1, _, h1, ⟨rfl, rfl, rfl⟩, rfl⟩
    exact ⟨rest', by simpa using h1, rfl⟩
  · rintro ⟨rest', h1, rfl⟩
    exact ⟨rest', s', t, [], h1, ⟨rfl, rfl, rfl⟩, by simp⟩

theorem walkFiles_file_eq_ok_iff {ipfs : Shell σ} {src dest : Path} {N : Int} {f : File}
    {rest es' : Listing} {s s' : σ} {t : List Event} :
    walkFiles ipfs src dest N (.file f rest) s = ⟨.ok es', s', t⟩ ↔
      ∃ f' s1 t1 rest' t2,
        addFile ipfs (childPath src f.name) f (childPath dest f.name) (N - 1) s =
          ⟨.ok f', s1, t1⟩ ∧
        walkFiles ipfs src dest N rest s1 = ⟨.ok rest', s', t2⟩ ∧
        es' = .file f' rest' ∧ t = t1 ++ t2 := by
  simp only [walkFiles, Prog.bind_eq_ok_iff, Prog.pure_eq_ok_iff]
  constructor
  · rintro ⟨f', s1, t1, _, h1, ⟨rest', s2, t2, _, h2, ⟨rfl, rfl, rfl⟩, rfl⟩, rfl⟩
    exact ⟨f', s1, t1, rest', t2, h1, h2, rfl, by simp⟩
  · rintro ⟨f', s1, t1, rest', t2, h1, h2, rfl, rfl⟩
    exact ⟨f', s1, t1, _, h1, ⟨rest', s', t2, [], h2, ⟨rfl, rfl, rfl⟩, by simp⟩, rfl⟩

theorem walkFiles_dir_eq_ok_iff {ipfs : Shell σ} {src dest : Path} {N : Int} {name : String}
    {readable : Bool} {sub rest es' : Listing} {s s' : σ} {t : List Event} :
    walkFiles ipfs src dest N (.dir name readable sub rest) s = ⟨.ok es', s', t⟩ ↔
      ∃ rest', walkFiles ipfs src dest N rest s = ⟨.ok rest', s', t⟩ ∧
        es' = .dir name readable sub rest' := by
  simp only [walkFiles, Prog.bind_eq_ok_iff, Prog.pure_eq_ok_iff]
  constructor
  · rintro ⟨rest', s1, t1, _, h1, ⟨rfl, rfl, rfl⟩, rfl⟩
    exact ⟨rest', by simpa using h1, rfl⟩
  · rintro ⟨rest', h1, rfl⟩
    exact ⟨rest', s', t, [], h1, ⟨rfl, rfl, rfl⟩, by simp⟩

theorem walkFiles_other_eq_ok_iff {ipfs : Shell σ} {src dest : Path} {N : Int} {name : String}
    {rest es' : Listing} {s s' : σ} {t : List Event} :
    walkFiles ipfs src dest N (.other name rest) s = ⟨.ok es', s', t⟩ ↔
      ∃ rest', walkFiles ipfs src dest N rest s = ⟨.ok rest', s', t⟩ ∧
        es' = .other name rest' := by
  simp only [walkFiles, Prog.bind_eq_ok_iff, Prog.pure_eq_ok_iff]
  constructor
  · rintro ⟨rest', s1, t1, _, h1, ⟨rfl, rfl, rfl⟩, rfl⟩
    exact ⟨rest', by simpa using h1, rfl⟩
  · rintro ⟨rest', h1, rfl⟩
    exact ⟨rest', s', t, [], h1, ⟨rfl, rfl, rfl⟩, by simp⟩

theorem walk_nil_eq_ok_iff {ipfs : Shell σ} {src dest : Path} {N : Int} {es' : Listing}
    {s s' : σ} {t : List Event} :
    walkDirs ipfs src dest N .nil s = ⟨.ok es', s', t⟩ ↔ es' = .nil ∧ s' = s ∧ t = [] := by
  simp only [walkDirs, Prog.pure_eq_ok_iff]

theorem walkFiles_nil_eq_ok_iff {ipfs : Shell σ} {src dest : Path} {N : Int} {es' : Listing}
    {s s' : σ} {t : List Event} :
    walkFiles ipfs src dest N .nil s = ⟨.ok es', s', t⟩ ↔ es' = .nil ∧ s' = s ∧ t = [] := by
  simp only [walkFiles, Prog.pure_eq_ok_iff]

end

section
variable {σ α β : Type}

/-! ## Which directories are flushed -/

theorem walk_flush_of_ok {ipfs : Shell σ} {src : Path} {readable : Bool} {es es' : Listing}
    {dest : Path} {N : Int} {s s' : σ} {t : List Event}
    (hrun : walk ipfs src readable es dest N s = ⟨.ok es', s', t⟩) (hN : 0 ≤ N) :
    Event.call .walk (.request (.flush dest)) true ∈ t := by
  obtain ⟨_, es1, s1, t1, t2, _, h2, rfl⟩ := walkBody_eq_ok_iff.1 hrun
  obtain ⟨_, _, _, _, s3, _, t4, _, _, _, h4, rfl⟩ := walkAfterDirs_eq_ok_iff.1 h2
  rcases flushDir_eq_ok_iff.1 h4 with ⟨_, _, rfl⟩ | ⟨h, _⟩
  · simp
  · exact absurd hN h

theorem walkDirs_flush_of_ok {ipfs : Shell σ} (es : Listing) {src dest : Path} {N : Int}
    {es' : Listing} {s s' : σ} {t : List Event}
    (hrun : walkDirs ipfs src dest N es s = ⟨.ok es', s', t⟩) :
    ∀ d ∈ es.subdirs, (d.1.length : Int) ≤ N →
      Event.call .walk (.request (.flush (dest ++ d.1))) true ∈ t := by
  induction es generalizing src dest N es' s s' t with
  | nil => intro d hd; cases hd
  | dir name readable sub rest ihsub ihrest =>
    obtain ⟨sub', s1, t1, rest', t2, h1, h2, _, rfl⟩ := walkDirs_dir_eq_ok_iff.1 hrun
    intro d hd hlen
    simp only [Listing.subdirs, List.cons_append, List.mem_cons, List.mem_append,
      List.mem_map] at hd
    rcases hd with rfl | ⟨d', hd', rfl⟩ | hd
    · have := walk_flush_of_ok h1 (by simpa using hlen)
      exact List.mem_append_left _ this
    · obtain ⟨_, es1, s1', t1a, t1b, h1a, _, rfl⟩ := walkBody_eq_ok_iff.1 h1
      have := ihsub h1a d' hd' (by
        simp only [List.length_cons, Nat.cast_add, Nat.cast_one] at hlen; omega)
      simp only [childPath, List.append_assoc, List.singleton_append] at this
      simp [this]
    · exact List.mem_append_right _ (ihrest h2 d hd hlen)
  | file f rest ih =>
    simp only [walkDirs, Prog.bind_eq_ok_iff, Prog.pure_eq_ok_iff] at hrun
    obtain ⟨rest', s1, t1, _, h1, ⟨_, rfl, rfl⟩, rfl⟩ := hrun
    intro d hd hlen
    simpa using ih h1 d hd hlen
  | other name rest ih =>
    simp only [walkDirs, Prog.bind_eq_ok_iff, Prog.pure_eq_ok_iff] at hrun
    obtain ⟨rest', s1, t1, _, h1, ⟨_, rfl, rfl⟩, rfl⟩ := hrun
    intro d hd hlen
    simpa using ih h1 d hd hlen

theorem walkDirs_segment_of_ok {ipfs : Shell σ} (es : Listing) {src dest : Path} {N : Int}
    {es' : Listing} {s s' : σ} {t : List Event}
    (hrun : walkDirs ipfs src dest N es s = ⟨.ok es', s', t⟩) :
    ∀ d ∈ es.subdirs, ∃ sd pre post,
      t = pre ++ (walk ipfs (src ++ d.1) d.2.1 d.2.2 (dest ++ d.1) (N - d.1.length) sd).trace ++
        post := by
  induction es generalizing src dest N es' s s' t with
  | nil => intro d hd; cases hd
  | dir name readable sub rest ihsub ihrest =>
    obtain ⟨sub', s1, t1, rest', t2, h1, h2, _, rfl⟩ := walkDirs_dir_eq_ok_iff.1 hrun
    intro d hd
    simp only [Listing.subdirs, List.cons_append, List.mem_cons, List.mem_append,
      List.mem_map] at hd
    rcases hd with rfl | ⟨d', hd', rfl⟩ | hd
    · refine ⟨s, [], t2, ?_⟩
      simp only [childPath] at h1
      simp [h1]
    · obtain ⟨_, es1, s1', t1a, t1b, h1a, _, rfl⟩ := walkBody_eq_ok_iff.1 h1
      obtain ⟨sd, pre, post, rfl⟩ := ihsub h1a d' hd'
      refine ⟨sd, .call .walk (.readDir (childPath src name)) true :: pre, post ++ t1b ++ t2, ?_⟩
      have hN : N - 1 - (d'.1.length : Int) = N - ((name :: d'.1).length : Int) := by
        simp only [List.length_cons, Nat.cast_add, Nat.cast_one]; omega
      simp only [childPath, List.append_assoc, List.singleton_append, hN]
      simp
    · obtain ⟨sd, pre, post, rfl⟩ := ihrest h2 d hd
      exact ⟨sd, t1 ++ pre, post, by simp⟩
  | file f rest ih =>
    simp only [walkDirs, Prog.bind_eq_ok_iff, Prog.pure_eq_ok_iff] at hrun
    obtain ⟨rest', s1, t1, _, h1, ⟨_, rfl, rfl⟩, rfl⟩ := hrun
    intro d hd
    obtain ⟨sd, pre, post, rfl⟩ := ih h1 d hd
    exact ⟨sd, pre, post, by simp⟩
  | other name rest ih =>
    simp only [walkDirs, Prog.bind_eq_ok_iff, Prog.pure_eq_ok_iff] at hrun
    obtain ⟨rest', s1, t1, _, h1, ⟨_, rfl, rfl⟩, rfl⟩ := hrun
    intro d hd
    obtain ⟨sd, pre, post, rfl⟩ := ih h1 d hd
    exact ⟨sd, pre, post, by simp⟩

/-- C6.  In a run of `walk` with counter `N` that returns no error, every directory `d` of the
source tree, at depth `d.1.length` below the root (the root itself is at depth 0), is walked
with the counter `N - depth`: the run contains, as one contiguous part, the run of `walk` on
that directory, to its destination path, with that counter.  And a `files/flush` of the
destination path of the directory is issued if and only if `depth ≤ N`. -/
theorem flush_horizon_directories (ipfs : Shell σ) (src dest : Path) (readable : Bool)
    (es es' : Listing) (N : Int) (s s' : σ) (t : List Event)
    (hrun : walk ipfs src readable es dest N s = ⟨.ok es', s', t⟩) :
    ∀ d ∈ ([], readable, es) :: es.subdirs,
      (∃ sd pre post,
        t = pre ++ (walk ipfs (src ++ d.1) d.2.1 d.2.2 (dest ++ d.1) (N - d.1.length) sd).trace ++
          post) ∧
      (Event.call .walk (.request (.flush (dest ++ d.1))) true ∈ t ↔ (d.1.length : Int) ≤ N) := by
  intro d hd
  have hback : Event.call .walk (.request (.flush (dest ++ d.1))) true ∈ t →
      (d.1.length : Int) ≤ N := by
    intro hmem
    have hall := walk_withinHorizon ipfs src readable es dest N s _ (by rw [hrun]; exact hmem)
    rcases hall rfl with ⟨r, ok, he, hr⟩ | ⟨r, hash, ok, he, _, _⟩
    · simp only [Event.call.injEq, Call.request.injEq, Request.flush.injEq,
        List.append_cancel_left_eq, true_and] at he
      rw [he.1]; exact hr
    · cases he
  rcases List.mem_cons.1 hd with rfl | hd
  · refine ⟨⟨s, [], [], ?_⟩, hback, fun h => ?_⟩
    · simp [hrun]
    · simpa using walk_flush_of_ok hrun (by simpa using h)
  · obtain ⟨_, es1, s1, t1, t2, h1, _, rfl⟩ := walkBody_eq_ok_iff.1 hrun
    refine ⟨?_, hback, fun h => ?_⟩
    · obtain ⟨sd, pre, post, rfl⟩ := walkDirs_segment_of_ok es h1 d hd
      exact ⟨sd, .call .walk (.readDir src) true :: pre, post ++ t2, by simp⟩
    · have := walkDirs_flush_of_ok es h1 d hd h
      simp [this]

end

section
variable {σ α β : Type}

/-! ## Abort on the first failure -/

theorem strict_pure (a : α) : Prog.Strict (pure a : Prog σ α) := by
  intro s
  simp [pure_def, Prog.ret, Outcome.stopsAtFirstFatal]

theorem strict_bind {m : Prog σ α} {f : α → Prog σ β}
    (hm : Prog.Strict m) (hf : ∀ a, Prog.Strict (f a)) : Prog.Strict (m >>= f) := by
  intro s
  have h1 := hm s
  simp only [bind_def, Prog.bind]
  unfold Outcome.stopsAtFirstFatal at h1 ⊢
  cases hr : (m s).result with
  | error err =>
    rw [hr] at h1
    simpa using h1
  | ok a =>
    rw [hr] at h1
    have h2 := hf a (m s).state
    unfold Outcome.stopsAtFirstFatal at h2
    simp only [Outcome.after_result, Outcome.after_trace]
    cases hr2 : (f a (m s).state).result with
    | error err =>
      rw [hr2] at h2
      obtain ⟨pre, e, htr, he, hpre⟩ := h2
      refine ⟨(m s).trace ++ pre, e, by simp [htr], he, ?_⟩
      intro e' he'
      rcases List.mem_append.1 he' with h | h
      · exact h1 e' h
      · exact hpre e' h
    | ok b =>
      rw [hr2] at h2
      intro e he
      rcases List.mem_append.1 he with h | h
      · exact h1 e h
      · exact h2 e h

theorem strict_emit {e : Event} (h : e.fatal = false) :
    Prog.Strict (Prog.emit e : Prog σ Unit) := by
  intro s
  simpa [Prog.emit, Outcome.stopsAtFirstFatal] using h

theorem strict_sys {site : Site} {c : Call} {ok : Bool} {err : Error}
    (h : (Event.call site c false).fatal = true) :
    Prog.Strict (sys site c ok err : Prog σ Unit) := by
  intro s
  cases ok
  · exact ⟨[], _, rfl, h, by simp⟩
  · simp [IpfsFilesSync.sys, Outcome.stopsAtFirstFatal, Event.fatal, Event.failed]

theorem strict_add {ipfs : Shell σ} {localPath : Path} {f : File} {format : String}
    {args : List Path} : Prog.Strict (add ipfs localPath f format args) := by
  intro s
  cases h : (ipfs.Add s f.content).1
  · simp only [IpfsFilesSync.add, Outcome.stopsAtFirstFatal, h]
    exact ⟨[], _, rfl, rfl, by simp⟩
  · simp [IpfsFilesSync.add, Outcome.stopsAtFirstFatal, h, Event.fatal, Event.failed]

theorem strict_exec {ipfs : Shell σ} {site : Site} {r : Request} {format : String}
    {args : List Path} (h : (Event.call site (.request r) false).fatal = true) :
    Prog.Strict (exec ipfs site r format args) := by
  intro s
  rw [exec_apply]
  cases hr : (ipfs.Exec s r).1
  · simp only [Outcome.stopsAtFirstFatal]
    exact ⟨[], _, rfl, h, by simp⟩
  · simp [Outcome.stopsAtFirstFatal, Event.fatal, Event.failed]

theorem strict_request {ipfs : Shell σ} {site : Site} {r : Request}
    (h : ∀ ok, (Event.call site (.request r) ok).fatal = false) :
    Prog.Strict (request ipfs site r) := by
  intro s
  simpa [IpfsFilesSync.request, Outcome.stopsAtFirstFatal] using h _

theorem strict_ite {c : Prop} [Decidable c] {a b : Prog σ α}
    (ha : Prog.Strict a) (hb : Prog.Strict b) : Prog.Strict (if c then a else b) := by
  split
  · exact ha
  · exact hb

theorem addFile_strict (ipfs : Shell σ) (localPath remotePath : Path) (f : File) (N : Int) :
    Prog.Strict (addFile ipfs localPath f remotePath N) := by
  unfold addFile
  refine strict_bind (strict_sys rfl) (fun _ => strict_bind strict_add
    (fun hash => strict_bind (strict_emit (by simp [Event.fatal, Event.isCacheRead]))
      (fun _ => ?_)))
  cases cacheHit f hash
  · exact strict_bind (strict_request (fun ok => by simp [Event.fatal, Event.isPreRemoval]))
      (fun _ => strict_bind (strict_exec rfl)
        (fun _ => strict_bind (strict_emit rfl)
          (fun _ => strict_bind (strict_ite (strict_emit rfl) (strict_pure _))
            (fun _ => strict_bind (strict_sys rfl) (fun _ => strict_pure _)))))
  · exact strict_bind (strict_emit rfl) (fun _ => strict_pure _)

theorem walkFiles_strict (ipfs : Shell σ) (src dest : Path) (N : Int) (es : Listing) :
    Prog.Strict (walkFiles ipfs src dest N es) := by
  induction es with
  | nil => exact strict_pure _
  | dir name readable sub rest _ ih => exact strict_bind ih (fun _ => strict_pure _)
  | file f rest ih =>
    exact strict_bind (addFile_strict ipfs _ _ f _)
      (fun _ => strict_bind ih (fun _ => strict_pure _))
  | other name rest ih => exact strict_bind ih (fun _ => strict_pure _)

theorem remakeDir_strict (ipfs : Shell σ) (dest : Path) : Prog.Strict (remakeDir ipfs dest) :=
  strict_bind (strict_exec rfl)
    (fun _ => strict_bind (strict_exec rfl) (fun _ => strict_pure _))

theorem removeOrphans_strict (ipfs : Shell σ) (dest : Path) (children : List String)
    (entries : List UnixFSEntry) : Prog.Strict (removeOrphans ipfs dest children entries) := by
  induction entries with
  | nil => exact strict_pure _
  | cons file entries ih =>
    unfold removeOrphans
    exact strict_ite
      (strict_bind (strict_exec rfl)
        (fun _ => strict_bind (strict_emit rfl) (fun _ => ih))) ih

theorem walkAfterDirs_strict (ipfs : Shell σ) (src : Path) (es : Listing)
    (dirs : List String) (files : List File) (dest : Path) (N : Int) :
    Prog.Strict (walkAfterDirs ipfs src es dirs files dest N) := by
  unfold walkAfterDirs
  refine strict_bind ?_ (fun _ => strict_bind (walkFiles_strict ipfs src dest N es)
    (fun _ => strict_bind ?_ (fun _ => strict_bind ?_ (fun _ => strict_pure _))))
  · exact strict_ite
      (strict_bind (strict_exec rfl) (fun _ => strict_pure _)) (strict_pure _)
  · exact strict_ite (remakeDir_strict ipfs dest)
      (strict_bind (strict_exec rfl) (fun _ => removeOrphans_strict ipfs dest _ _))
  · exact strict_ite
      (strict_bind (strict_exec rfl) (fun _ => strict_emit rfl))
      (strict_pure _)

theorem walkBody_strict (ipfs : Shell σ) (src : Path) (readable : Bool) (es : Listing)
    (dest : Path) (N : Int) (loop : Prog σ Listing) (hloop : Prog.Strict loop) :
    Prog.Strict (walkBody ipfs src readable es dest N loop) :=
  strict_bind (strict_sys rfl)
    (fun _ => strict_bind hloop (fun _ => walkAfterDirs_strict ipfs src _ _ _ dest N))

theorem walkDirs_strict (ipfs : Shell σ) (src dest : Path) (N : Int) (es : Listing) :
    Prog.Strict (walkDirs ipfs src dest N es) := by
  induction es generalizing src dest N with
  | nil => exact strict_pure _
  | dir name readable sub rest ihsub ihrest =>
    exact strict_bind (walkBody_strict ipfs _ readable sub _ _ _ (ihsub _ _ _))
      (fun _ => strict_bind (ihrest src dest N) (fun _ => strict_pure _))
  | file f rest ih => exact strict_bind (ih src dest N) (fun _ => strict_pure _)
  | other name rest ih => exact strict_bind (ih src dest N) (fun _ => strict_pure _)

theorem walk_strict (ipfs : Shell σ) (src : Path) (readable : Bool) (es : Listing)
    (dest : Path) (N : Int) : Prog.Strict (walk ipfs src readable es dest N) :=
  walkBody_strict ipfs src readable es dest N _ (walkDirs_strict ipfs src dest N es)

theorem Outcome.stopsAtFirstFatal.error_iff {o : Outcome σ α} (h : o.stopsAtFirstFatal) :
    (isOk o.result = false ↔ ∃ e ∈ o.trace, e.fatal = true) ∧
    (isOk o.result = false →
      ∃ pre e, o.trace = pre ++ [e] ∧ e.fatal = true ∧ ∀ e' ∈ pre, e'.fatal = false) := by
  unfold Outcome.stopsAtFirstFatal at h
  cases hr : o.result with
  | error err =>
    rw [hr] at h
    obtain ⟨pre, e, htr, he, hpre⟩ := h
    refine ⟨⟨fun _ => ⟨e, by simp [htr], he⟩, fun _ => rfl⟩, fun _ => ⟨pre, e, htr, he, hpre⟩⟩
  | ok a =>
    rw [hr] at h
    refine ⟨⟨fun h' => (by cases h'), ?_⟩, fun h' => (by cases h')⟩
    rintro ⟨e, he, hf⟩
    rw [h e he] at hf
    cases hf

end

section
variable {σ : Type}

/-! ## What a run that returns no error says about the source tree -/

theorem addFile_ok_openable {ipfs : Shell σ} {localPath remotePath : Path} {f f' : File}
    {N : Int} {s s' : σ} {t : List Event}
    (h : addFile ipfs localPath f remotePath N s = ⟨.ok f', s', t⟩) : f.openable = true := by
  rw [addFile_eq] at h
  unfold addFileOutcome at h
  cases hopen : f.openable
  · simp [hopen] at h
  · rfl

theorem walkFiles_ok_openable {ipfs : Shell σ} {src dest : Path} {N : Int} (es : Listing)
    {es' : Listing} {s s' : σ} {t : List Event}
    (h : walkFiles ipfs src dest N es s = ⟨.ok es', s', t⟩) :
    ∀ f ∈ (readDir es).2, f.openable = true := by
  induction es generalizing es' s s' t with
  | nil => intro f hf; simp [readDir] at hf
  | dir name readable sub rest _ ih =>
    obtain ⟨rest', h1, _⟩ := walkFiles_dir_eq_ok_iff.1 h
    simpa [readDir] using ih h1
  | other name rest ih =>
    obtain ⟨rest', h1, _⟩ := walkFiles_other_eq_ok_iff.1 h
    simpa [readDir] using ih h1
  | file f rest ih =>
    obtain ⟨f', s1, t1, rest', t2, h1, h2, _, _⟩ := walkFiles_file_eq_ok_iff.1 h
    intro g hg
    simp only [readDir, List.mem_cons] at hg
    rcases hg with rfl | hg
    · exact addFile_ok_openable h1
    · exact ih h2 g hg

theorem walkDirs_ok_readDir {ipfs : Shell σ} {src dest : Path} {N : Int} (es : Listing)
    {es' : Listing} {s s' : σ} {t : List Event}
    (h : walkDirs ipfs src dest N es s = ⟨.ok es', s', t⟩) : readDir es' = readDir es := by
  induction es generalizing es' s s' t with
  | nil =>
    obtain ⟨rfl, _, _⟩ := walk_nil_eq_ok_iff.1 h
    rfl
  | dir name readable sub rest _ ih =>
    obtain ⟨sub', s1, t1, rest', t2, _, h2, rfl, _⟩ := walkDirs_dir_eq_ok_iff.1 h
    simp [readDir, ih h2]
  | other name rest ih =>
    obtain ⟨rest', h1, rfl⟩ := walkDirs_other_eq_ok_iff.1 h
    simp [readDir, ih h1]
  | file f rest ih =>
    obtain ⟨rest', h1, rfl⟩ := walkDirs_file_eq_ok_iff.1 h
    simp [readDir, ih h1]

theorem walk_ok_healthy_of_dirs {ipfs : Shell σ} {src dest : Path} {rd : Bool} {N : Int}
    {es es' : Listing} {s s' : σ} {t : List Event}
    (h : walk ipfs src rd es dest N s = ⟨.ok es', s', t⟩) :
    rd = true ∧ ∀ f ∈ (readDir es).2, f.openable = true := by
  obtain ⟨hr, es1, s1, t1, t2, h1, h2, _⟩ := walkBody_eq_ok_iff.1 h
  obtain ⟨_, _, _, _, _, _, _, _, hfiles, _, _, _⟩ := walkAfterDirs_eq_ok_iff.1 h2
  have := walkFiles_ok_openable _ hfiles
  rw [walkDirs_ok_readDir es h1] at this
  exact ⟨hr, this⟩

theorem walkDirs_ok_healthy {ipfs : Shell σ} (es : Listing) :
    ∀ {src dest : Path} {N : Int} {es' : Listing} {s s' : σ} {t : List Event},
      walkDirs ipfs src dest N es s = ⟨.ok es', s', t⟩ →
      ∀ d ∈ es.subdirs, d.2.1 = true ∧ ∀ f ∈ (readDir d.2.2).2, f.openable = true := by
  induction es with
  | nil => intro _ _ _ _ _ _ _ _ d hd; cases hd
  | file f rest ih =>
    intro src dest N es' s s' t h
    obtain ⟨rest', h1, _⟩ := walkDirs_file_eq_ok_iff.1 h
    exact ih h1
  | other name rest ih =>
    intro src dest N es' s s' t h
    obtain ⟨rest', h1, _⟩ := walkDirs_other_eq_ok_iff.1 h
    exact ih h1
  | dir name readable sub rest ihsub ihrest =>
    intro src dest N es' s s' t h
    obtain ⟨sub', s1, t1, rest', t2, h1, h2, _, _⟩ := walkDirs_dir_eq_ok_iff.1 h
    intro d hd
    simp only [Listing.subdirs, List.cons_append, List.mem_cons, List.mem_append,
      List.mem_map] at hd
    rcases hd with rfl | ⟨d', hd', rfl⟩ | hd
    · exact walk_ok_healthy_of_dirs h1
    · obtain ⟨_, es1, s1', t1a, t1b, h1a, _, _⟩ := walkBody_eq_ok_iff.1 h1
      exact ihsub h1a d' hd'
    · exact ihrest h2 d hd

theorem walk_ok_healthy {ipfs : Shell σ} {src dest : Path} {rd : Bool} {N : Int}
    {es es' : Listing} {s s' : σ} {t : List Event}
    (h : walk ipfs src rd es dest N s = ⟨.ok es', s', t⟩) :
    ∀ d ∈ ([], rd, es) :: es.subdirs, d.2.1 = true ∧ ∀ f ∈ (readDir d.2.2).2, f.openable = true := by
  intro d hd
  rcases List.mem_cons.1 hd with rfl | hd
  · exact walk_ok_healthy_of_dirs h
  · obtain ⟨_, es1, s1, t1, t2, h1, _, _⟩ := walkBody_eq_ok_iff.1 h
    exact walkDirs_ok_healthy es h1 d hd

end

/-! ## The tree with every cache filled -/

theorem Listing.readDir_cacheAll (dg : String → Hash) (es : Listing) :
    readDir (es.cacheAll dg) = ((readDir es).1, (readDir es).2.map (File.cached dg)) := by
  induction es with
  | nil => rfl
  | dir name readable sub rest _ ih => simp [Listing.cacheAll, readDir, ih]
  | file f rest ih => simp [Listing.cacheAll, readDir, ih]
  | other name rest ih => simp [Listing.cacheAll, readDir, ih]

theorem Listing.childNames_cacheAll (dg : String → Hash) (es : Listing) :
    (es.cacheAll dg).childNames = es.childNames := by
  simp only [Listing.childNames, Listing.readDir_cacheAll, List.map_map]
  congr 1

theorem Listing.subdirs_cacheAll (dg : String → Hash) (es : Listing) :
    (es.cacheAll dg).subdirs = es.subdirs.map fun d => (d.1, d.2.1, d.2.2.cacheAll dg) := by
  induction es with
  | nil => rfl
  | dir name readable sub rest ihsub ihrest =>
    simp only [Listing.cacheAll, Listing.subdirs, ihsub, ihrest, List.map_cons, List.map_append,
      List.map_map, List.cons_append]
    rfl
  | file f rest ih => simpa [Listing.cacheAll, Listing.subdirs] using ih
  | other name rest ih => simpa [Listing.cacheAll, Listing.subdirs] using ih

/-! ## The requests of the loop over the listed entries -/

theorem removeOrphans_trace {σ : Type} {ipfs : Shell σ} {dest : Path} {children : List String}
    (entries : List UnixFSEntry) {s s' : σ} {t : List Event}
    (h : removeOrphans ipfs dest children entries s = ⟨.ok (), s', t⟩) :
    t.filter (Event.isRequest Request.isRm) =
      (entries.filter (fun e => !(decide (e.Name ∈ children)))).map
        (fun e => Event.call .walk (.request (.rm (pathJoin dest e.Name) false true)) true) := by
  induction entries generalizing s s' t with
  | nil =>
    simp only [removeOrphans, Prog.pure_eq_ok_iff] at h
    obtain ⟨_, _, rfl⟩ := h
    rfl
  | cons file entries ih =>
    unfold removeOrphans at h
    by_cases hmem : file.Name ∈ children
    · simp only [hmem, decide_True, Bool.not_true, Bool.false_eq_true, if_false] at h
      rw [ih h]
      simp [hmem]
    · simp only [hmem, decide_False, Bool.not_false, if_true, Prog.bind_eq_ok_iff,
        exec_eq_ok_iff, Prog.emit_eq_ok_iff] at h
      obtain ⟨out, s1, t1, _, ⟨_, rfl⟩, ⟨_, s2, t2, t3, ⟨rfl, rfl⟩, h3, rfl⟩, rfl⟩ := h
      simp [ih h3, hmem, Event.isRequest, Request.isRm, List.filter]

section
variable {σ : Type}

/-! ## The claims on the flush horizon and on failures -/

/-- The theorem `flush_horizon_directories` on the tree `A/{x.txt, B/{y.txt}}` with counter 0:
the root is flushed and `B`, at depth 1, is not. -/
theorem flush_horizon_directories_witness :
    walk (mfs exDigest) ["A"] true exTree ["sync"] 0 [] =
      ⟨.ok exTreeCached, (walk (mfs exDigest) ["A"] true exTree ["sync"] 0 []).state,
        (walk (mfs exDigest) ["A"] true exTree ["sync"] 0 []).trace⟩ ∧
    (Event.call .walk (.request (.flush (["sync"] ++ ["B"]))) true ∈
        (walk (mfs exDigest) ["A"] true exTree ["sync"] 0 []).trace ↔
      (([("B" : String)].length : Nat) : Int) ≤ 0) :=
  ⟨rfl, ((flush_horizon_directories (mfs exDigest) ["A"] ["sync"] true exTree exTreeCached 0 []
    _ _ rfl) (["B"], true, .file ⟨"y.txt", true, "world", none, true⟩ .nil)
      (by decide)).2⟩

/-- C7, as amended.  In a run of `walk` with counter 0, the only request that asks for
durability is the `files/flush` of the root destination directory `dest`; every `files/cp`,
also that of a file directly in the source root, is sent with the option `flush` false; and
when the run returns no error, that `files/flush` of `dest` has been sent. -/
theorem flush_horizon_depth_zero (ipfs : Shell σ) (src dest : Path) (readable : Bool)
    (es : Listing) (s : σ) :
    (∀ e ∈ (walk ipfs src readable es dest 0 s).trace, e.isRequest Request.durable = true →
      ∃ ok, e = .call .walk (.request (.flush dest)) ok) ∧
    (∀ site hash path fl ok,
      Event.call site (.request (.cp hash path fl)) ok ∈
        (walk ipfs src readable es dest 0 s).trace → fl = false) ∧
    (∀ es', (walk ipfs src readable es dest 0 s).result = .ok es' →
      Event.call .walk (.request (.flush dest)) true ∈
        (walk ipfs src readable es dest 0 s).trace) := by
  have key : ∀ e ∈ (walk ipfs src readable es dest 0 s).trace,
      e.isRequest Request.durable = true → ∃ ok, e = .call .walk (.request (.flush dest)) ok := by
    intro e he hd
    rcases walk_withinHorizon ipfs src readable es dest 0 s e he hd with
      ⟨r, ok, rfl, hr⟩ | ⟨r, hash, ok, rfl, hne, hr⟩
    · have : r = [] := List.length_eq_zero.1 (by omega)
      subst this
      exact ⟨ok, by simp⟩
    · exact absurd (List.length_eq_zero.1 (by omega)) hne
  refine ⟨key, ?_, ?_⟩
  · intro site hash path fl ok he
    cases fl
    · rfl
    · obtain ⟨ok', h'⟩ := key _ he rfl
      cases h'
  · intro es' hres
    have hrun : walk ipfs src readable es dest 0 s =
        ⟨.ok es', (walk ipfs src readable es dest 0 s).state,
          (walk ipfs src readable es dest 0 s).trace⟩ := by
      rw [← hres]
    exact walk_flush_of_ok hrun (le_refl 0)

/-- The theorem `flush_horizon_depth_zero` on the tree `A/{x.txt, B/{y.txt}}`. -/
theorem flush_horizon_depth_zero_witness :
    (walk (mfs exDigest) ["A"] true exTree ["sync"] 0 []).result = .ok exTreeCached ∧
    Event.call .walk (.request (.flush ["sync"])) true ∈
      (walk (mfs exDigest) ["A"] true exTree ["sync"] 0 []).trace :=
  ⟨rfl, (flush_horizon_depth_zero (mfs exDigest) ["A"] ["sync"] true exTree []).2.2
    exTreeCached rfl⟩

/-- C7 as stated fails: with counter 0 the changed file `x.txt`, directly in the source root, is
copied with the option `flush` false, and no copy with `flush` true is sent for it. -/
theorem flush_horizon_depth_zero_counterexample :
    Event.call .addFile (.request (.cp "Qmhello" ["sync", "x.txt"] false)) true ∈
      (walk (mfs exDigest) ["A"] true exTree ["sync"] 0 []).trace ∧
    Event.call .addFile (.request (.cp "Qmhello" ["sync", "x.txt"] true)) true ∉
      (walk (mfs exDigest) ["A"] true exTree ["sync"] 0 []).trace := by
  decide

/-- C8, at its failing input: with `flushDepth` 0 the source directory itself, which lies 0 levels
below the source and so not fewer than 0 levels below it, is flushed; and with `flushDepth` 1
the directory `B`, one level below the source, is flushed. -/
theorem flushDepth_help_text_off_by_one :
    Event.call .walk (.request (.flush ["sync"])) true ∈
      (walk (mfs exDigest) ["A"] true exTree ["sync"] 0 []).trace ∧
    Event.call .walk (.request (.flush ["sync", "B"])) true ∈
      (walk (mfs exDigest) ["A"] true exTree ["sync"] 1 []).trace := by
  decide

/-- C10, as amended.  Call an event fatal when it is an external call that failed, other than
the pre-removal of `addFile` (its `files/rm` before the `files/cp`) and other than its cache
read (`syscall.Getxattr`).  For every daemon, every source tree and every outcome of the
external calls: `walk` returns an error if and only if its run has a fatal event; when it does,
the fatal event is the last event of the run and no earlier event is fatal, so nothing is
processed, listed, removed, flushed or retried after it; and `addFile` returns an error if and
only if its run has a fatal event, whatever the outcome of its pre-removal. -/
theorem abort_on_first_failure (ipfs : Shell σ) (src dest : Path) (readable : Bool)
    (es : Listing) (N : Int) (s : σ) (localPath remotePath : Path) (f : File) (M : Int) :
    (isOk (walk ipfs src readable es dest N s).result = false ↔
      ∃ e ∈ (walk ipfs src readable es dest N s).trace, e.fatal = true) ∧
    (isOk (walk ipfs src readable es dest N s).result = false →
      ∃ pre e, (walk ipfs src readable es dest N s).trace = pre ++ [e] ∧ e.fatal = true ∧
        ∀ e' ∈ pre, e'.fatal = false) ∧
    (isOk (addFile ipfs localPath f remotePath M s).result = false ↔
      ∃ e ∈ (addFile ipfs localPath f remotePath M s).trace, e.fatal = true) :=
  ⟨(walk_strict ipfs src readable es dest N s).error_iff.1,
    (walk_strict ipfs src readable es dest N s).error_iff.2,
    (addFile_strict ipfs localPath remotePath f M s).error_iff.1⟩

/-- The theorem `abort_on_first_failure` on a source tree whose subdirectory `B` cannot be read:
the run returns an error and its last event is the failed `readDir`. -/
theorem abort_on_first_failure_witness :
    isOk (walk (mfs exDigest) ["A"] true (.dir "B" false .nil (.dir "C" true .nil .nil))
      ["sync"] 4 []).result = false ∧
    ∃ pre e, (walk (mfs exDigest) ["A"] true (.dir "B" false .nil (.dir "C" true .nil .nil))
      ["sync"] 4 []).trace = pre ++ [e] ∧ e.fatal = true ∧ ∀ e' ∈ pre, e'.fatal = false :=
  ⟨rfl, (abort_on_first_failure (mfs exDigest) ["A"] ["sync"] true
    (.dir "B" false .nil (.dir "C" true .nil .nil)) 4 [] [] [] ⟨"", true, "", none, true⟩ 0).2.1
    rfl⟩

/-- C10 as stated fails: on the tree `A/{x.txt, B/{y.txt}}` with no file cached, the call
`syscall.Getxattr` on `x.txt` fails, it is not the pre-removal of `addFile`, and `walk` returns
no error. -/
theorem abort_on_first_failure_counterexample :
    isOk (walk (mfs exDigest) ["A"] true exTree ["sync"] 4 []).result = true ∧
    ∃ e ∈ (walk (mfs exDigest) ["A"] true exTree ["sync"] 4 []).trace,
      e = .call .addFile (.getxattr ["A", "x.txt"]) false ∧ e.failed = true ∧
        e.isPreRemoval = false := by
  decide

end

/-! ## Names and `path.Join` -/

theorem splitSlash_of_not_mem (cs : List Char) (h : '/' ∉ cs) :
    splitSlash cs = [String.mk cs] := by
  induction cs with
  | nil => rfl
  | cons c cs ih =>
    simp only [List.mem_cons, not_or] at h
    have hc : ¬ c = '/' := fun e => h.1 e.symm
    simp only [splitSlash, ih h.2, hc, if_false]

theorem plainName_iff (n : String) :
    plainName n = true ↔ n ≠ "" ∧ n ≠ "." ∧ n ≠ ".." ∧ '/' ∉ n.data := by
  simp [plainName, and_assoc]

/-- On a name that is one component, `path.Join` appends the name. -/
theorem pathJoin_of_plainName (dir : Path) {n : String} (h : plainName n = true) :
    pathJoin dir n = dir ++ [n] := by
  obtain ⟨h1, h2, h3, h4⟩ := (plainName_iff n).1 h
  unfold pathJoin
  rw [splitSlash_of_not_mem _ h4]
  have : String.mk n.data = n := rfl
  simp [cleanStep, this, h1, h2, h3]

theorem pathJoin_eq_childPath (dir : Path) {n : String} (h : plainName n = true) :
    pathJoin dir n = childPath dir n :=
  pathJoin_of_plainName dir h

namespace MFS

/-! ## The remote tree, path by path -/

@[simp] theorem get_root (s : MFS) : s.get [] = some .dir := by
  cases s <;> rfl

theorem get_cons (q : Path) (k : Kind) (s : MFS) (p : Path) (hp : p ≠ []) :
    get ((q, k) :: s) p = if q = p then some k else get s p := by
  cases p with
  | nil => exact absurd rfl hp
  | cons n p => rfl

theorem get_append (s1 s2 : MFS) (p : Path) :
    get (s1 ++ s2) p = match get s1 p with
      | some k => some k
      | none => get s2 p := by
  cases p with
  | nil => simp
  | cons n p =>
    induction s1 with
    | nil => rfl
    | cons e s1 ih =>
      obtain ⟨q, k⟩ := e
      simp only [List.cons_append, get]
      split
      · rfl
      · exact ih

theorem get_filter (s : MFS) (P : Path → Bool) (p : Path) (hp : p ≠ []) :
    get (s.filter (fun e => P e.1)) p = if P p = true then get s p else none := by
  induction s with
  | nil => cases p <;> simp [get] at hp ⊢
  | cons e s ih =>
    obtain ⟨q, k⟩ := e
    by_cases hq : P q = true
    · rw [List.filter_cons_of_pos (by simpa using hq), get_cons _ _ _ _ hp, get_cons _ _ _ _ hp, ih]
      by_cases hqp : q = p
      · subst hqp; simp [hq]
      · simp [hqp]
    · rw [List.filter_cons_of_neg (by simpa using hq), get_cons _ _ _ _ hp, ih]
      by_cases hqp : q = p
      · subst hqp; simp [hq]
      · simp [hqp]

theorem get_map_dir (l : List Path) (p : Path) (hp : p ≠ []) :
    get (l.map (fun q => (q, Kind.dir))) p = if p ∈ l then some .dir else none := by
  induction l with
  | nil => cases p <;> simp [get] at hp ⊢
  | cons q l ih =>
    rw [List.map_cons, get_cons _ _ _ _ hp, ih]
    by_cases hqp : q = p
    · subst hqp; simp
    · have : ¬ p = q := fun h => hqp h.symm
      simp [hqp, this]

theorem exists_iff (s : MFS) (p : Path) : s.exists_ p = true ↔ s.get p ≠ none := by
  simp [exists_, Option.isSome_iff_ne_none]

theorem isDir_iff (s : MFS) (p : Path) : s.isDir p = true ↔ s.get p = some .dir := by
  simp [isDir]

theorem get_remove (s : MFS) (p q : Path) :
    (s.remove p).get q = if q ≠ [] ∧ p <+: q then none else s.get q := by
  by_cases hq : q = []
  · subst hq; simp
  · unfold remove
    rw [get_filter s (fun q => !(p.isPrefixOf q)) q hq]
    by_cases hp : p <+: q
    · simp [hp, hq]
    · simp [hp]

theorem get_withDirs (s : MFS) (p q : Path) :
    (s.withDirs p).get q = if q <+: p ∧ s.get q = none then some .dir else s.get q := by
  by_cases hq : q = []
  · subst hq; simp
  · unfold withDirs
    rw [get_append, get_map_dir _ _ hq]
    by_cases h : q <+: p ∧ s.get q = none
    · have : q ∈ List.filter (fun q => !s.exists_ q) p.inits := by
        simp only [List.mem_filter, List.mem_inits, Bool.not_eq_eq_eq_not, Bool.not_true]
        refine ⟨h.1, ?_⟩
        simp [exists_, h.2]
      simp [this, h]
    · have : q ∉ List.filter (fun q => !s.exists_ q) p.inits := by
        simp only [List.mem_filter, List.mem_inits, Bool.not_eq_eq_eq_not, Bool.not_true, not_and]
        intro hpre
        have : s.get q ≠ none := fun h' => h ⟨hpre, h'⟩
        simp [exists_, Option.isSome_iff_ne_none, this]
      simp [this, h]

end MFS

namespace MFS

theorem get_ne_none_iff (s : MFS) (p : Path) (hp : p ≠ []) :
    s.get p ≠ none ↔ ∃ k, (p, k) ∈ s := by
  induction s with
  | nil => cases p <;> simp [get] at hp ⊢
  | cons e s ih =>
    obtain ⟨q, k⟩ := e
    rw [get_cons _ _ _ _ hp]
    by_cases hqp : q = p
    · subst hqp
      simp only [if_true, ne_eq, reduceCtorEq, not_false_eq_true, List.mem_cons, Prod.mk.injEq,
        true_and, true_iff]
      exact ⟨k, Or.inl rfl⟩
    · simp only [hqp, if_false, ih, List.mem_cons, Prod.mk.injEq]
      constructor
      · rintro ⟨k', h⟩; exact ⟨k', Or.inr h⟩
      · rintro ⟨k', h | h⟩
        · exact absurd h.1.symm hqp
        · exact ⟨k', h⟩

theorem mem_children (s : MFS) (p : Path) (n : String) :
    n ∈ s.children p ↔ s.get (p ++ [n]) ≠ none := by
  rw [get_ne_none_iff _ _ (by simp)]
  unfold children
  simp only [List.mem_dedup, List.mem_filterMap, Prod.exists]
  constructor
  · rintro ⟨q, k, hmem, h⟩
    split at h
    · rename_i hq
      refine ⟨k, ?_⟩
      have hne : q ≠ [] := by
        rintro rfl
        simp at h
      have := List.dropLast_append_getLast? n (by simpa using h)
      rw [hq] at this
      rw [this]
      exact hmem
    · cases h
  · rintro ⟨k, hmem⟩
    exact ⟨p ++ [n], k, hmem, by simp⟩

theorem nodup_children (s : MFS) (p : Path) : (s.children p).Nodup :=
  List.nodup_dedup _

theorem wf_iff (s : MFS) :
    s.wf = true ↔ (∀ q n, s.get (q ++ [n]) ≠ none → s.get q = some .dir) ∧
      (∀ q, s.get q ≠ none → ∀ c ∈ q, plainName c = true) := by
  unfold wf
  simp only [List.all_eq_true, Bool.and_eq_true, Bool.or_eq_true, decide_eq_true_eq, Prod.forall,
    isDir_iff]
  constructor
  · intro h
    refine ⟨fun q n hne => ?_, fun q hne c hc => ?_⟩
    · obtain ⟨k, hk⟩ := (get_ne_none_iff s _ (by simp)).1 hne
      rcases (h _ _ hk).1 with h' | h'
      · simp at h'
      · simpa using h'
    · have hq : q ≠ [] := by
        rintro rfl
        cases hc
      obtain ⟨k, hk⟩ := (get_ne_none_iff s q hq).1 hne
      exact (h _ _ hk).2 c hc
  · rintro ⟨h1, h2⟩ q k hmem
    by_cases hq : q = []
    · subst hq
      exact ⟨Or.inl rfl, fun c hc => by cases hc⟩
    · have hne : s.get q ≠ none := (get_ne_none_iff s q hq).2 ⟨k, hmem⟩
      refine ⟨Or.inr ?_, h2 q hne⟩
      exact h1 q.dropLast (q.getLast hq) (by rwa [List.dropLast_append_getLast hq])

theorem wf_parent {s : MFS} (hwf : s.wf = true) (q : Path) (n : String)
    (h : s.get (q ++ [n]) ≠ none) : s.get q = some .dir :=
  ((wf_iff s).1 hwf).1 q n h

theorem wf_names {s : MFS} (hwf : s.wf = true) (q : Path) (h : s.get q ≠ none) :
    ∀ c ∈ q, plainName c = true :=
  ((wf_iff s).1 hwf).2 q h

theorem wf_child {s : MFS} (hwf : s.wf = true) (p : Path) (n : String)
    (h : s.get (p ++ [n]) ≠ none) : plainName n = true :=
  wf_names hwf _ h n (by simp)

/-- Trees that hold the same at every path are well formed together. -/
theorem wf_congr {s s' : MFS} (h : ∀ q, s'.get q = s.get q) (hwf : s.wf = true) :
    s'.wf = true := by
  rw [wf_iff] at hwf ⊢
  refine ⟨fun q n hne => ?_, fun q hne => ?_⟩
  · rw [h] at hne ⊢
    exact hwf.1 q n hne
  · rw [h] at hne
    exact hwf.2 q hne

end MFS

namespace MFS

/-! ## The requests, on the remote tree -/

theorem mkdirAll_eq_ok (s s' : MFS) (p : Path) :
    s.mkdirAll p = .ok s' ↔
      (∀ q, q <+: p → s.get q = none ∨ s.get q = some .dir) ∧ s' = s.withDirs p := by
  unfold mkdirAll
  by_cases h : (p.inits.any fun q => !(s.isDir q) && s.exists_ q) = true
  · rw [if_pos h]
    simp only [reduceCtorEq, false_iff, not_and]
    intro hall
    simp only [List.any_eq_true, List.mem_inits, Bool.and_eq_true, Bool.not_eq_eq_eq_not,
      Bool.not_true] at h
    obtain ⟨q, hq, hnd, hex⟩ := h
    rcases hall q hq with h' | h'
    · simp [exists_, h'] at hex
    · simp [isDir, h'] at hnd
  · rw [if_neg h]
    simp only [Except.ok.injEq]
    simp only [List.any_eq_true, List.mem_inits, Bool.and_eq_true, Bool.not_eq_eq_eq_not,
      Bool.not_true, not_exists, not_and] at h
    constructor
    · intro hs
      refine ⟨fun q hq => ?_, hs.symm⟩
      have := h q hq
      cases hg : s.get q with
      | none => exact Or.inl rfl
      | some k =>
        right
        by_contra hk
        have hnd : s.isDir q = false := by
          simp only [isDir, hg, beq_eq_false_iff_ne, ne_eq]
          exact hk
        have := this hnd
        simp [exists_, hg] at this
    · rintro ⟨_, rfl⟩; rfl

theorem exec_mkdir_eq_ok (s s' : MFS) (p : Path) (fl : Bool) (out : List UnixFSEntry) :
    MFS.exec s (.mkdir p fl true) = (.ok out, s') ↔
      (∀ q, q <+: p → s.get q = none ∨ s.get q = some .dir) ∧ s' = s.withDirs p ∧ out = [] := by
  simp only [exec, if_true]
  cases h : s.mkdirAll p with
  | error e =>
    simp only [Prod.mk.injEq, reduceCtorEq, false_and, false_iff, not_and]
    intro hall hs
    have := (mkdirAll_eq_ok s s' p).2 ⟨hall, hs⟩
    rw [h] at this
    cases this
  | ok s1 =>
    have := (mkdirAll_eq_ok s s1 p).1 h
    simp only [Prod.mk.injEq, Except.ok.injEq]
    constructor
    · rintro ⟨rfl, rfl⟩; exact ⟨this.1, this.2, rfl⟩
    · rintro ⟨_, rfl, rfl⟩; exact ⟨rfl, this.2⟩

theorem exec_rm_eq_ok (s s' : MFS) (p : Path) (fl : Bool) (out : List UnixFSEntry) :
    MFS.exec s (.rm p fl true) = (.ok out, s') ↔
      p ≠ [] ∧ s.get p ≠ none ∧ s' = s.remove p ∧ out = [] := by
  simp only [exec, Bool.not_true, Bool.false_and, Bool.false_eq_true, if_false, removeRecursive]
  by_cases hp : p = []
  · simp [hp]
  · by_cases hex : s.exists_ p = true
    · have := (exists_iff s p).1 hex
      simp [hp, hex, this, eq_comm, and_comm]
    · have : s.get p = none := by
        by_contra h
        exact hex ((exists_iff s p).2 h)
      simp [hp, hex, this]

theorem exec_cp_eq_ok (s s' : MFS) (hash : Hash) (p : Path) (fl : Bool)
    (out : List UnixFSEntry) :
    MFS.exec s (.cp hash p fl) = (.ok out, s') ↔
      p ≠ [] ∧ s.get p.dropLast = some .dir ∧ s' = (p, Kind.file hash) :: s.remove p ∧
        out = [] := by
  simp only [exec, bindContent]
  by_cases hp : p = []
  · simp [hp]
  · by_cases hd : s.isDir p.dropLast = true
    · have := (isDir_iff s _).1 hd
      simp [hp, hd, this, eq_comm, and_comm]
    · have : ¬ s.get p.dropLast = some .dir := fun h => hd ((isDir_iff s _).2 h)
      simp [hp, hd, this]

theorem exec_ls_eq_ok (s s' : MFS) (p : Path) (fl u : Bool) (out : List UnixFSEntry) :
    MFS.exec s (.ls p fl u) = (.ok out, s') ↔
      s.get p = some .dir ∧ s' = s ∧ out = (s.children p).map (fun n => ⟨n, 0, 0, ""⟩) := by
  simp only [exec, listChildren]
  by_cases hd : s.isDir p = true
  · have := (isDir_iff s _).1 hd
    simp [hd, this, eq_comm, and_comm]
  · have : ¬ s.get p = some .dir := fun h => hd ((isDir_iff s _).2 h)
    simp [hd, this]

theorem exec_flush_eq_ok (s s' : MFS) (p : Path) (out : List UnixFSEntry) :
    MFS.exec s (.flush p) = (.ok out, s') ↔ s.get p ≠ none ∧ s' = s ∧ out = [] := by
  simp only [exec, flush]
  by_cases hex : s.exists_ p = true
  · have := (exists_iff s p).1 hex
    simp [hex, this, eq_comm, and_comm]
  · have : s.get p = none := by
      by_contra h
      exact hex ((exists_iff s p).2 h)
    simp [hex, this]

end MFS

namespace MFS

/-! ## Well-formed trees stay well formed -/

theorem prefix_append_singleton {p q : Path} {n : String} (h : p <+: q) : p <+: q ++ [n] :=
  h.trans (List.prefix_append q [n])

theorem wf_withDirs (s : MFS) (p : Path) (hwf : s.wf = true)
    (hp : ∀ c ∈ p, plainName c = true)
    (hok : ∀ q, q <+: p → s.get q = none ∨ s.get q = some .dir) : (s.withDirs p).wf = true := by
  rw [wf_iff] at hwf ⊢
  refine ⟨fun q n hne => ?_, fun q hne c hc => ?_⟩
  · rw [get_withDirs] at hne ⊢
    by_cases h1 : (q ++ [n]) <+: p ∧ s.get (q ++ [n]) = none
    · have hq : q <+: p := (List.prefix_append q [n]).trans h1.1
      rcases hok q hq with h | h
      · simp [hq, h]
      · simp [h]
    · rw [if_neg h1] at hne
      have := hwf.1 q n hne
      simp [this]
  · rw [get_withDirs] at hne
    by_cases h1 : q <+: p ∧ s.get q = none
    · exact hp c (h1.1.subset hc)
    · rw [if_neg h1] at hne
      exact hwf.2 q hne c hc

theorem wf_remove (s : MFS) (p : Path) (hwf : s.wf = true) : (s.remove p).wf = true := by
  rw [wf_iff] at hwf ⊢
  refine ⟨fun q n hne => ?_, fun q hne => ?_⟩
  · rw [get_remove] at hne ⊢
    by_cases h1 : p <+: q ++ [n]
    · simp [h1] at hne
    · have h2 : ¬ p <+: q := fun h => h1 (prefix_append_singleton h)
      simp only [ne_eq, List.append_eq_nil, List.cons_ne_self, and_false, not_false_eq_true, h1,
        and_false, if_false] at hne
      simp only [h2, and_false, if_false]
      exact hwf.1 q n hne
  · rw [get_remove] at hne
    split at hne
    · exact absurd rfl hne
    · exact hwf.2 q hne

theorem wf_cons (s : MFS) (p : Path) (k : Kind) (hwf : s.wf = true) (hp : p ≠ [])
    (hnames : ∀ c ∈ p, plainName c = true)
    (hpar : s.get p.dropLast = some .dir) (habs : ∀ n, s.get (p ++ [n]) = none) :
    MFS.wf ((p, k) :: s) = true := by
  rw [wf_iff] at hwf ⊢
  refine ⟨fun q n hne => ?_, fun q hne c hc => ?_⟩
  · rw [get_cons _ _ _ _ (by simp)] at hne
    have hqp : q ≠ p := by
      rintro rfl
      have : ¬ q = q ++ [n] := by
        intro h
        have := congrArg List.length h
        simp at this
      rw [if_neg this, habs n] at hne
      exact hne rfl
    by_cases hq : q = []
    · subst hq; simp
    · rw [get_cons _ _ _ _ hq, if_neg (fun h => hqp h.symm)]
      by_cases h1 : p = q ++ [n]
      · subst h1
        simpa using hpar
      · rw [if_neg h1] at hne
        exact hwf.1 q n hne
  · have hq : q ≠ [] := by
      rintro rfl
      cases hc
    rw [get_cons _ _ _ _ hq] at hne
    by_cases h1 : p = q
    · subst h1
      exact hnames c hc
    · rw [if_neg h1] at hne
      exact hwf.2 q hne c hc

theorem wf_bind (s : MFS) (p : Path) (hash : Hash) (hwf : s.wf = true) (hp : p ≠ [])
    (hnames : ∀ c ∈ p, plainName c = true)
    (hpar : s.get p.dropLast = some .dir) :
    MFS.wf ((p, Kind.file hash) :: s.remove p) = true := by
  refine wf_cons _ p _ (wf_remove s p hwf) hp hnames ?_ ?_
  · rw [get_remove]
    have : ¬ p <+: p.dropLast := by
      intro h
      have h1 := h.length_le
      have h2 : p.length ≠ 0 := fun h0 => hp (List.length_eq_zero.1 h0)
      simp only [List.length_dropLast] at h1
      omega
    simp [this, hpar]
  · intro n
    rw [get_remove]
    simp [List.prefix_append]

theorem removeRecursive_eq_ok (s s' : MFS) (p : Path) (h : s.removeRecursive p = .ok s') :
    s' = s.remove p := by
  unfold removeRecursive at h
  split at h
  · cases h
  · split at h
    · cases h
    · exact (Except.ok.inj h).symm

theorem exec_state_of_error (s : MFS) (r : Request) (h : isOk (MFS.exec s r).1 = false) :
    (MFS.exec s r).2 = s := by
  cases r with
  | mkdir p fl parents =>
    cases parents
    · simp only [exec, Bool.false_eq_true, if_false] at h ⊢
      split
      · rfl
      · split
        · rfl
        · simp_all [isOk]
    · simp only [exec, if_true] at h ⊢
      cases hm : s.mkdirAll p with
      | error e => rfl
      | ok s1 => rw [hm] at h; simp [isOk] at h
  | rm p fl recursive =>
    simp only [exec] at h ⊢
    split
    · rfl
    · rename_i hc
      rw [if_neg hc] at h
      cases hm : s.removeRecursive p with
      | error e => rfl
      | ok s1 => rw [hm] at h; simp [isOk] at h
  | ls p fl u =>
    simp only [exec]
    cases s.listChildren p <;> rfl
  | cp hash p fl =>
    simp only [exec] at h ⊢
    cases hm : s.bindContent hash p with
    | error e => rfl
    | ok s1 => rw [hm] at h; simp [isOk] at h
  | flush p =>
    simp only [exec]
    cases s.flush p <;> rfl

/-- A request on a path whose components are names leaves a well-formed tree well formed. -/
theorem wf_exec (s : MFS) (r : Request) (hwf : s.wf = true)
    (hr : ∀ c ∈ r.path, plainName c = true) : (MFS.exec s r).2.wf = true := by
  cases hok : isOk (MFS.exec s r).1
  · rw [exec_state_of_error s r hok]; exact hwf
  · rcases hx : MFS.exec s r with ⟨res, s'⟩
    rw [hx] at hok
    cases res with
    | error e => simp [isOk] at hok
    | ok out =>
      simp only
      cases r with
      | mkdir p fl parents =>
        cases parents
        · simp only [exec, Bool.false_eq_true, if_false] at hx
          split at hx
          · cases hx
          · split at hx
            · cases hx
            · rename_i hex hpar
              simp only [Prod.mk.injEq, Except.ok.injEq] at hx
              rw [← hx.2]
              simp only [Bool.or_eq_true, decide_eq_true_eq, Bool.not_eq_eq_eq_not, Bool.not_true,
                not_or, Bool.not_eq_false] at hpar
              have habs : s.get p = none := by
                by_contra h
                exact hex ((exists_iff s p).2 h)
              refine wf_cons s p _ hwf hpar.1 hr ((isDir_iff s _).1 hpar.2) ?_
              intro n
              by_contra h
              have := wf_parent hwf p n h
              rw [habs] at this
              cases this
        · obtain ⟨hall, rfl, _⟩ := (exec_mkdir_eq_ok s s' p fl out).1 hx
          exact wf_withDirs s p hwf hr hall
      | rm p fl recursive =>
        simp only [exec] at hx
        split at hx
        · cases hx
        · cases hm : s.removeRecursive p with
          | error e => rw [hm] at hx; cases hx
          | ok s1 =>
            rw [hm] at hx
            simp only [Prod.mk.injEq, Except.ok.injEq] at hx
            rw [← hx.2, removeRecursive_eq_ok s s1 p hm]
            exact wf_remove s p hwf
      | ls p fl u =>
        obtain ⟨_, rfl, _⟩ := (exec_ls_eq_ok s s' p fl u out).1 hx
        exact hwf
      | cp hash p fl =>
        obtain ⟨hp, hpar, rfl, _⟩ := (exec_cp_eq_ok s s' hash p fl out).1 hx
        exact wf_bind s p hash hwf hp hr hpar
      | flush p =>
        obtain ⟨_, rfl, _⟩ := (exec_flush_eq_ok s s' p out).1 hx
        exact hwf

/-- A `files/rm` leaves a well-formed tree well formed, whatever its path. -/
theorem wf_exec_rm (s : MFS) (p : Path) (fl rec : Bool) (hwf : s.wf = true) :
    (MFS.exec s (.rm p fl rec)).2.wf = true := by
  simp only [exec]
  split
  · exact hwf
  · cases hm : s.removeRecursive p with
    | error e => exact hwf
    | ok s1 =>
      simp only
      rw [removeRecursive_eq_ok s s1 p hm]
      exact wf_remove s p hwf

end MFS

section
variable {σ α β : Type}

/-! ## Invariants of the daemon state -/

theorem keeps_pure {I : σ → Prop} (a : α) : Prog.Keeps I (pure a : Prog σ α) :=
  fun _ h => h

theorem keeps_bind {I : σ → Prop} {m : Prog σ α} {f : α → Prog σ β}
    (hm : Prog.Keeps I m) (hf : ∀ a, Prog.Keeps I (f a)) : Prog.Keeps I (m >>= f) := by
  intro s hs
  simp only [bind_def, Prog.bind]
  cases hr : (m s).result with
  | error err => exact hm s hs
  | ok a => exact hf a _ (hm s hs)

theorem keeps_emit {I : σ → Prop} (e : Event) : Prog.Keeps I (Prog.emit e : Prog σ Unit) :=
  fun _ h => h

theorem keeps_sys {I : σ → Prop} (site : Site) (c : Call) (ok : Bool) (err : Error) :
    Prog.Keeps I (sys site c ok err : Prog σ Unit) :=
  fun _ h => h

theorem keeps_ite {I : σ → Prop} {c : Prop} [Decidable c] {a b : Prog σ α}
    (ha : Prog.Keeps I a) (hb : Prog.Keeps I b) : Prog.Keeps I (if c then a else b) := by
  split
  · exact ha
  · exact hb

end

/-! ## A run leaves a well-formed remote tree well formed -/

theorem Listing.levels_of_sub {name : String} {readable : Bool} {sub rest : Listing}
    {P : Listing → Prop}
    (h : ∀ d ∈ ([], true, Listing.dir name readable sub rest) ::
      (Listing.dir name readable sub rest).subdirs, P d.2.2) :
    ∀ d ∈ ([], true, sub) :: sub.subdirs, P d.2.2 := by
  intro d hd
  rcases List.mem_cons.1 hd with rfl | hd
  · exact h ([name], readable, sub) (List.mem_cons_of_mem _ (List.mem_cons_self _ _))
  · refine h (name :: d.1, d.2) (List.mem_cons_of_mem _ ?_)
    simp only [Listing.subdirs, List.cons_append, List.mem_cons, List.mem_append, List.mem_map]
    exact Or.inr (Or.inl ⟨d, hd, rfl⟩)

theorem Listing.levels_of_rest {name : String} {readable : Bool} {sub rest : Listing}
    {P : Listing → Prop}
    (h : ∀ d ∈ ([], true, Listing.dir name readable sub rest) ::
      (Listing.dir name readable sub rest).subdirs, P d.2.2) :
    ∀ d ∈ rest.subdirs, P d.2.2 := by
  intro d hd
  refine h d (List.mem_cons_of_mem _ ?_)
  simp only [Listing.subdirs, List.cons_append, List.mem_cons, List.mem_append, List.mem_map]
  exact Or.inr (Or.inr hd)

theorem Listing.plain_iff (es : Listing) :
    es.plain = true ↔
      ∀ d ∈ ([], true, es) :: es.subdirs, ∀ n ∈ d.2.2.childNames, plainName n = true := by
  unfold Listing.plain
  rw [List.all_eq_true]
  exact forall_congr' fun d => imp_congr_right fun _ => List.all_eq_true

theorem plain_append {p : Path} {n : String} (hp : ∀ c ∈ p, plainName c = true)
    (hn : plainName n = true) : ∀ c ∈ p ++ [n], plainName c = true := by
  intro c hc
  rcases List.mem_append.1 hc with hc | hc
  · exact hp c hc
  · rw [List.mem_singleton.1 hc]; exact hn

theorem request_keeps_wf (dg : String → Hash) (site : Site) (r : Request)
    (hr : ∀ c ∈ r.path, plainName c = true) :
    Prog.Keeps (fun s => MFS.wf s = true) (request (mfs dg) site r) :=
  fun s hs => MFS.wf_exec s r hs hr

theorem exec_keeps_wf (dg : String → Hash) (site : Site) (r : Request) (format : String)
    (args : List Path) (hr : ∀ c ∈ r.path, plainName c = true) :
    Prog.Keeps (fun s => MFS.wf s = true) (exec (mfs dg) site r format args) := by
  intro s hs
  rw [exec_apply]
  cases ((mfs dg).Exec s r).1 <;> exact MFS.wf_exec s r hs hr

theorem exec_rm_keeps_wf (dg : String → Hash) (site : Site) (p : Path) (fl rec : Bool)
    (format : String) (args : List Path) :
    Prog.Keeps (fun s => MFS.wf s = true) (exec (mfs dg) site (.rm p fl rec) format args) := by
  intro s hs
  rw [exec_apply]
  cases ((mfs dg).Exec s (.rm p fl rec)).1 <;> exact MFS.wf_exec_rm s p fl rec hs

theorem add_keeps_wf (dg : String → Hash) (localPath : Path) (f : File) (format : String)
    (args : List Path) :
    Prog.Keeps (fun s => MFS.wf s = true) (add (mfs dg) localPath f format args) :=
  fun _ hs => hs

theorem addFile_keeps_wf (dg : String → Hash) (localPath remotePath : Path) (f : File) (N : Int)
    (hp : ∀ c ∈ remotePath, plainName c = true) :
    Prog.Keeps (fun s => MFS.wf s = true) (addFile (mfs dg) localPath f remotePath N) := by
  unfold addFile
  refine keeps_bind (keeps_sys _ _ _ _) (fun _ => keeps_bind (add_keeps_wf dg _ _ _ _)
    (fun hash => keeps_bind (keeps_emit _) (fun _ => ?_)))
  cases cacheHit f hash
  · exact keeps_bind (request_keeps_wf dg _ _ hp)
      (fun _ => keeps_bind (exec_keeps_wf dg _ _ _ _ hp)
        (fun _ => keeps_bind (keeps_emit _)
          (fun _ => keeps_bind (keeps_ite (keeps_emit _) (keeps_pure _))
            (fun _ => keeps_bind (keeps_sys _ _ _ _) (fun _ => keeps_pure _)))))
  · exact keeps_bind (keeps_emit _) (fun _ => keeps_pure _)

theorem walkFiles_keeps_wf (dg : String → Hash) (src dest : Path) (N : Int) (es : Listing)
    (hdest : ∀ c ∈ dest, plainName c = true)
    (hes : ∀ f ∈ (readDir es).2, plainName f.name = true) :
    Prog.Keeps (fun s => MFS.wf s = true) (walkFiles (mfs dg) src dest N es) := by
  induction es with
  | nil => exact keeps_pure _
  | dir name readable sub rest _ ih =>
    exact keeps_bind (ih (by simpa [readDir] using hes)) (fun _ => keeps_pure _)
  | file f rest ih =>
    simp only [readDir, List.mem_cons, forall_eq_or_imp] at hes
    exact keeps_bind (addFile_keeps_wf dg _ _ f _ (plain_append hdest hes.1))
      (fun _ => keeps_bind (ih hes.2) (fun _ => keeps_pure _))
  | other name rest ih =>
    exact keeps_bind (ih (by simpa [readDir] using hes)) (fun _ => keeps_pure _)

theorem removeOrphans_keeps_wf (dg : String → Hash) (dest : Path) (children : List String)
    (entries : List UnixFSEntry) :
    Prog.Keeps (fun s => MFS.wf s = true) (removeOrphans (mfs dg) dest children entries) := by
  induction entries with
  | nil => exact keeps_pure _
  | cons file entries ih =>
    unfold removeOrphans
    exact keeps_ite
      (keeps_bind (exec_rm_keeps_wf dg _ _ _ _ _ _)
        (fun _ => keeps_bind (keeps_emit _) (fun _ => ih)))
      ih

theorem precreate_keeps_wf (dg : String → Hash) (dirs : List String) (files : List File)
    (dest : Path) (hdest : ∀ c ∈ dest, plainName c = true) :
    Prog.Keeps (fun s => MFS.wf s = true) (precreate (mfs dg) dirs files dest) :=
  keeps_ite (keeps_bind (exec_keeps_wf dg _ _ _ _ hdest) (fun _ => keeps_pure _)) (keeps_pure _)

theorem reconcile_keeps_wf (dg : String → Hash) (dirs : List String) (files : List File)
    (dest : Path) (hdest : ∀ c ∈ dest, plainName c = true) :
    Prog.Keeps (fun s => MFS.wf s = true) (reconcile (mfs dg) dirs files dest) :=
  keeps_ite
    (keeps_bind (exec_keeps_wf dg _ _ _ _ hdest)
      (fun _ => keeps_bind (exec_keeps_wf dg _ _ _ _ hdest) (fun _ => keeps_pure _)))
    (keeps_bind (exec_keeps_wf dg _ _ _ _ hdest)
      (fun _ => removeOrphans_keeps_wf dg dest _ _))

theorem flushDir_keeps_wf (dg : String → Hash) (dest : Path) (N : Int)
    (hdest : ∀ c ∈ dest, plainName c = true) :
    Prog.Keeps (fun s => MFS.wf s = true) (flushDir (mfs dg) dest N) :=
  keeps_ite (keeps_bind (exec_keeps_wf dg _ _ _ _ hdest) (fun _ => keeps_emit _)) (keeps_pure _)

theorem walkAfterDirs_keeps_wf (dg : String → Hash) (src : Path) (es : Listing)
    (dirs : List String) (files : List File) (dest : Path) (N : Int)
    (hdest : ∀ c ∈ dest, plainName c = true)
    (hes : ∀ f ∈ (readDir es).2, plainName f.name = true) :
    Prog.Keeps (fun s => MFS.wf s = true) (walkAfterDirs (mfs dg) src es dirs files dest N) :=
  keeps_bind (precreate_keeps_wf dg dirs files dest hdest)
    (fun _ => keeps_bind (walkFiles_keeps_wf dg src dest N es hdest hes)
      (fun _ => keeps_bind (reconcile_keeps_wf dg dirs files dest hdest)
        (fun _ => keeps_bind (flushDir_keeps_wf dg dest N hdest) (fun _ => keeps_pure _))))

theorem Listing.plain_files {es : Listing} (h : ∀ n ∈ es.childNames, plainName n = true) :
    ∀ f ∈ (readDir es).2, plainName f.name = true :=
  fun f hf => h f.name (List.mem_append_right _ (List.mem_map.2 ⟨f, hf, rfl⟩))

theorem walk_ok_wf_of_dirs {dg : String → Hash} {src dest : Path} {readable : Bool} {N : Int}
    {es es' : Listing} {s s' : MFS} {t : List Event}
    (hdest : ∀ c ∈ dest, plainName c = true)
    (hes : ∀ n ∈ es.childNames, plainName n = true)
    (hdirs : ∀ es1 s1 t1, walkDirs (mfs dg) src dest N es s = ⟨.ok es1, s1, t1⟩ → s1.wf = true)
    (h : walk (mfs dg) src readable es dest N s = ⟨.ok es', s', t⟩) : s'.wf = true := by
  obtain ⟨_, es1, s1, t1, t2, h1, h2, rfl⟩ := walkBody_eq_ok_iff.1 h
  have hnames : ∀ f ∈ (readDir es1).2, plainName f.name = true := by
    rw [walkDirs_ok_readDir es h1]
    exact Listing.plain_files hes
  have := walkAfterDirs_keeps_wf dg src es1 (readDir es).1 (readDir es).2 dest N hdest hnames s1
    (hdirs es1 s1 t1 h1)
  rwa [h2] at this

theorem walkDirs_ok_wf {dg : String → Hash} (es : Listing) :
    ∀ {src dest : Path} {N : Int} {es' : Listing} {s s' : MFS} {t : List Event},
      s.wf = true → (∀ c ∈ dest, plainName c = true) →
      (∀ d ∈ ([], true, es) :: es.subdirs, ∀ n ∈ d.2.2.childNames, plainName n = true) →
      walkDirs (mfs dg) src dest N es s = ⟨.ok es', s', t⟩ → s'.wf = true := by
  induction es with
  | nil =>
    intro src dest N es' s s' t hwf _ _ h
    obtain ⟨_, rfl, _⟩ := walk_nil_eq_ok_iff.1 h
    exact hwf
  | file f rest ih =>
    intro src dest N es' s s' t hwf hdest hes h
    obtain ⟨rest', h1, _⟩ := walkDirs_file_eq_ok_iff.1 h
    refine ih hwf hdest (fun d hd => ?_) h1
    rcases List.mem_cons.1 hd with rfl | hd
    · intro n hn
      refine hes _ (List.mem_cons_self _ _) n ?_
      simp only [Listing.childNames, readDir, List.map_cons, List.mem_append, List.mem_cons,
        List.mem_map] at hn ⊢
      rcases hn with hn | hn
      · exact Or.inl hn
      · exact Or.inr (Or.inr hn)
    · exact hes d (List.mem_cons_of_mem _ hd)
  | other name rest ih =>
    intro src dest N es' s s' t hwf hdest hes h
    obtain ⟨rest', h1, _⟩ := walkDirs_other_eq_ok_iff.1 h
    refine ih hwf hdest (fun d hd => ?_) h1
    rcases List.mem_cons.1 hd with rfl | hd
    · simpa [Listing.childNames, readDir] using hes _ (List.mem_cons_self _ _)
    · exact hes d (List.mem_cons_of_mem _ hd)
  | dir name readable sub rest ihsub ihrest =>
    intro src dest N es' s s' t hwf hdest hes h
    obtain ⟨sub', s1, t1, rest', t2, h1, h2, _, _⟩ := walkDirs_dir_eq_ok_iff.1 h
    have htop := hes _ (List.mem_cons_self _ _)
    have hname : plainName name = true := htop name (by simp [Listing.childNames, readDir])
    have hsub := Listing.levels_of_sub (P := fun l => ∀ n ∈ l.childNames, plainName n = true) hes
    have hdest1 : ∀ c ∈ childPath dest name, plainName c = true := plain_append hdest hname
    have hwf1 : s1.wf = true :=
      walk_ok_wf_of_dirs hdest1 (hsub _ (List.mem_cons_self _ _))
        (fun _ _ _ hh => ihsub hwf hdest1 hsub hh) h1
    refine ihrest hwf1 hdest (fun d hd => ?_) h2
    rcases List.mem_cons.1 hd with rfl | hd
    · intro n hn
      exact htop n (by
        simp only [Listing.childNames, readDir, List.mem_append, List.mem_cons] at hn ⊢
        rcases hn with hn | hn
        · exact Or.inl (Or.inr hn)
        · exact Or.inr hn)
    · exact Listing.levels_of_rest
        (P := fun l => ∀ n ∈ l.childNames, plainName n = true) hes d hd

theorem walk_ok_wf {dg : String → Hash} {src dest : Path} {readable : Bool} {N : Int}
    {es es' : Listing} {s s' : MFS} {t : List Event} (hwf : s.wf = true)
    (hdest : ∀ c ∈ dest, plainName c = true) (hes : es.plain = true)
    (h : walk (mfs dg) src readable es dest N s = ⟨.ok es', s', t⟩) : s'.wf = true :=
  walk_ok_wf_of_dirs hdest ((Listing.plain_iff es).1 hes _ (List.mem_cons_self _ _))
    (fun _ _ _ hh => walkDirs_ok_wf es hwf hdest ((Listing.plain_iff es).1 hes) hh) h


/-! ## Runs on the remote tree: files -/

theorem child_prefix_iff (d : Path) (n m : String) (r : Path) :
    (d ++ [n]) <+: (d ++ m :: r) ↔ n = m := by
  rw [List.prefix_append_right_inj]
  constructor
  · intro h
    obtain ⟨t, ht⟩ := h
    simp at ht
    exact ht.1
  · rintro rfl
    exact ⟨r, rfl⟩

theorem File.cached_of_hit (dg : String → Hash) (f : File)
    (h : Getxattr f = some (dg f.content)) : f.cached dg = f := by
  have := ((Getxattr_eq_some f _).1 h).1
  cases f
  simp only [File.cached] at *
  simp [this]

theorem addFile_mfs_ok {dg : String → Hash} {localPath remotePath : Path} {f f' : File}
    {N : Int} {s s' : MFS} {t : List Event} (hrp : remotePath ≠ [])
    (h : addFile (mfs dg) localPath f remotePath N s = ⟨.ok f', s', t⟩) :
    f' = f.cached dg ∧
    ((Getxattr f = some (dg f.content) ∧ s' = s) ∨
      (Getxattr f ≠ some (dg f.content) ∧ f.xattrWritable = true ∧
        ∀ q, s'.get q = if q = remotePath then some (.file (dg f.content))
          else if remotePath <+: q then none else s.get q)) := by
  rw [addFile_eq] at h
  unfold addFileOutcome at h
  cases hopen : f.openable
  · simp [hopen] at h
  · simp only [hopen, Bool.true_eq_false, if_false, mfs] at h
    cases hc : cacheHit f (dg f.content)
    · have hmiss : Getxattr f ≠ some (dg f.content) := by
        intro hg
        rw [(cacheHit_iff f _).2 hg] at hc
        cases hc
      simp only [hc, Bool.false_eq_true, if_false] at h
      rcases hcp : MFS.exec (MFS.exec s (.rm remotePath false true)).2
          (.cp (dg f.content) remotePath (decide (N ≥ 0))) with ⟨res, s3⟩
      rw [hcp] at h
      cases res with
      | error e => simp at h
      | ok out =>
        simp only [Outcome.mk.injEq] at h
        obtain ⟨h1, h2, _⟩ := h
        cases hw : f.xattrWritable
        · simp [hw] at h1
        · simp only [hw, if_true, Except.ok.injEq] at h1
          subst h2
          obtain ⟨_, _, hs3, _⟩ := (MFS.exec_cp_eq_ok _ _ _ _ _ _).1 hcp
          refine ⟨?_, Or.inr ⟨hmiss, rfl, fun q => ?_⟩⟩
          · rw [← h1]; simp [File.cached, hopen, hw]
          · by_cases hq : q = []
            · subst hq
              have : ¬ remotePath <+: [] := by simpa using hrp
              simp [this, Ne.symm hrp]
            · rw [hs3, MFS.get_cons _ _ _ _ hq]
              by_cases hqr : q = remotePath
              · simp [hqr]
              · rw [if_neg (fun h => hqr h.symm), if_neg hqr, MFS.get_remove]
                by_cases hpre : remotePath <+: q
                · simp [hpre, hq]
                · simp only [hpre, and_false, if_false]
                  cases hrm : isOk (MFS.exec s (.rm remotePath false true)).1
                  · rw [MFS.exec_state_of_error _ _ hrm]
                  · rcases hx : MFS.exec s (.rm remotePath false true) with ⟨res2, s2⟩
                    rw [hx] at hrm
                    cases res2 with
                    | error e => simp [isOk] at hrm
                    | ok out2 =>
                      obtain ⟨_, _, hs2, _⟩ := (MFS.exec_rm_eq_ok _ _ _ _ _).1 hx
                      simp only [hs2, MFS.get_remove, hpre, and_false, if_false]
    · have hhit : Getxattr f = some (dg f.content) := (cacheHit_iff f _).1 hc
      simp only [hc, if_true, Outcome.mk.injEq, Except.ok.injEq] at h
      obtain ⟨h1, h2, _⟩ := h
      exact ⟨by rw [← h1, File.cached_of_hit dg f hhit], Or.inl ⟨hhit, h2.symm⟩⟩


theorem walkFiles_mfs_ok {dg : String → Hash} {src dest : Path} {N : Int} (es : Listing)
    {es' : Listing} {s s' : MFS} {t : List Event}
    (hnd : ((readDir es).2.map File.name).Nodup)
    (h : walkFiles (mfs dg) src dest N es s = ⟨.ok es', s', t⟩) :
    es' = es.cacheTop dg ∧
    (∀ q, (∀ f ∈ (readDir es).2, Getxattr f ≠ some (dg f.content) →
      ¬ (dest ++ [f.name]) <+: q) → s'.get q = s.get q) ∧
    (∀ f ∈ (readDir es).2, Getxattr f ≠ some (dg f.content) →
      s'.get (dest ++ [f.name]) = some (.file (dg f.content)) ∧ f.xattrWritable = true) := by
  induction es generalizing es' s s' t with
  | nil =>
    obtain ⟨rfl, rfl, rfl⟩ := walkFiles_nil_eq_ok_iff.1 h
    exact ⟨rfl, fun _ _ => rfl, fun f hf => by simp [readDir] at hf⟩
  | dir name readable sub rest _ ih =>
    obtain ⟨rest', h1, rfl⟩ := walkFiles_dir_eq_ok_iff.1 h
    obtain ⟨rfl, hfr, hpub⟩ := ih (by simpa [readDir] using hnd) h1
    exact ⟨rfl, hfr, hpub⟩
  | other name rest ih =>
    obtain ⟨rest', h1, rfl⟩ := walkFiles_other_eq_ok_iff.1 h
    obtain ⟨rfl, hfr, hpub⟩ := ih (by simpa [readDir] using hnd) h1
    exact ⟨rfl, hfr, hpub⟩
  | file f rest ih =>
    obtain ⟨f', s1, t1, rest', t2, h1, h2, rfl, rfl⟩ := walkFiles_file_eq_ok_iff.1 h
    simp only [readDir, List.map_cons, List.nodup_cons, List.mem_map, not_exists, not_and] at hnd
    obtain ⟨rfl, hfr, hpub⟩ := ih hnd.2 h2
    obtain ⟨rfl, hcase⟩ := addFile_mfs_ok (by simp [childPath]) h1
    have hstep : ∀ q, (Getxattr f ≠ some (dg f.content) → ¬ (dest ++ [f.name]) <+: q) →
        s1.get q = s.get q := by
      intro q hq
      rcases hcase with ⟨_, rfl⟩ | ⟨hmiss, _, hget⟩
      · rfl
      · rw [hget q]
        have hq := hq hmiss
        have : q ≠ childPath dest f.name := by
          rintro rfl; exact hq (List.prefix_refl _)
        simp only [childPath] at this ⊢
        simp [this, hq]
    refine ⟨rfl, ?_, ?_⟩
    · intro q hq
      simp only [readDir, List.mem_cons, forall_eq_or_imp] at hq
      rw [hfr q hq.2, hstep q hq.1]
    · intro g hg hmiss
      simp only [readDir, List.mem_cons] at hg
      rcases hg with rfl | hg
      · rcases hcase with ⟨hhit, _⟩ | ⟨_, hw, hget⟩
        · exact absurd hhit hmiss
        · refine ⟨?_, hw⟩
          rw [hfr]
          · rw [hget]; simp [childPath]
          · intro g' hg' _
            have hne := hnd.1 g' hg'
            intro hpre
            have := (child_prefix_iff dest g'.name g.name []).1 hpre
            exact hne this
      · exact hpub g hg hmiss

theorem removeOrphans_mfs_ok {dg : String → Hash} {dest : Path} {children : List String}
    (entries : List UnixFSEntry) {s s' : MFS} {t : List Event}
    (hpl : ∀ e ∈ entries, plainName e.Name = true)
    (h : removeOrphans (mfs dg) dest children entries s = ⟨.ok (), s', t⟩) :
    ∀ q, s'.get q =
      if ∃ e ∈ entries, e.Name ∉ children ∧ (dest ++ [e.Name]) <+: q then none else s.get q := by
  induction entries generalizing s s' t with
  | nil =>
    simp only [removeOrphans, Prog.pure_eq_ok_iff] at h
    obtain ⟨_, rfl, rfl⟩ := h
    simp
  | cons file entries ih =>
    unfold removeOrphans at h
    have hpl' : ∀ e ∈ entries, plainName e.Name = true :=
      fun e he => hpl e (List.mem_cons_of_mem _ he)
    by_cases hmem : file.Name ∈ children
    · simp only [hmem, decide_True, Bool.not_true, Bool.false_eq_true, if_false] at h
      intro q
      rw [ih hpl' h q]
      simp [hmem]
    · rw [pathJoin_of_plainName dest (hpl file (List.mem_cons_self _ _))] at h
      simp only [hmem, decide_False, Bool.not_false, if_true, Prog.bind_eq_ok_iff,
        exec_eq_ok_iff, Prog.emit_eq_ok_iff] at h
      obtain ⟨out, s1, t1, _, ⟨hx, rfl⟩, ⟨_, s2, t2, t3, ⟨rfl, rfl⟩, h3, rfl⟩, rfl⟩ := h
      have hget := ih hpl' h3
      obtain ⟨hne, _, rfl, _⟩ := (MFS.exec_rm_eq_ok s s2 (dest ++ [file.Name]) false out).1 hx
      intro q
      rw [hget q, MFS.get_remove]
      by_cases hq : q = []
      · subst hq; simp
      · by_cases h1 : (dest ++ [file.Name]) <+: q
        · simp [h1, hmem, hq]
        · simp [h1, hmem]


/-! ## Runs on the remote tree: the steps of `walk` -/

theorem MFS.get_prefix_of_wf {s : MFS} (hwf : s.wf = true) (q r : Path) (hr : r ≠ [])
    (h : s.get (q ++ r) ≠ none) : s.get q = some .dir := by
  induction r using List.reverseRecOn generalizing q with
  | nil => exact absurd rfl hr
  | append_singleton r n ih =>
    have hpar : s.get (q ++ r) = some .dir := by
      have := MFS.wf_parent hwf (q ++ r) n
      rw [List.append_assoc] at this
      exact this h
    by_cases hr' : r = []
    · subst hr'; simpa using hpar
    · exact ih q hr' (by rw [hpar]; simp)

theorem MFS.withDirs_of_isDir {s : MFS} (hwf : s.wf = true) (p : Path)
    (h : s.get p = some .dir) : s.withDirs p = s := by
  unfold MFS.withDirs
  have : List.filter (fun q => !s.exists_ q) p.inits = [] := by
    rw [List.filter_eq_nil_iff]
    intro q hq
    simp only [List.mem_inits] at hq
    obtain ⟨r, rfl⟩ := hq
    simp only [Bool.not_eq_eq_eq_not, Bool.not_true, Bool.not_eq_false]
    rw [MFS.exists_iff]
    by_cases hr : r = []
    · subst hr; simp at h; simp [h]
    · rw [MFS.get_prefix_of_wf hwf q r hr (by rw [h]; simp)]; simp
  rw [this]; rfl

theorem precreate_mfs_ok {dg : String → Hash} {dirs : List String} {files : List File}
    {dest : Path} {s s' : MFS} {t : List Event}
    (h : precreate (mfs dg) dirs files dest s = ⟨.ok (), s', t⟩) :
    (∀ q, ¬ q <+: dest → s'.get q = s.get q) ∧
    (∀ q, s.get q ≠ none → s'.get q = s.get q) ∧
    (dirs = [] → files ≠ [] → s'.get dest = some .dir) := by
  unfold precreate at h
  by_cases hc : (dirs.length == 0 && files.length != 0) = true
  · rw [if_pos hc] at h
    simp only [Prog.bind_eq_ok_iff, exec_eq_ok_iff, Prog.pure_eq_ok_iff] at h
    obtain ⟨out, s1, _, _, ⟨hx, rfl⟩, ⟨_, rfl, rfl⟩, rfl⟩ := h
    obtain ⟨hok, rfl, _⟩ := (MFS.exec_mkdir_eq_ok s s' dest false out).1 hx
    refine ⟨fun q hq => ?_, fun q hq => ?_, fun _ _ => ?_⟩
    · rw [MFS.get_withDirs]; simp [hq]
    · rw [MFS.get_withDirs]; simp [hq]
    · rw [MFS.get_withDirs]
      rcases hok dest (List.prefix_refl _) with h' | h'
      · simp [h']
      · simp [h']
  · rw [if_neg hc] at h
    obtain ⟨_, rfl, rfl⟩ := Prog.pure_eq_ok_iff.1 h
    refine ⟨fun _ _ => rfl, fun _ _ => rfl, fun hd hf => ?_⟩
    exfalso
    apply hc
    subst hd
    simp only [List.length_nil, beq_self_eq_true, bne_iff_ne, ne_eq, List.length_eq_zero,
      Bool.true_and, decide_eq_true_eq]
    simpa using hf

theorem flushDir_mfs_ok {dg : String → Hash} {dest : Path} {N : Int} {s s' : MFS}
    {t : List Event} (h : flushDir (mfs dg) dest N s = ⟨.ok (), s', t⟩) : s' = s := by
  rcases flushDir_eq_ok_iff.1 h with ⟨_, ⟨out, hx⟩, _⟩ | ⟨_, rfl, _⟩
  · exact ((MFS.exec_flush_eq_ok s s' dest out).1 hx).2.1
  · rfl

theorem reconcile_mfs_ok {dg : String → Hash} {dirs : List String} {files : List File}
    {dest : Path} {s s' : MFS} {t : List Event} (hwf : s.wf = true)
    (h : reconcile (mfs dg) dirs files dest s = ⟨.ok (), s', t⟩) :
    s'.get dest = some .dir ∧
    (∀ n, s'.get (dest ++ [n]) ≠ none → n ∈ dirs ++ files.map File.name) ∧
    (∀ n r, n ∈ dirs ++ files.map File.name → s'.get (dest ++ n :: r) = s.get (dest ++ n :: r)) ∧
    (∀ q, ¬ dest <+: q → s'.get q = s.get q) ∧
    (dirs = [] → files = [] → dest ≠ []) := by
  unfold reconcile at h
  by_cases hc : (dirs.length == 0 && files.length == 0) = true
  · rw [if_pos hc] at h
    have hd : dirs = [] ∧ files = [] := by
      simpa [List.length_eq_zero] using hc
    simp only [remakeDir, Prog.bind_eq_ok_iff, exec_eq_ok_iff, Prog.pure_eq_ok_iff] at h
    obtain ⟨out, s1, _, _, ⟨hx, rfl⟩, ⟨out2, s2, _, _, ⟨hx2, rfl⟩, ⟨_, rfl, rfl⟩, rfl⟩, rfl⟩ := h
    obtain ⟨hne, hex, rfl, _⟩ := (MFS.exec_rm_eq_ok s s1 dest false out).1 hx
    obtain ⟨_, rfl, _⟩ := (MFS.exec_mkdir_eq_ok _ _ dest false out2).1 hx2
    have hself : ¬ (dest ++ [] : Path) = [] := by simpa using hne
    refine ⟨?_, fun n hn => ?_, fun n r hn => ?_, fun q hq => ?_, fun _ _ => hne⟩
    · rw [MFS.get_withDirs, MFS.get_remove]
      simp [hne]
    · exfalso
      apply hn
      rw [MFS.get_withDirs, MFS.get_remove]
      have : ¬ (dest ++ [n]) <+: dest := by
        intro hp
        have := hp.length_le
        simp at this
      simp [this]
    · simp [hd.1, hd.2] at hn
    · rw [MFS.get_withDirs, MFS.get_remove]
      simp only [hq, and_false, if_false]
      by_cases hpre : q <+: dest
      · obtain ⟨r, rfl⟩ := hpre
        have hr : r ≠ [] := by
          rintro rfl
          exact hq (by simp)
        rw [MFS.get_prefix_of_wf hwf q r hr hex]
        simp
      · simp [hpre]
  · rw [if_neg hc] at h
    simp only [Prog.bind_eq_ok_iff, exec_eq_ok_iff] at h
    obtain ⟨out, s1, _, t2, ⟨hx, rfl⟩, h2, rfl⟩ := h
    obtain ⟨hdir, hs1, hout⟩ := (MFS.exec_ls_eq_ok s s1 dest false true out).1 hx
    rw [hs1, hout] at h2
    have hget := removeOrphans_mfs_ok _ (fun e he => by
      obtain ⟨n, hn, rfl⟩ := List.mem_map.1 he
      exact MFS.wf_child hwf dest n ((MFS.mem_children s dest n).1 hn)) h2
    have hnot : dirs = [] → files = [] → dest ≠ [] := by
      intro hd hf
      exfalso
      apply hc
      simp [hd, hf]
    refine ⟨?_, fun n hn => ?_, fun n r hn => ?_, fun q hq => ?_, hnot⟩
    · rw [hget]
      have : ¬ ∃ e ∈ List.map (fun n => (⟨n, 0, 0, ""⟩ : UnixFSEntry)) (s.children dest),
          e.Name ∉ dirs ++ files.map File.name ∧ (dest ++ [e.Name]) <+: dest := by
        rintro ⟨e, _, _, hp⟩
        have := hp.length_le
        simp at this
      rw [if_neg this, hdir]
    · by_contra hmem
      apply hn
      rw [hget]
      have hex : s.get (dest ++ [n]) ≠ none := by
        intro h0
        apply hn
        rw [hget, h0]
        simp
      have : ∃ e ∈ List.map (fun n => (⟨n, 0, 0, ""⟩ : UnixFSEntry)) (s.children dest),
          e.Name ∉ dirs ++ files.map File.name ∧ (dest ++ [e.Name]) <+: (dest ++ [n]) :=
        ⟨⟨n, 0, 0, ""⟩, List.mem_map.2 ⟨n, (MFS.mem_children s dest n).2 hex, rfl⟩, hmem,
          List.prefix_refl _⟩
      rw [if_pos this]
    · rw [hget]
      have : ¬ ∃ e ∈ List.map (fun n => (⟨n, 0, 0, ""⟩ : UnixFSEntry)) (s.children dest),
          e.Name ∉ dirs ++ files.map File.name ∧ (dest ++ [e.Name]) <+: (dest ++ n :: r) := by
        rintro ⟨e, _, hnot, hp⟩
        rw [child_prefix_iff] at hp
        exact hnot (hp ▸ hn)
      rw [if_neg this]
    · rw [hget]
      have : ¬ ∃ e ∈ List.map (fun n => (⟨n, 0, 0, ""⟩ : UnixFSEntry)) (s.children dest),
          e.Name ∉ dirs ++ files.map File.name ∧ (dest ++ [e.Name]) <+: q := by
        rintro ⟨e, _, _, hp⟩
        exact hq ((List.prefix_append dest [e.Name]).trans hp)
      rw [if_neg this]


/-! ## The remote tree after a run that returns no error -/

theorem Listing.subdirs_head {es : Listing} {d : Path × Bool × Listing} (hd : d ∈ es.subdirs) :
    ∃ n r, d.1 = n :: r ∧ n ∈ (readDir es).1 := by
  induction es with
  | nil => cases hd
  | dir name readable sub rest _ ih =>
    simp only [Listing.subdirs, List.cons_append, List.mem_cons, List.mem_append,
      List.mem_map] at hd
    rcases hd with rfl | ⟨d', _, rfl⟩ | hd
    · exact ⟨name, [], rfl, by simp [readDir]⟩
    · exact ⟨name, d'.1, rfl, by simp [readDir]⟩
    · obtain ⟨n, r, h1, h2⟩ := ih hd
      exact ⟨n, r, h1, by simp [readDir, h2]⟩
  | file f rest ih =>
    obtain ⟨n, r, h1, h2⟩ := ih hd
    exact ⟨n, r, h1, by simpa [readDir] using h2⟩
  | other name rest ih =>
    obtain ⟨n, r, h1, h2⟩ := ih hd
    exact ⟨n, r, h1, by simpa [readDir] using h2⟩

theorem Listing.dir_mem_subdirs {es : Listing} {n : String} (hn : n ∈ (readDir es).1) :
    ∃ rd sub, ([n], rd, sub) ∈ es.subdirs := by
  induction es with
  | nil => simp [readDir] at hn
  | dir name readable sub rest _ ih =>
    simp only [readDir, List.mem_cons] at hn
    rcases hn with rfl | hn
    · exact ⟨readable, sub, List.mem_cons_self _ _⟩
    · obtain ⟨rd, sub', h⟩ := ih hn
      exact ⟨rd, sub', List.mem_cons_of_mem _ (List.mem_append_right _ h)⟩
  | file f rest ih =>
    obtain ⟨rd, sub', h⟩ := ih (by simpa [readDir] using hn)
    exact ⟨rd, sub', h⟩
  | other name rest ih =>
    obtain ⟨rd, sub', h⟩ := ih (by simpa [readDir] using hn)
    exact ⟨rd, sub', h⟩

theorem Level.congr {dg : String → Hash} {s s' : MFS} {p : Path} {es : Listing}
    (h : ∀ r, s'.get (p ++ r) = s.get (p ++ r)) (hl : Level dg s p es) : Level dg s' p es := by
  obtain ⟨h1, h2, h3, h4⟩ := hl
  refine ⟨?_, fun n hn => h2 n ?_, fun n hn => ?_, fun f hf hm => ?_⟩
  · have := h []
    simp only [List.append_nil] at this
    rw [this, h1]
  · rwa [← h [n]]
  · rw [h [n]]; exact h3 n hn
  · rw [h [f.name]]; exact h4 f hf hm

theorem append_cons_not_above (d : Path) (n : String) (r : Path) : ¬ (d ++ n :: r) <+: d := by
  intro h
  have := h.length_le
  simp at this

theorem Listing.cacheTop_cacheSubs (dg : String → Hash) (es : Listing) :
    (es.cacheSubs dg).cacheTop dg = es.cacheAll dg := by
  induction es with
  | nil => rfl
  | dir name readable sub rest _ ih => simp [Listing.cacheSubs, Listing.cacheTop, Listing.cacheAll, ih]
  | file f rest ih => simp [Listing.cacheSubs, Listing.cacheTop, Listing.cacheAll, ih]
  | other name rest ih => simp [Listing.cacheSubs, Listing.cacheTop, Listing.cacheAll, ih]

theorem Listing.readDir_cacheSubs (dg : String → Hash) (es : Listing) :
    readDir (es.cacheSubs dg) = readDir es := by
  induction es with
  | nil => rfl
  | dir name readable sub rest _ ih => simp [Listing.cacheSubs, readDir, ih]
  | file f rest ih => simp [Listing.cacheSubs, readDir, ih]
  | other name rest ih => simp [Listing.cacheSubs, readDir, ih]

theorem FilesPost.carry {dg : String → Hash} {s s1 s' : MFS} {p : Path} {es : Listing}
    (h : ∀ n, s'.get (p ++ [n]) = s1.get (p ++ [n])) (hp : FilesPost dg s s1 p es) :
    FilesPost dg s s' p es :=
  fun f hf => ⟨fun hhit => by rw [h, (hp f hf).1 hhit], (hp f hf).2⟩

theorem FilesPost.rebase {dg : String → Hash} {s s1 s' : MFS} {p : Path} {es : Listing}
    (h : ∀ n, s1.get (p ++ [n]) = s.get (p ++ [n])) (hp : FilesPost dg s1 s' p es) :
    FilesPost dg s s' p es :=
  fun f hf => ⟨fun hhit => by rw [(hp f hf).1 hhit, h], (hp f hf).2⟩

theorem walk_mfs_of_dirs {dg : String → Hash} {src dest : Path} {readable : Bool} {N : Int}
    {es es' : Listing} {s s' : MFS} {t : List Event} (hwf : s.wf = true)
    (hdest : ∀ c ∈ dest, plainName c = true)
    (hpl : ∀ d ∈ ([], true, es) :: es.subdirs, ∀ n ∈ d.2.2.childNames, plainName n = true)
    (hnd : es.childNames.Nodup)
    (hdirs : ∀ es1 s1 t1, walkDirs (mfs dg) src dest N es s = ⟨.ok es1, s1, t1⟩ →
      DirsPost dg es dest s s1 es1)
    (h : walk (mfs dg) src readable es dest N s = ⟨.ok es', s', t⟩) :
    WalkPost dg es dest s s' es' := by
  obtain ⟨_, es1, s1, t1, t2, h1, h2, rfl⟩ := walkBody_eq_ok_iff.1 h
  obtain ⟨s2, t2, s3, t3, s4, t4, t5, hpre, hfiles, hrec, hfl, rfl⟩ :=
    walkAfterDirs_eq_ok_iff.1 h2
  obtain ⟨rfl, hframe1, hlev1⟩ := hdirs es1 s1 t1 h1
  have hwf1 : s1.wf = true := walkDirs_ok_wf es hwf hdest hpl h1
  have hwf2 : s2.wf = true := by
    have := precreate_keeps_wf dg (readDir es).1 (readDir es).2 dest hdest s1 hwf1
    rwa [hpre] at this
  have hwf3 : s3.wf = true := by
    have := walkFiles_keeps_wf dg src dest N (es.cacheSubs dg) hdest (by
      rw [Listing.readDir_cacheSubs]
      exact Listing.plain_files (hpl _ (List.mem_cons_self _ _))) s2 hwf2
    rwa [hfiles] at this
  have hndf : ((readDir es).2.map File.name).Nodup := (List.nodup_append.1 hnd).2.1
  have hnd' : ((readDir (es.cacheSubs dg)).2.map File.name).Nodup := by
    rw [Listing.readDir_cacheSubs]
    exact hndf
  obtain ⟨rfl, hframe3, hpub3⟩ := walkFiles_mfs_ok _ hnd' hfiles
  rw [Listing.readDir_cacheSubs] at hframe3 hpub3
  obtain ⟨hpre1, _, hpre3⟩ := precreate_mfs_ok hpre
  obtain ⟨hrec1, hrec2, hrec3, hrec4, hrec5⟩ := reconcile_mfs_ok hwf3 hrec
  have hs' : s' = s4 := flushDir_mfs_ok hfl
  subst hs'
  -- names of subdirectories and of regular files are distinct
  have hdf : ∀ n ∈ (readDir es).1, ∀ f ∈ (readDir es).2, f.name ≠ n := by
    intro n hn f hf hfn
    have := (List.nodup_append.1 hnd).2.2
    exact this hn (List.mem_map.2 ⟨f, hf, hfn⟩)
  -- below a subdirectory nothing changes after the loop over `dirs`
  have hsub : ∀ n ∈ (readDir es).1, ∀ r, s'.get (dest ++ n :: r) = s1.get (dest ++ n :: r) := by
    intro n hn r
    rw [hrec3 n r (List.mem_append_left _ hn), hframe3, hpre1]
    · exact append_cons_not_above dest n r
    · intro f hf _ hp
      exact hdf n hn f hf ((child_prefix_iff dest f.name n r).1 hp)
  refine ⟨Listing.cacheTop_cacheSubs dg es, fun q hq1 hq2 => ?_, fun d hd => ?_, fun hnil => ?_⟩
  · rw [hrec4 q hq1, hframe3, hpre1 q hq2, hframe1 q _ hq2]
    · intro n _ hp
      exact hq1 ((List.prefix_append dest [n]).trans hp)
    · intro f _ _ hp
      exact hq1 ((List.prefix_append dest [f.name]).trans hp)
  · rcases List.mem_cons.1 hd with rfl | hd
    · simp only [List.append_nil]
      refine ⟨⟨hrec1, hrec2, fun n hn => ?_, fun f hf hm => ?_⟩, fun f hf => ⟨fun hhit => ?_,
        fun hm => (hpub3 f hf hm).2⟩⟩
      · obtain ⟨rd, sub, hmem⟩ := Listing.dir_mem_subdirs hn
        rw [hsub n hn []]
        exact (hlev1 _ hmem).1.1
      · have := hrec3 f.name [] (List.mem_append_right _ (List.mem_map.2 ⟨f, hf, rfl⟩))
        rw [this]
        exact (hpub3 f hf hm).1
      · have := hrec3 f.name [] (List.mem_append_right _ (List.mem_map.2 ⟨f, hf, rfl⟩))
        rw [this, hframe3, hpre1 _ (append_cons_not_above dest f.name []), hframe1]
        · intro n hn hp
          exact hdf n hn f hf ((child_prefix_iff dest n f.name []).1 hp).symm
        · exact append_cons_not_above dest f.name []
        · intro g hg hmiss hp
          have hname := (child_prefix_iff dest g.name f.name []).1 hp
          have hgf : g = f := List.inj_on_of_nodup_map hndf hg hf hname
          rw [hgf] at hmiss
          exact hmiss hhit
    · obtain ⟨n, r, hdr, hn⟩ := Listing.subdirs_head hd
      refine ⟨Level.congr (fun r' => ?_) (hlev1 d hd).1,
        FilesPost.carry (fun m => ?_) (hlev1 d hd).2⟩
      · rw [hdr]
        simpa using hsub n hn (r ++ r')
      · rw [hdr]
        simpa using hsub n hn (r ++ [m])
  · refine hrec5 ?_ ?_
    · simpa [Listing.childNames] using (List.append_eq_nil.1 hnil).1
    · simpa [Listing.childNames] using (List.append_eq_nil.1 hnil).2


theorem Listing.noDup_iff (es : Listing) :
    es.noDup = true ↔ ∀ d ∈ ([], true, es) :: es.subdirs, d.2.2.childNames.Nodup := by
  unfold Listing.noDup
  rw [List.all_eq_true]
  exact forall_congr' fun d => imp_congr_right fun _ => decide_eq_true_iff

theorem Listing.childNames_dir (name : String) (readable : Bool) (sub rest : Listing) :
    (Listing.dir name readable sub rest).childNames = name :: rest.childNames := by
  simp [Listing.childNames, readDir]

theorem Listing.childNames_other (name : String) (rest : Listing) :
    (Listing.other name rest).childNames = rest.childNames := by
  simp [Listing.childNames, readDir]

theorem Listing.childNames_file_nodup {f : File} {rest : Listing}
    (h : (Listing.file f rest).childNames.Nodup) : rest.childNames.Nodup := by
  simp only [Listing.childNames, readDir, List.map_cons] at h ⊢
  exact (List.nodup_cons.1 (List.nodup_middle.1 h)).2

theorem Listing.nodup_of_rest {name : String} {readable : Bool} {sub rest : Listing}
    (h : (Listing.dir name readable sub rest).childNames.Nodup) :
    rest.childNames.Nodup ∧ name ∉ rest.childNames := by
  rw [Listing.childNames_dir, List.nodup_cons] at h
  exact ⟨h.2, h.1⟩

theorem walkDirs_mfs_ok {dg : String → Hash} (es : Listing) :
    ∀ {src dest : Path} {N : Int} {es' : Listing} {s s' : MFS} {t : List Event},
      s.wf = true → (∀ c ∈ dest, plainName c = true) →
      (∀ d ∈ ([], true, es) :: es.subdirs, ∀ n ∈ d.2.2.childNames, plainName n = true) →
      (∀ d ∈ ([], true, es) :: es.subdirs, d.2.2.childNames.Nodup) →
      walkDirs (mfs dg) src dest N es s = ⟨.ok es', s', t⟩ → DirsPost dg es dest s s' es' := by
  induction es with
  | nil =>
    intro src dest N es' s s' t _ _ _ _ h
    obtain ⟨rfl, rfl, rfl⟩ := walk_nil_eq_ok_iff.1 h
    exact ⟨rfl, fun _ _ _ => rfl, fun d hd => by cases hd⟩
  | file f rest ih =>
    intro src dest N es' s s' t hwf hdest hpl hnd h
    obtain ⟨rest', h1, rfl⟩ := walkDirs_file_eq_ok_iff.1 h
    have hnd' : ∀ d ∈ ([], true, rest) :: rest.subdirs, d.2.2.childNames.Nodup := by
      intro d hd
      rcases List.mem_cons.1 hd with rfl | hd
      · exact Listing.childNames_file_nodup (hnd _ (List.mem_cons_self _ _))
      · exact hnd d (List.mem_cons_of_mem _ hd)
    have hpl' : ∀ d ∈ ([], true, rest) :: rest.subdirs, ∀ n ∈ d.2.2.childNames,
        plainName n = true := by
      intro d hd
      rcases List.mem_cons.1 hd with rfl | hd
      · intro n hn
        refine hpl _ (List.mem_cons_self _ _) n ?_
        simp only [Listing.childNames, readDir, List.map_cons, List.mem_append, List.mem_cons,
          List.mem_map] at hn ⊢
        rcases hn with hn | hn
        · exact Or.inl hn
        · exact Or.inr (Or.inr hn)
      · exact hpl d (List.mem_cons_of_mem _ hd)
    obtain ⟨rfl, hfr, hlev⟩ := ih hwf hdest hpl' hnd' h1
    exact ⟨rfl, hfr, hlev⟩
  | other name rest ih =>
    intro src dest N es' s s' t hwf hdest hpl hnd h
    obtain ⟨rest', h1, rfl⟩ := walkDirs_other_eq_ok_iff.1 h
    have hnd' : ∀ d ∈ ([], true, rest) :: rest.subdirs, d.2.2.childNames.Nodup := by
      intro d hd
      rcases List.mem_cons.1 hd with rfl | hd
      · have := hnd _ (List.mem_cons_self _ _)
        rwa [Listing.childNames_other] at this
      · exact hnd d (List.mem_cons_of_mem _ hd)
    have hpl' : ∀ d ∈ ([], true, rest) :: rest.subdirs, ∀ n ∈ d.2.2.childNames,
        plainName n = true := by
      intro d hd
      rcases List.mem_cons.1 hd with rfl | hd
      · have := hpl _ (List.mem_cons_self _ _)
        rwa [Listing.childNames_other] at this
      · exact hpl d (List.mem_cons_of_mem _ hd)
    obtain ⟨rfl, hfr, hlev⟩ := ih hwf hdest hpl' hnd' h1
    exact ⟨rfl, hfr, hlev⟩
  | dir name readable sub rest ihsub ihrest =>
    intro src dest N es' s s' t hwf hdest hpl hnd h
    obtain ⟨sub', s1, t1, rest', t2, h1, h2, rfl, rfl⟩ := walkDirs_dir_eq_ok_iff.1 h
    obtain ⟨hndtop, hnotin⟩ := Listing.nodup_of_rest (hnd _ (List.mem_cons_self _ _))
    have hpltop := hpl _ (List.mem_cons_self _ _)
    rw [Listing.childNames_dir] at hpltop
    have hndsub := Listing.levels_of_sub (P := fun l => l.childNames.Nodup) hnd
    have hplsub :=
      Listing.levels_of_sub (P := fun l => ∀ n ∈ l.childNames, plainName n = true) hpl
    have hndrest : ∀ d ∈ ([], true, rest) :: rest.subdirs, d.2.2.childNames.Nodup := by
      intro d hd
      rcases List.mem_cons.1 hd with rfl | hd
      · exact hndtop
      · exact Listing.levels_of_rest (P := fun l => l.childNames.Nodup) hnd d hd
    have hplrest : ∀ d ∈ ([], true, rest) :: rest.subdirs, ∀ n ∈ d.2.2.childNames,
        plainName n = true := by
      intro d hd
      rcases List.mem_cons.1 hd with rfl | hd
      · exact fun n hn => hpltop n (List.mem_cons_of_mem _ hn)
      · exact Listing.levels_of_rest
          (P := fun l => ∀ n ∈ l.childNames, plainName n = true) hpl d hd
    have hdest1 : ∀ c ∈ childPath dest name, plainName c = true :=
      plain_append hdest (hpltop name (List.mem_cons_self _ _))
    obtain ⟨rfl, hfr1, hlev1, _⟩ := walk_mfs_of_dirs hwf hdest1 hplsub
      (hndsub _ (List.mem_cons_self _ _))
      (fun _ _ _ hh => ihsub hwf hdest1 hplsub hndsub hh) h1
    have hwf1 : s1.wf = true :=
      walk_ok_wf_of_dirs hdest1 (hplsub _ (List.mem_cons_self _ _))
        (fun _ _ _ hh => walkDirs_ok_wf sub hwf hdest1 hplsub hh) h1
    obtain ⟨rfl, hfr2, hlev2⟩ := ihrest hwf1 hdest hplrest hndrest h2
    have hne : ∀ m ∈ (readDir rest).1, m ≠ name := by
      rintro m hm rfl
      exact hnotin (List.mem_append_left _ hm)
    -- below `dest/name` the loop over the other subdirectories changes nothing
    have hkeep : ∀ r, s'.get (dest ++ name :: r) = s1.get (dest ++ name :: r) := by
      intro r
      refine hfr2 _ (fun m hm hp => ?_) (append_cons_not_above dest name r)
      exact hne m hm ((child_prefix_iff dest m name r).1 hp)
    refine ⟨rfl, fun q hq1 hq2 => ?_, fun d hd => ?_⟩
    · simp only [readDir, List.mem_cons, forall_eq_or_imp] at hq1
      rw [hfr2 q hq1.2 hq2]
      refine hfr1 q hq1.1 (fun hp => ?_)
      rcases List.prefix_concat_iff.1 hp with rfl | hp
      · exact hq1.1 (List.prefix_refl _)
      · exact hq2 hp
    · simp only [Listing.subdirs, List.cons_append, List.mem_cons, List.mem_append,
        List.mem_map] at hd
      rcases hd with rfl | ⟨d', hd', rfl⟩ | hd
      · have := hlev1 _ (List.mem_cons_self _ _)
        simp only [childPath, List.append_nil] at this
        refine ⟨Level.congr (fun r => ?_) this.1, FilesPost.carry (fun m => ?_) this.2⟩
        · simpa using hkeep r
        · simpa using hkeep [m]
      · have := hlev1 d' (List.mem_cons_of_mem _ hd')
        simp only [childPath, List.append_assoc, List.singleton_append] at this
        refine ⟨Level.congr (fun r => ?_) this.1, FilesPost.carry (fun m => ?_) this.2⟩
        · simpa using hkeep (d'.1 ++ r)
        · simpa using hkeep (d'.1 ++ [m])
      · refine ⟨(hlev2 d hd).1, FilesPost.rebase (fun m => ?_) (hlev2 d hd).2⟩
        obtain ⟨n, r, hdr, hn⟩ := Listing.subdirs_head hd
        rw [hdr]
        refine hfr1 _ (fun hp => ?_) (fun hp => ?_)
        · rw [List.append_assoc] at hp
          exact hne n hn ((child_prefix_iff dest name n (r ++ [m])).1 hp).symm
        · have := hp.length_le
          simp [childPath] at this

theorem walk_mfs_ok {dg : String → Hash} {src dest : Path} {readable : Bool} {N : Int}
    {es es' : Listing} {s s' : MFS} {t : List Event} (hwf : s.wf = true)
    (hdest : ∀ c ∈ dest, plainName c = true) (hpl : es.plain = true)
    (hnd : es.noDup = true) (h : walk (mfs dg) src readable es dest N s = ⟨.ok es', s', t⟩) :
    WalkPost dg es dest s s' es' :=
  walk_mfs_of_dirs hwf hdest ((Listing.plain_iff es).1 hpl)
    (((Listing.noDup_iff es).1 hnd) _ (List.mem_cons_self _ _))
    (fun _ _ _ hh =>
      walkDirs_mfs_ok es hwf hdest ((Listing.plain_iff es).1 hpl) ((Listing.noDup_iff es).1 hnd) hh)
    h


/-! ## Completeness -/

/-- C9, at its failing input: the source directory is empty and `/sync` does not exist in the
remote tree.  The `files/rm` of `remakeDir` fails, `walk` returns its error, no `files/mkdir`
is sent, and `/sync` still does not exist. -/
theorem remakeDir_fails_on_absent_dest :
    (walk (mfs exDigest) ["A"] true .nil ["sync"] 4 []).result =
      .error (.wrapf (.external "file does not exist") "rm -r %q" [["sync"]]) ∧
    (walk (mfs exDigest) ["A"] true .nil ["sync"] 4 []).trace =
      [.call .walk (.readDir ["A"]) true,
        .call .remakeDir (.request (.rm ["sync"] false true)) false] ∧
    (walk (mfs exDigest) ["A"] true .nil ["sync"] 4 []).state.exists_ ["sync"] = false := by
  decide


/-! ## Runs on a ready tree -/

theorem exec_ok {σ : Type} {ipfs : Shell σ} {site : Site} {r : Request} {format : String}
    {args : List Path} {out : List UnixFSEntry} {s s' : σ}
    (h : ipfs.Exec s r = (.ok out, s')) :
    exec ipfs site r format args s = ⟨.ok out, s', [.call site (.request r) true]⟩ :=
  exec_eq_ok_iff.2 ⟨h, rfl⟩

theorem MFS.get_cons_of_ne (p : Path) (k : Kind) (s : MFS) (q : Path) (h : p ≠ q) :
    MFS.get ((p, k) :: s) q = s.get q := by
  by_cases hq : q = []
  · subst hq; simp
  · rw [MFS.get_cons _ _ _ _ hq, if_neg h]

theorem MFS.absent_below {s : MFS} (hwf : s.wf = true) {p : Path} (h : s.get p ≠ some .dir)
    (r : Path) (hr : r ≠ []) : s.get (p ++ r) = none := by
  by_contra hne
  exact h (MFS.get_prefix_of_wf hwf p r hr hne)

/-- The run of `addFile` on a file that caches the hash of its content, when the cache read
does not give it: the file is published again, and the remote tree holds what it held. -/
theorem addFile_refresh (dg : String → Hash) (localPath p : Path) (n : String) (f : File)
    (M : Int) (s : MFS) (hwf : s.wf = true) (hopen : f.openable = true)
    (hmiss : Getxattr f ≠ some (dg f.content)) (hx : f.xattr = some (dg f.content))
    (hw : f.xattrWritable = true) (hdir : s.get p = some .dir)
    (hbound : s.get (p ++ [n]) = some (.file (dg f.content))) :
    ∃ s' t, addFile (mfs dg) localPath f (p ++ [n]) M s = ⟨.ok f, s', t⟩ ∧
      (∀ q, s'.get q = s.get q) ∧
      t.filter Event.mutates =
        [.call .addFile (.request (.rm (p ++ [n]) false true)) true,
          .call .addFile (.request (.cp (dg f.content) (p ++ [n]) (decide (M ≥ 0)))) true] := by
  have hc : cacheHit f (dg f.content) = false := by
    cases h : cacheHit f (dg f.content)
    · rfl
    · exact absurd ((cacheHit_iff f _).1 h) hmiss
  have hrm : MFS.exec s (.rm (p ++ [n]) false true) = (.ok [], s.remove (p ++ [n])) :=
    (MFS.exec_rm_eq_ok s _ (p ++ [n]) false []).2 ⟨by simp, by rw [hbound]; simp, rfl, rfl⟩
  have hpar : (s.remove (p ++ [n])).get (p ++ [n]).dropLast = some .dir := by
    rw [List.dropLast_concat, MFS.get_remove]
    have : ¬ (p ++ [n]) <+: p := append_cons_not_above p n []
    simp [this, hdir]
  have hcp : MFS.exec (s.remove (p ++ [n])) (.cp (dg f.content) (p ++ [n]) (decide (M ≥ 0))) =
      (.ok [], (p ++ [n], Kind.file (dg f.content)) :: (s.remove (p ++ [n])).remove (p ++ [n])) :=
    (MFS.exec_cp_eq_ok _ _ _ (p ++ [n]) _ []).2 ⟨by simp, hpar, rfl, rfl⟩
  have hf : (⟨f.name, true, f.content, some (dg f.content), true⟩ : File) = f := by
    cases f
    simp only at hx hopen hw
    simp [hx, hopen, hw]
  have hrun : addFile (mfs dg) localPath f (p ++ [n]) M s =
      ⟨.ok f, (p ++ [n], Kind.file (dg f.content)) :: (s.remove (p ++ [n])).remove (p ++ [n]),
        [.call .addFile (.osOpen localPath) true, .call .addFile (.add localPath) true,
          .call .addFile (.getxattr localPath) (Getxattr f).isSome,
          .call .addFile (.request (.rm (p ++ [n]) false true)) true,
          .call .addFile (.request (.cp (dg f.content) (p ++ [n]) (decide (M ≥ 0)))) true,
          .log "FILE" (p ++ [n])] ++ (if M ≥ 0 then [.log "FLUSH" (p ++ [n])] else []) ++
          [.call .addFile (.setxattr localPath (dg f.content)) true]⟩ := by
    rw [addFile_eq]
    simp only [addFileOutcome, hopen, mfs, hc, hrm, hcp, hw, hf, Bool.true_eq_false, if_false,
      Bool.false_eq_true, if_true, isOk]
  refine ⟨_, _, hrun, fun q => ?_, ?_⟩
  · by_cases hq : q = p ++ [n]
    · subst hq
      rw [MFS.get_cons _ _ _ _ (by simp), if_pos rfl, hbound]
    · rw [MFS.get_cons_of_ne _ _ _ _ (fun e => hq e.symm), MFS.get_remove, MFS.get_remove]
      by_cases hpre : (p ++ [n]) <+: q
      · obtain ⟨r, rfl⟩ := hpre
        have hr : r ≠ [] := by
          rintro rfl
          exact hq (by simp)
        rw [MFS.absent_below hwf (by rw [hbound]; simp) r hr]
        simp
      · simp [hpre]
  · by_cases hM : M ≥ 0 <;>
      simp [List.filter, Event.mutates, Event.isRequest, Request.isRm, Request.isCp, hM]

/-- The loop over the regular files of a ready directory: every file whose cache read gives its
hash is left alone, every other file is published again, and the remote tree holds what it
held. -/
theorem walkFiles_ready (dg : String → Hash) (src dest : Path) (M : Int) (es : Listing) :
    ∀ (s : MFS), s.wf = true → s.get dest = some .dir →
      (∀ f ∈ (readDir es).2, f.openable = true ∧
        (Getxattr f = some (dg f.content) ∨
          (f.xattr = some (dg f.content) ∧ f.xattrWritable = true ∧
            s.get (dest ++ [f.name]) = some (.file (dg f.content))))) →
      ∃ s' t, walkFiles (mfs dg) src dest M es s = ⟨.ok es, s', t⟩ ∧
        (∀ q, s'.get q = s.get q) ∧
        t.filter Event.mutates =
          (((readDir es).2.filter fun f => Getxattr f != some (dg f.content)).flatMap fun f =>
            [.call .addFile (.request (.rm (dest ++ [f.name]) false true)) true,
              .call .addFile (.request (.cp (dg f.content) (dest ++ [f.name])
                (decide (M - 1 ≥ 0)))) true]) ∧
        ∀ f ∈ (readDir es).2, Getxattr f = some (dg f.content) →
          Event.log "SAME" (dest ++ [f.name]) ∈ t := by
  induction es with
  | nil =>
    intro s _ _ _
    exact ⟨s, [], rfl, fun _ => rfl, rfl, fun f hf => by simp [readDir] at hf⟩
  | dir name readable sub rest _ ih =>
    intro s hwf hdir hfiles
    obtain ⟨s', t, h1, h2, h3, h4⟩ := ih s hwf hdir (by simpa [readDir] using hfiles)
    exact ⟨s', t, walkFiles_dir_eq_ok_iff.2 ⟨rest, h1, rfl⟩, h2, by simpa [readDir] using h3,
      by simpa [readDir] using h4⟩
  | other name rest ih =>
    intro s hwf hdir hfiles
    obtain ⟨s', t, h1, h2, h3, h4⟩ := ih s hwf hdir (by simpa [readDir] using hfiles)
    exact ⟨s', t, walkFiles_other_eq_ok_iff.2 ⟨rest, h1, rfl⟩, h2, by simpa [readDir] using h3,
      by simpa [readDir] using h4⟩
  | file f rest ih =>
    intro s hwf hdir hfiles
    simp only [readDir, List.mem_cons, forall_eq_or_imp] at hfiles
    obtain ⟨⟨hopen, hf⟩, hrest⟩ := hfiles
    by_cases hhit : Getxattr f = some (dg f.content)
    · obtain ⟨s', t, h1, h2, h3, h4⟩ := ih s hwf hdir hrest
      have hadd := addFile_hit (mfs dg) (childPath src f.name) (childPath dest f.name) f (M - 1) s
        (dg f.content) hopen rfl hhit
      refine ⟨s', _, walkFiles_file_eq_ok_iff.2 ⟨f, s, _, rest, t, hadd, h1, rfl, rfl⟩, h2, ?_, ?_⟩
      · simp [readDir, List.filter, Event.mutates, Event.isRequest, h3, hhit]
      · intro g hg hghit
        simp only [readDir, List.mem_cons] at hg
        rcases hg with rfl | hg
        · simp [childPath]
        · exact List.mem_append_right _ (h4 g hg hghit)
    · rcases hf with hf | ⟨hx, hw, hbound⟩
      · exact absurd hf hhit
      · obtain ⟨s1, t1, hrun, hget, hmut⟩ := addFile_refresh dg (childPath src f.name) dest
          f.name f (M - 1) s hwf hopen hhit hx hw hdir hbound
        obtain ⟨s', t, h1, h2, h3, h4⟩ := ih s1 (MFS.wf_congr hget hwf) (by rw [hget]; exact hdir)
          (fun g hg => ⟨(hrest g hg).1, by
            rcases (hrest g hg).2 with h | ⟨ha, hb, hc⟩
            · exact Or.inl h
            · exact Or.inr ⟨ha, hb, by rw [hget]; exact hc⟩⟩)
        refine ⟨s', _, walkFiles_file_eq_ok_iff.2 ⟨f, s1, _, rest, t, hrun, h1, rfl, rfl⟩,
          fun q => by rw [h2, hget], ?_, ?_⟩
        · have hb : (Getxattr f != some (dg f.content)) = true := by simpa using hhit
          rw [List.filter_append, hmut, h3]
          simp [readDir, List.filter, hb]
        · intro g hg hghit
          simp only [readDir, List.mem_cons] at hg
          rcases hg with rfl | hg
          · exact absurd hghit hhit
          · exact List.mem_append_right _ (h4 g hg hghit)


theorem MFS.get_prune (s : MFS) (dest : Path) (names : List String) (q : Path) :
    (s.prune dest names).get q =
      if ∃ n ∈ names, (dest ++ [n]) <+: q then none else s.get q := by
  induction names generalizing s with
  | nil => simp [MFS.prune]
  | cons n names ih =>
    have : s.prune dest (n :: names) = (s.remove (dest ++ [n])).prune dest names := rfl
    rw [this, ih, MFS.get_remove]
    by_cases h1 : ∃ m ∈ names, (dest ++ [m]) <+: q
    · have : ∃ m ∈ n :: names, (dest ++ [m]) <+: q := by
        obtain ⟨m, hm, hp⟩ := h1
        exact ⟨m, List.mem_cons_of_mem _ hm, hp⟩
      rw [if_pos h1, if_pos this]
    · rw [if_neg h1]
      by_cases h2 : (dest ++ [n]) <+: q
      · have hq : q ≠ [] := by
          rintro rfl
          simp at h2
        have : ∃ m ∈ n :: names, (dest ++ [m]) <+: q := ⟨n, List.mem_cons_self _ _, h2⟩
        rw [if_pos this, if_pos ⟨hq, h2⟩]
      · have : ¬ ∃ m ∈ n :: names, (dest ++ [m]) <+: q := by
          rintro ⟨m, hm, hp⟩
          rcases List.mem_cons.1 hm with rfl | hm
          · exact h2 hp
          · exact h1 ⟨m, hm, hp⟩
        rw [if_neg this, if_neg (fun h => h2 h.2)]

theorem deleteEvents_mutates (dest : Path) (names : List String) :
    (deleteEvents dest names).filter Event.mutates =
      names.map fun n => Event.call .walk (.request (.rm (dest ++ [n]) false true)) true := by
  induction names with
  | nil => rfl
  | cons n names ih =>
    simp [deleteEvents, List.filter, Event.mutates, Event.isRequest, Request.isRm, ih]

/-- The loop over the listed entries, on entries that exist and whose names are one path
component: the entries that are not expected are removed. -/
theorem removeOrphans_run (dg : String → Hash) (dest : Path) (children : List String)
    (names : List String) (s : MFS) (hnd : names.Nodup)
    (hpl : ∀ n ∈ names, plainName n = true)
    (hex : ∀ n ∈ names, s.get (dest ++ [n]) ≠ none) :
    removeOrphans (mfs dg) dest children (names.map fun n => ⟨n, 0, 0, ""⟩) s =
      ⟨.ok (), s.prune dest (names.filter fun n => !(decide (n ∈ children))),
        deleteEvents dest (names.filter fun n => !(decide (n ∈ children)))⟩ := by
  induction names generalizing s with
  | nil => rfl
  | cons n names ih =>
    rw [List.nodup_cons] at hnd
    have hpl' : ∀ m ∈ names, plainName m = true := fun m hm => hpl m (List.mem_cons_of_mem _ hm)
    simp only [List.map_cons, removeOrphans]
    by_cases hmem : n ∈ children
    · simp only [hmem, decide_True, Bool.not_true, Bool.false_eq_true, if_false]
      rw [ih s hnd.2 hpl' (fun m hm => hex m (List.mem_cons_of_mem _ hm))]
      simp [List.filter, hmem]
    · simp only [hmem, decide_False, Bool.not_false, if_true]
      rw [pathJoin_of_plainName dest (hpl n (List.mem_cons_self _ _))]
      have hx : (mfs dg).Exec s (.rm (dest ++ [n]) false true) =
          (.ok [], s.remove (dest ++ [n])) :=
        (MFS.exec_rm_eq_ok s _ (dest ++ [n]) false []).2
          ⟨by simp, hex n (List.mem_cons_self _ _), rfl, rfl⟩
      rw [Prog.bind_ok (exec_ok hx)]
      have hemit : (Prog.emit (.log "DELETE" (dest ++ [n])) : Prog MFS Unit)
          (s.remove (dest ++ [n])) = ⟨.ok (), s.remove (dest ++ [n]),
            [.log "DELETE" (dest ++ [n])]⟩ := rfl
      rw [Prog.bind_ok hemit]
      rw [ih (s.remove (dest ++ [n])) hnd.2 hpl' (fun m hm => by
        rw [MFS.get_remove]
        have : ¬ (dest ++ [n]) <+: (dest ++ [m]) := by
          rw [child_prefix_iff]
          rintro rfl
          exact hnd.1 hm
        simp only [this, and_false, if_false]
        exact hex m (List.mem_cons_of_mem _ hm))]
      simp [List.filter, hmem, deleteEvents, MFS.prune]

theorem MFS.orphans_perm {s s1 : MFS} {p : Path} (es : Listing)
    (h : ∀ n, s1.get (p ++ [n]) = s.get (p ++ [n])) :
    (s1.orphans p es).Perm (s.orphans p es) := by
  unfold MFS.orphans
  refine (List.perm_ext_iff_of_nodup ((MFS.nodup_children s1 p).filter _)
    ((MFS.nodup_children s p).filter _)).2 (fun n => ?_)
  simp only [List.mem_filter, MFS.mem_children, h]

theorem Listing.childNames_eq_nil {es : Listing} :
    es.childNames = [] ↔ (readDir es).1 = [] ∧ (readDir es).2 = [] := by
  simp [Listing.childNames]

/-- Lines 114 to 136 of `walk` on a remote directory that exists: an empty directory is remade,
and the orphans of any other are removed. -/
theorem reconcile_ready (dg : String → Hash) (dest : Path) (rd : Bool) (es : Listing) (s : MFS)
    (hwf : s.wf = true) (hdir : s.get dest = some .dir)
    (hroot : es.childNames = [] → dest ≠ []) :
    ∃ s' t, reconcile (mfs dg) (readDir es).1 (readDir es).2 dest s = ⟨.ok (), s', t⟩ ∧
      (∀ q, (∃ n, n ∉ es.childNames ∧ (dest ++ [n]) <+: q) → s'.get q = none) ∧
      (∀ q, ¬ (∃ n, n ∉ es.childNames ∧ (dest ++ [n]) <+: q) → s'.get q = s.get q) ∧
      t.filter Event.mutates = remade dest ([], rd, es) ++ swept s dest ([], rd, es) := by
  unfold reconcile
  by_cases hemp : es.childNames = []
  · have hne := hroot hemp
    obtain ⟨hd, hf⟩ := Listing.childNames_eq_nil.1 hemp
    have hrm : (mfs dg).Exec s (.rm dest false true) = (.ok [], s.remove dest) :=
      (MFS.exec_rm_eq_ok s _ dest false []).2 ⟨hne, by rw [hdir]; simp, rfl, rfl⟩
    have hmk : (mfs dg).Exec (s.remove dest) (.mkdir dest false true) =
        (.ok [], (s.remove dest).withDirs dest) := by
      refine (MFS.exec_mkdir_eq_ok _ _ dest false []).2 ⟨fun q hq => ?_, rfl, rfl⟩
      rw [MFS.get_remove]
      by_cases hqd : dest <+: q
      · left
        have : q ≠ [] := by
          rintro rfl
          exact hne (List.prefix_nil.1 hqd)
        simp [hqd, this]
      · right
        obtain ⟨r, rfl⟩ := hq
        have hr : r ≠ [] := by
          rintro rfl
          exact hqd (by simp)
        simp only [hqd, and_false, if_false]
        exact MFS.get_prefix_of_wf hwf q r hr (by rw [hdir]; simp)
    refine ⟨(s.remove dest).withDirs dest,
      [.call .remakeDir (.request (.rm dest false true)) true,
        .call .remakeDir (.request (.mkdir dest false true)) true], ?_, fun q hq => ?_,
      fun q hq => ?_, ?_⟩
    · rw [if_pos (by simp [hd, hf])]
      unfold remakeDir
      rw [Prog.bind_ok (exec_ok hrm), Prog.bind_ok (exec_ok hmk)]
      rfl
    · obtain ⟨n, _, hp⟩ := hq
      have hdq : dest <+: q := (List.prefix_append dest [n]).trans hp
      have hqne : q ≠ [] := by
        rintro rfl
        simp at hp
      have hnq : ¬ q <+: dest := by
        intro h
        have h1 := hp.length_le
        have h2 := h.length_le
        simp at h1
        omega
      rw [MFS.get_withDirs, MFS.get_remove]
      simp [hdq, hqne, hnq]
    · have hnot : ¬ (dest <+: q ∧ q ≠ dest) := by
        rintro ⟨⟨r, rfl⟩, hne'⟩
        cases r with
        | nil => exact hne' (by simp)
        | cons n r =>
          apply hq
          exact ⟨n, by simp [hemp], by
            rw [show dest ++ n :: r = (dest ++ [n]) ++ r by simp]
            exact List.prefix_append _ _⟩
      rw [MFS.get_withDirs, MFS.get_remove]
      by_cases hqd : q = dest
      · subst hqd
        simp [hne, hdir]
      · have hnd : ¬ dest <+: q := fun h => hnot ⟨h, hqd⟩
        simp only [hnd, and_false, if_false]
        by_cases hpre : q <+: dest
        · obtain ⟨r, rfl⟩ := hpre
          have hr : r ≠ [] := by
            rintro rfl
            exact hqd (by simp)
          rw [MFS.get_prefix_of_wf hwf q r hr (by rw [hdir]; simp)]
          simp
        · simp [hpre]
    · simp [List.filter, Event.mutates, Event.isRequest, Request.isRm, Request.isCp, remade,
        swept, hemp]
  · have hx : (mfs dg).Exec s (.ls dest false true) =
        (.ok ((s.children dest).map fun n => ⟨n, 0, 0, ""⟩), s) :=
      (MFS.exec_ls_eq_ok s s dest false true _).2 ⟨hdir, rfl, rfl⟩
    refine ⟨s.prune dest (s.orphans dest es),
      .call .walk (.request (.ls dest false true)) true ::
        deleteEvents dest (s.orphans dest es), ?_, fun q hq => ?_, fun q hq => ?_, ?_⟩
    · rw [if_neg (by
        intro hc
        apply hemp
        simp only [Bool.and_eq_true, beq_iff_eq, List.length_eq_zero] at hc
        exact Listing.childNames_eq_nil.2 hc)]
      rw [Prog.bind_ok (exec_ok hx),
        removeOrphans_run dg dest _ (s.children dest) s (MFS.nodup_children s dest)
          (fun n hn => MFS.wf_child hwf dest n ((MFS.mem_children s dest n).1 hn))
          (fun n hn => (MFS.mem_children s dest n).1 hn)]
      rfl
    · obtain ⟨n, hn, hp⟩ := hq
      rw [MFS.get_prune]
      by_cases hex : s.get (dest ++ [n]) = none
      · obtain ⟨r, rfl⟩ := hp
        have : s.get (dest ++ [n] ++ r) = none := by
          by_cases hr : r = []
          · subst hr; simpa using hex
          · exact MFS.absent_below hwf (by rw [hex]; simp) r hr
        rw [this]
        simp
      · have : ∃ m ∈ s.orphans dest es, (dest ++ [m]) <+: q :=
          ⟨n, by
            unfold MFS.orphans
            exact List.mem_filter.2 ⟨(MFS.mem_children s dest n).2 hex, by simpa using hn⟩, hp⟩
        rw [if_pos this]
    · rw [MFS.get_prune]
      have : ¬ ∃ m ∈ s.orphans dest es, (dest ++ [m]) <+: q := by
        rintro ⟨m, hm, hp⟩
        unfold MFS.orphans at hm
        exact hq ⟨m, by simpa using (List.mem_filter.1 hm).2, hp⟩
      rw [if_neg this]
    · simp only [List.filter, Event.mutates, Event.isRequest, Request.isRm, Request.isCp,
        Bool.or_self, remade, swept, hemp, if_false, List.nil_append, List.append_nil]
      exact deleteEvents_mutates dest _

theorem MFS.orphans_eq_nil {s : MFS} {dest : Path} {es : Listing}
    (h : ∀ n, s.get (dest ++ [n]) ≠ none → n ∈ es.childNames) : s.orphans dest es = [] := by
  unfold MFS.orphans
  rw [List.filter_eq_nil_iff]
  intro n hn
  simp [h n ((MFS.mem_children s dest n).1 hn)]

theorem MFS.children_cons_child {s : MFS} {p : Path} {x : String} {k : Kind}
    (h : s.get (p ++ [x]) = none) :
    MFS.children ((p ++ [x], k) :: s) p = x :: s.children p := by
  unfold MFS.children
  rw [List.filterMap_cons]
  have hlast : (p ++ [x]).getLast? = some x := by simp
  simp only [List.dropLast_concat, if_true, hlast]
  rw [List.dedup_cons_of_not_mem]
  intro hmem
  have : x ∈ s.children p := by
    unfold MFS.children
    exact List.mem_dedup.2 hmem
  exact (MFS.mem_children s p x).1 this h


theorem stale_single (rd : Bool) (es : Listing) (dest q : Path) :
    Stale [([], rd, es)] dest q ↔ ∃ n, n ∉ es.childNames ∧ (dest ++ [n]) <+: q := by
  simp [Stale]

theorem republished_root (dg : String → Hash) (M : Int) (dest : Path) (rd : Bool)
    (es : Listing) :
    republished dg M dest ([], rd, es) =
      (((readDir es).2.filter fun f => Getxattr f != some (dg f.content)).flatMap fun f =>
        [.call .addFile (.request (.rm (dest ++ [f.name]) false true)) true,
          .call .addFile (.request (.cp (dg f.content) (dest ++ [f.name])
            (decide (M - 1 ≥ 0)))) true]) := by
  simp [republished]

/-- The statements of `walk` after the loop over `dirs`, on a ready directory. -/
theorem walkAfterDirs_ready (dg : String → Hash) (src dest : Path) (M : Int) (rd : Bool)
    (es : Listing) (s : MFS) (hwf : s.wf = true) (hr : Ready dg s dest rd es)
    (hroot : es.childNames = [] → dest ≠ []) :
    ∃ s' t, walkAfterDirs (mfs dg) src es (readDir es).1 (readDir es).2 dest M s =
        ⟨.ok es, s', t⟩ ∧ Swept dg M [([], rd, es)] dest s s' t := by
  obtain ⟨_, hdir, hfiles⟩ := hr
  -- lines 89 to 93: the directory exists already
  have hpre : ∃ tp, precreate (mfs dg) (readDir es).1 (readDir es).2 dest s = ⟨.ok (), s, tp⟩ ∧
      tp.filter Event.mutates = [] := by
    unfold precreate
    split
    · have hx : (mfs dg).Exec s (.mkdir dest false true) = (.ok [], s) := by
        refine (MFS.exec_mkdir_eq_ok s s dest false []).2 ⟨fun q hq => ?_, ?_, rfl⟩
        · obtain ⟨r, rfl⟩ := hq
          by_cases hr : r = []
          · subst hr; simp at hdir; exact Or.inr hdir
          · exact Or.inr (MFS.get_prefix_of_wf hwf q r hr (by rw [hdir]; simp))
        · exact (MFS.withDirs_of_isDir hwf dest hdir).symm
      exact ⟨_, Prog.bind_eq_ok_iff.2 ⟨[], s, _, [], exec_ok hx, rfl, rfl⟩, by
        simp [List.filter, Event.mutates, Event.isRequest, Request.isRm, Request.isCp]⟩
    · exact ⟨[], rfl, rfl⟩
  obtain ⟨tp, hpre, hpm⟩ := hpre
  obtain ⟨s1, tf, hwalk, hget1, hfm, hsame⟩ := walkFiles_ready dg src dest M es s hwf hdir hfiles
  have hwf1 : s1.wf = true := MFS.wf_congr hget1 hwf
  obtain ⟨s2, tr, hrec, hst, hkeep, hrm⟩ := reconcile_ready dg dest rd es s1 hwf1
    (by rw [hget1]; exact hdir) hroot
  have hdest2 : s2.get dest = some .dir := by
    rw [hkeep, hget1, hdir]
    rintro ⟨n, _, hp⟩
    exact append_cons_not_above dest n [] hp
  -- lines 138 to 143: the directory still exists
  have hfl : ∃ tl, flushDir (mfs dg) dest M s2 = ⟨.ok (), s2, tl⟩ ∧
      tl.filter Event.mutates = [] := by
    by_cases hM : M ≥ 0
    · refine ⟨_, flushDir_eq_ok_iff.2 (Or.inl ⟨hM, ⟨[], ?_⟩, rfl⟩), by
        simp [List.filter, Event.mutates, Event.isRequest, Request.isRm, Request.isCp]⟩
      exact (MFS.exec_flush_eq_ok _ _ dest []).2 ⟨by rw [hdest2]; simp, rfl, rfl⟩
    · exact ⟨[], flushDir_eq_ok_iff.2 (Or.inr ⟨hM, rfl, rfl⟩), rfl⟩
  obtain ⟨tl, hfl, hlm⟩ := hfl
  refine ⟨s2, _, walkAfterDirs_eq_ok_iff.2 ⟨s, tp, s1, tf, s2, tr, tl, hpre, hwalk, hrec, hfl,
    rfl⟩, fun q hq => ?_, fun q hq => ?_, ?_, ?_⟩
  · exact hst q ((stale_single rd es dest q).1 hq)
  · rw [hkeep q (fun h => hq ((stale_single rd es dest q).2 h)), hget1]
  · simp only [List.filter_append, hpm, hfm, hlm, hrm, List.nil_append, List.append_nil,
      List.flatMap_cons, List.flatMap_nil, levelMutations, republished_root, List.append_assoc]
    refine List.Perm.append_left _ (List.Perm.append_left _ ?_)
    unfold swept
    split
    · exact List.Perm.refl _
    · simp only [List.append_nil]
      exact (MFS.orphans_perm es (fun n => hget1 _)).map _
  · intro d hd f hf hhit
    obtain rfl := List.mem_singleton.1 hd
    simp only [List.append_nil]
    exact List.mem_append_right _ (List.mem_append_left _ (hsame f hf hhit))


/-! ## Composing the parts of a run on a ready tree -/

theorem Stale.of_prefix {ls : List (Path × Bool × Listing)} {dest q q' : Path}
    (h : Stale ls dest q) (hp : q <+: q') : Stale ls dest q' := by
  obtain ⟨d, hd, n, hn, hpre⟩ := h
  exact ⟨d, hd, n, hn, hpre.trans hp⟩

theorem Stale.append_iff {l1 l2 : List (Path × Bool × Listing)} {dest q : Path} :
    Stale (l1 ++ l2) dest q ↔ Stale l1 dest q ∨ Stale l2 dest q := by
  constructor
  · rintro ⟨d, hd, n, hn, hp⟩
    rcases List.mem_append.1 hd with hd | hd
    · exact Or.inl ⟨d, hd, n, hn, hp⟩
    · exact Or.inr ⟨d, hd, n, hn, hp⟩
  · rintro (⟨d, hd, n, hn, hp⟩ | ⟨d, hd, n, hn, hp⟩)
    · exact ⟨d, List.mem_append_left _ hd, n, hn, hp⟩
    · exact ⟨d, List.mem_append_right _ hd, n, hn, hp⟩

theorem Stale.map_iff {ls : List (Path × Bool × Listing)} {dest q : Path} (name : String) :
    Stale (ls.map fun d => (name :: d.1, d.2)) dest q ↔ Stale ls (dest ++ [name]) q := by
  constructor
  · rintro ⟨d, hd, n, hn, hp⟩
    obtain ⟨d', hd', rfl⟩ := List.mem_map.1 hd
    exact ⟨d', hd', n, hn, by simpa using hp⟩
  · rintro ⟨d, hd, n, hn, hp⟩
    exact ⟨(name :: d.1, d.2), List.mem_map.2 ⟨d, hd, rfl⟩, n, hn, by simpa using hp⟩

theorem Swept.wf {dg : String → Hash} {N : Int} {ls : List (Path × Bool × Listing)}
    {dest : Path} {s s' : MFS} {t : List Event} (hwf : s.wf = true)
    (h : Swept dg N ls dest s s' t) : s'.wf = true := by
  obtain ⟨h1, h2, _, _⟩ := h
  have hsame : ∀ q, s'.get q ≠ none → ¬ Stale ls dest q ∧ s'.get q = s.get q := by
    intro q hq
    by_cases hst : Stale ls dest q
    · exact absurd (h1 q hst) hq
    · exact ⟨hst, h2 q hst⟩
  rw [MFS.wf_iff] at hwf ⊢
  refine ⟨fun q n hne => ?_, fun q hne => ?_⟩
  · obtain ⟨hst, heq⟩ := hsame _ hne
    have hq : ¬ Stale ls dest q := fun hq => hst (hq.of_prefix (List.prefix_append q [n]))
    rw [h2 q hq]
    exact hwf.1 q n (by rwa [← heq])
  · obtain ⟨_, heq⟩ := hsame _ hne
    exact hwf.2 q (by rwa [← heq])

theorem levelMutations_congr {dg : String → Hash} {N : Int} {s s1 : MFS} {dest : Path}
    (d : Path × Bool × Listing)
    (h : ∀ n, s1.get (dest ++ d.1 ++ [n]) = s.get (dest ++ d.1 ++ [n])) :
    (levelMutations dg N s1 dest d).Perm (levelMutations dg N s dest d) := by
  unfold levelMutations
  refine List.Perm.append_left _ ?_
  unfold swept
  split
  · exact List.Perm.refl _
  · exact (MFS.orphans_perm d.2.2 h).map _

theorem Swept.append {dg : String → Hash} {N : Int} {l1 l2 : List (Path × Bool × Listing)}
    {dest : Path} {s s1 s2 : MFS} {t1 t2 : List Event}
    (h1 : Swept dg N l1 dest s s1 t1) (h2 : Swept dg N l2 dest s1 s2 t2)
    (hfree : ∀ d ∈ l2, ∀ n, ¬ Stale l1 dest (dest ++ d.1 ++ [n])) :
    Swept dg N (l1 ++ l2) dest s s2 (t1 ++ t2) := by
  obtain ⟨a1, b1, c1, d1⟩ := h1
  obtain ⟨a2, b2, c2, d2⟩ := h2
  refine ⟨fun q hq => ?_, fun q hq => ?_, ?_, fun d hd f hf hhit => ?_⟩
  · by_cases hq2 : Stale l2 dest q
    · exact a2 q hq2
    · rw [b2 q hq2]
      rcases Stale.append_iff.1 hq with hq1 | hq1
      · exact a1 q hq1
      · exact absurd hq1 hq2
  · have hq1 : ¬ Stale l1 dest q := fun h => hq (Stale.append_iff.2 (Or.inl h))
    have hq2 : ¬ Stale l2 dest q := fun h => hq (Stale.append_iff.2 (Or.inr h))
    rw [b2 q hq2, b1 q hq1]
  · rw [List.filter_append, List.flatMap_append]
    refine c1.append (c2.trans ?_)
    exact List.Perm.flatMap_left _ (fun d hd =>
      levelMutations_congr d (fun n => b1 _ (hfree d hd n)))
  · rcases List.mem_append.1 hd with hd | hd
    · exact List.mem_append_left _ (d1 d hd f hf hhit)
    · exact List.mem_append_right _ (d2 d hd f hf hhit)

theorem Swept.perm {dg : String → Hash} {N : Int} {ls ls' : List (Path × Bool × Listing)}
    {dest : Path} {s s' : MFS} {t : List Event} (hp : ls.Perm ls')
    (h : Swept dg N ls dest s s' t) : Swept dg N ls' dest s s' t := by
  obtain ⟨a, b, c, d⟩ := h
  have hst : ∀ q, Stale ls' dest q ↔ Stale ls dest q := by
    intro q
    constructor
    · rintro ⟨d, hd, n, hn, hq⟩
      exact ⟨d, hp.mem_iff.2 hd, n, hn, hq⟩
    · rintro ⟨d, hd, n, hn, hq⟩
      exact ⟨d, hp.mem_iff.1 hd, n, hn, hq⟩
  refine ⟨fun q hq => a q ((hst q).1 hq), fun q hq => b q (fun h => hq ((hst q).2 h)),
    c.trans (List.Perm.flatMap_right _ hp), fun d' hd' => d d' (hp.mem_iff.2 hd')⟩

theorem levelMutations_shift (dg : String → Hash) (N : Int) (s : MFS) (dest : Path)
    (name : String) (d : Path × Bool × Listing) :
    levelMutations dg N s dest (name :: d.1, d.2) =
      levelMutations dg (N - 1) s (dest ++ [name]) d := by
  have hN : (N - ((d.1.length + 1 : Nat) : Int) - 1 ≥ 0) ↔ (N - 1 - (d.1.length : Int) - 1 ≥ 0) := by
    push_cast
    constructor <;> intro h <;> omega
  simp only [levelMutations, republished, remade, swept, List.length_cons, List.append_assoc,
    List.singleton_append, List.cons_append, List.nil_append, decide_eq_decide.2 hN]

theorem Swept.shift {dg : String → Hash} {N : Int} {ls : List (Path × Bool × Listing)}
    {dest : Path} {s s' : MFS} {t : List Event} (name : String)
    (h : Swept dg (N - 1) ls (dest ++ [name]) s s' t) :
    Swept dg N (ls.map fun d => (name :: d.1, d.2)) dest s s' t := by
  obtain ⟨a, b, c, d⟩ := h
  refine ⟨fun q hq => a q ((Stale.map_iff name).1 hq),
    fun q hq => b q (fun h => hq ((Stale.map_iff name).2 h)), ?_, fun d' hd' f hf hhit => ?_⟩
  · rw [List.flatMap_map]
    refine c.trans (List.Perm.of_eq ?_)
    congr 1
    funext d'
    exact (levelMutations_shift dg N s dest name d').symm
  · obtain ⟨d0, hd0, rfl⟩ := List.mem_map.1 hd'
    simpa using d d0 hd0 f hf hhit

theorem Swept.cons_trace {dg : String → Hash} {N : Int} {ls : List (Path × Bool × Listing)}
    {dest : Path} {s s' : MFS} {t : List Event} (e : Event) (he : e.mutates = false)
    (h : Swept dg N ls dest s s' t) : Swept dg N ls dest s s' (e :: t) := by
  obtain ⟨a, b, c, d⟩ := h
  refine ⟨a, b, ?_, fun d' hd' f hf hhit => List.mem_cons_of_mem _ (d d' hd' f hf hhit)⟩
  rwa [List.filter_cons_of_neg (by simp [he])]

theorem Swept.nil (dg : String → Hash) (N : Int) (dest : Path) (s : MFS) :
    Swept dg N [] dest s s [] := by
  refine ⟨fun q hq => ?_, fun _ _ => rfl, List.Perm.refl _, fun d hd => ?_⟩
  · obtain ⟨d, hd, _⟩ := hq
    cases hd
  · cases hd

theorem Ready.of_same {dg : String → Hash} {s s1 : MFS} {p : Path} {rd : Bool} {es : Listing}
    (h0 : s1.get p = s.get p) (h : ∀ n, s1.get (p ++ [n]) = s.get (p ++ [n]))
    (hr : Ready dg s p rd es) : Ready dg s1 p rd es := by
  obtain ⟨h1, h2, h3⟩ := hr
  refine ⟨h1, by rw [h0, h2], fun f hf => ⟨(h3 f hf).1, ?_⟩⟩
  rcases (h3 f hf).2 with hh | ⟨ha, hb, hc⟩
  · exact Or.inl hh
  · exact Or.inr ⟨ha, hb, by rw [h, hc]⟩


/-! ## The run of `walk` on a ready tree -/

theorem Stale.below {ls : List (Path × Bool × Listing)} {dest q : Path}
    (h : Stale ls dest q) : dest <+: q := by
  obtain ⟨d, _, n, _, hp⟩ := h
  rw [List.append_assoc] at hp
  exact (List.prefix_append dest _).trans hp

theorem Stale.subdirs_length {es : Listing} {dest q : Path} (h : Stale es.subdirs dest q) :
    dest.length + 2 ≤ q.length := by
  obtain ⟨d, hd, n, _, hp⟩ := h
  obtain ⟨m, r, hdr, _⟩ := Listing.subdirs_head hd
  have := hp.length_le
  rw [hdr] at this
  simp at this
  omega

/-- The run of `walk` on a ready directory, given the run of its loop over `dirs`. -/
theorem walk_ready_of_dirs {dg : String → Hash} {src dest : Path} {rd : Bool} {N : Int}
    {es : Listing} {s s1 : MFS} {t1 : List Event} (hwf : s.wf = true)
    (hr : Ready dg s dest rd es) (hroot : es.childNames = [] → dest ≠ [])
    (h1 : walkDirs (mfs dg) src dest N es s = ⟨.ok es, s1, t1⟩)
    (hsw : Swept dg N es.subdirs dest s s1 t1) :
    ∃ s' t, walk (mfs dg) src rd es dest N s = ⟨.ok es, s', t⟩ ∧
      Swept dg N (([], rd, es) :: es.subdirs) dest s s' t := by
  have hwf1 : s1.wf = true := hsw.wf hwf
  have hfree : ∀ r : Path, r.length ≤ 1 → ¬ Stale es.subdirs dest (dest ++ r) := by
    intro r hr hst
    have := hst.subdirs_length
    simp at this
    omega
  have hr1 : Ready dg s1 dest rd es := by
    refine Ready.of_same ?_ (fun n => ?_) hr
    · have := hsw.2.1 dest (by simpa using hfree [] (by simp))
      exact this
    · exact hsw.2.1 _ (hfree [n] (by simp))
  obtain ⟨s', t2, h2, hsw2⟩ := walkAfterDirs_ready dg src dest N rd es s1 hwf1 hr1 hroot
  refine ⟨s', _, walkBody_eq_ok_iff.2 ⟨hr.1, es, s1, t1, t2, h1, h2, rfl⟩, ?_⟩
  refine Swept.cons_trace _ rfl ?_
  refine Swept.perm (List.perm_append_singleton _ _) (Swept.append hsw hsw2 (fun d hd n => ?_))
  obtain rfl := List.mem_singleton.1 hd
  simpa using hfree [n] (by simp)

theorem walkDirs_ready {dg : String → Hash} (es : Listing) :
    ∀ (src dest : Path) (N : Int) (s : MFS), s.wf = true →
      (∀ d ∈ ([], true, es) :: es.subdirs, d.2.2.childNames.Nodup) →
      (∀ d ∈ es.subdirs, Ready dg s (dest ++ d.1) d.2.1 d.2.2) →
      ∃ s' t, walkDirs (mfs dg) src dest N es s = ⟨.ok es, s', t⟩ ∧
        Swept dg N es.subdirs dest s s' t := by
  induction es with
  | nil =>
    intro src dest N s _ _ _
    exact ⟨s, [], rfl, Swept.nil dg N dest s⟩
  | file f rest ih =>
    intro src dest N s hwf hnd hs
    obtain ⟨s', t, h1, h2⟩ := ih src dest N s hwf (fun d hd => by
      rcases List.mem_cons.1 hd with rfl | hd
      · exact Listing.childNames_file_nodup (hnd _ (List.mem_cons_self _ _))
      · exact hnd d (List.mem_cons_of_mem _ hd)) hs
    exact ⟨s', t, walkDirs_file_eq_ok_iff.2 ⟨rest, h1, rfl⟩, h2⟩
  | other name rest ih =>
    intro src dest N s hwf hnd hs
    obtain ⟨s', t, h1, h2⟩ := ih src dest N s hwf (fun d hd => by
      rcases List.mem_cons.1 hd with rfl | hd
      · have := hnd _ (List.mem_cons_self _ _)
        rwa [Listing.childNames_other] at this
      · exact hnd d (List.mem_cons_of_mem _ hd)) hs
    exact ⟨s', t, walkDirs_other_eq_ok_iff.2 ⟨rest, h1, rfl⟩, h2⟩
  | dir name readable sub rest ihsub ihrest =>
    intro src dest N s hwf hnd hs
    obtain ⟨hndtop, hnotin⟩ := Listing.nodup_of_rest (hnd _ (List.mem_cons_self _ _))
    have hndsub := Listing.levels_of_sub (P := fun l => l.childNames.Nodup) hnd
    have hndrest : ∀ d ∈ ([], true, rest) :: rest.subdirs, d.2.2.childNames.Nodup := by
      intro d hd
      rcases List.mem_cons.1 hd with rfl | hd
      · exact hndtop
      · exact Listing.levels_of_rest (P := fun l => l.childNames.Nodup) hnd d hd
    have hsub : ∀ d ∈ sub.subdirs, Ready dg s (childPath dest name ++ d.1) d.2.1 d.2.2 := by
      intro d hd
      have := hs (name :: d.1, d.2) (by
        simp only [Listing.subdirs, List.cons_append, List.mem_cons, List.mem_append,
          List.mem_map]
        exact Or.inr (Or.inl ⟨d, hd, rfl⟩))
      simpa [childPath] using this
    have htop : Ready dg s (childPath dest name) readable sub := by
      have := hs ([name], readable, sub) (List.mem_cons_self _ _)
      simpa [childPath] using this
    obtain ⟨s1, t1, h1, sw1⟩ :=
      ihsub (childPath src name) (childPath dest name) (N - 1) s hwf hndsub hsub
    obtain ⟨s2, t12, h2, sw2⟩ := walk_ready_of_dirs hwf htop (fun _ => by simp [childPath]) h1 sw1
    have sw2' := Swept.shift name sw2
    have hwf2 : s2.wf = true := sw2'.wf hwf
    have hne : ∀ m ∈ (readDir rest).1, m ≠ name := by
      rintro m hm rfl
      exact hnotin (List.mem_append_left _ hm)
    -- the run on `name` leaves the other subdirectories as they are
    have hfree : ∀ d ∈ rest.subdirs, ∀ r,
        ¬ Stale ((([], readable, sub) :: sub.subdirs).map fun d => (name :: d.1, d.2)) dest
          (dest ++ d.1 ++ r) := by
      intro d hd r hst
      obtain ⟨m, r', hdr, hm⟩ := Listing.subdirs_head hd
      have hp := ((Stale.map_iff name).1 hst).below
      rw [hdr, List.append_assoc] at hp
      exact hne m hm ((child_prefix_iff dest name m (r' ++ r)).1 hp).symm
    have hrest : ∀ d ∈ rest.subdirs, Ready dg s2 (dest ++ d.1) d.2.1 d.2.2 := by
      intro d hd
      refine Ready.of_same ?_ (fun n => ?_)
        (hs d (List.mem_cons_of_mem _ (List.mem_append_right _ hd)))
      · have := sw2'.2.1 _ (hfree d hd [])
        simpa using this
      · exact sw2'.2.1 _ (hfree d hd [n])
    obtain ⟨s3, t3, h3, sw3⟩ := ihrest src dest N s2 hwf2 hndrest hrest
    refine ⟨s3, _, walkDirs_dir_eq_ok_iff.2 ⟨sub, s2, t12, rest, t3, h2, h3, rfl, rfl⟩, ?_⟩
    exact Swept.append sw2' sw3 (fun d hd n => hfree d hd [n])

/-- The run of `walk` on a tree that is ready at every level: it returns no error and leaves
the source tree as it is; it leaves nothing at or below the orphans of the remote directories
and every other path of the remote tree as it is; its `files/rm` and `files/cp` requests are, up
to their order, those of `levelMutations` for every level; and it logs `SAME` for every file
whose cache read gives the hash of its content. -/
theorem walk_ready {dg : String → Hash} (src dest : Path) (rd : Bool) (N : Int) (es : Listing)
    (s : MFS) (hwf : s.wf = true)
    (hnd : ∀ d ∈ ([], true, es) :: es.subdirs, d.2.2.childNames.Nodup)
    (hroot : es.childNames = [] → dest ≠ [])
    (hs : ∀ d ∈ ([], rd, es) :: es.subdirs, Ready dg s (dest ++ d.1) d.2.1 d.2.2) :
    ∃ s' t, walk (mfs dg) src rd es dest N s = ⟨.ok es, s', t⟩ ∧
      Swept dg N (([], rd, es) :: es.subdirs) dest s s' t := by
  obtain ⟨s1, t1, h1, sw1⟩ := walkDirs_ready es src dest N s hwf hnd
    (fun d hd => hs d (List.mem_cons_of_mem _ hd))
  have htop : Ready dg s dest rd es := by
    simpa using hs ([], rd, es) (List.mem_cons_self _ _)
  exact walk_ready_of_dirs hwf htop hroot h1 sw1


/-! ## The directories of a source tree have distinct paths -/

theorem Listing.subdirs_paths_nodup (es : Listing) :
    (∀ d ∈ ([], true, es) :: es.subdirs, d.2.2.childNames.Nodup) →
      (es.subdirs.map fun d => d.1).Nodup := by
  induction es with
  | nil => intro _; exact List.nodup_nil
  | file f rest ih =>
    intro hnd
    exact ih (fun d hd => by
      rcases List.mem_cons.1 hd with rfl | hd
      · exact Listing.childNames_file_nodup (hnd _ (List.mem_cons_self _ _))
      · exact hnd d (List.mem_cons_of_mem _ hd))
  | other name rest ih =>
    intro hnd
    exact ih (fun d hd => by
      rcases List.mem_cons.1 hd with rfl | hd
      · have := hnd _ (List.mem_cons_self _ _)
        rwa [Listing.childNames_other] at this
      · exact hnd d (List.mem_cons_of_mem _ hd))
  | dir name readable sub rest ihsub ihrest =>
    intro hnd
    obtain ⟨hndtop, hnotin⟩ := Listing.nodup_of_rest (hnd _ (List.mem_cons_self _ _))
    have hsub := ihsub (Listing.levels_of_sub (P := fun l => l.childNames.Nodup) hnd)
    have hrest := ihrest (fun d hd => by
      rcases List.mem_cons.1 hd with rfl | hd
      · exact hndtop
      · exact Listing.levels_of_rest (P := fun l => l.childNames.Nodup) hnd d hd)
    have hhead : ∀ p ∈ rest.subdirs.map (fun d => d.1), ∃ m r, p = m :: r ∧ m ≠ name := by
      intro p hp
      obtain ⟨d, hd, rfl⟩ := List.mem_map.1 hp
      obtain ⟨m, r, hdr, hm⟩ := Listing.subdirs_head hd
      refine ⟨m, r, hdr, ?_⟩
      rintro rfl
      exact hnotin (List.mem_append_left _ hm)
    simp only [Listing.subdirs, List.map_cons, List.map_append, List.map_map]
    refine List.nodup_cons.2 ⟨?_, List.nodup_append.2 ⟨?_, hrest, ?_⟩⟩
    · intro hmem
      rcases List.mem_append.1 hmem with hmem | hmem
      · obtain ⟨d, hd, heq⟩ := List.mem_map.1 hmem
        obtain ⟨m, r, hdr, _⟩ := Listing.subdirs_head hd
        simp [hdr] at heq
      · obtain ⟨m, r, heq, hm⟩ := hhead _ hmem
        simp only [List.cons.injEq] at heq
        exact hm heq.1.symm
    · have : (List.map ((fun d => d.1) ∘ fun d : Path × Bool × Listing => (name :: d.1, d.2))
          sub.subdirs) = (sub.subdirs.map fun d => d.1).map (fun p => name :: p) := by
        simp [List.map_map, Function.comp]
      rw [this]
      exact hsub.map (fun a b h => by simpa using h)
    · intro p hp1 hp2
      obtain ⟨d, _, rfl⟩ := List.mem_map.1 hp1
      obtain ⟨m, r, heq, hm⟩ := hhead _ hp2
      simp only [Function.comp, List.cons.injEq] at heq
      exact hm heq.1.symm

/-- Two directories of the source tree with the same path are the same directory. -/
theorem Listing.level_eq_of_path {rd : Bool} {es : Listing}
    (hnd : ∀ d ∈ ([], true, es) :: es.subdirs, d.2.2.childNames.Nodup)
    {d d0 : Path × Bool × Listing} (hd : d ∈ ([], rd, es) :: es.subdirs)
    (hd0 : d0 ∈ ([], rd, es) :: es.subdirs) (h : d.1 = d0.1) : d = d0 := by
  have hn : ((([], rd, es) :: es.subdirs).map fun d => d.1).Nodup := by
    rw [List.map_cons]
    refine List.nodup_cons.2 ⟨fun hmem => ?_, Listing.subdirs_paths_nodup es hnd⟩
    obtain ⟨d', hd', heq⟩ := List.mem_map.1 hmem
    obtain ⟨m, r, hdr, _⟩ := Listing.subdirs_head hd'
    simp [hdr] at heq
  exact List.inj_on_of_nodup_map hn hd hd0 h

theorem Listing.levels_nodup {rd : Bool} {es : Listing}
    (hnd : ∀ d ∈ ([], true, es) :: es.subdirs, d.2.2.childNames.Nodup) :
    (([], rd, es) :: es.subdirs).Nodup := by
  have hn : ((([], rd, es) :: es.subdirs).map fun d => d.1).Nodup := by
    rw [List.map_cons]
    refine List.nodup_cons.2 ⟨fun hmem => ?_, Listing.subdirs_paths_nodup es hnd⟩
    obtain ⟨d', hd', heq⟩ := List.mem_map.1 hmem
    obtain ⟨m, r, hdr, _⟩ := Listing.subdirs_head hd'
    simp [hdr] at heq
  exact List.Nodup.of_map _ hn

theorem flatMap_extra_perm {α β : Type} [DecidableEq α] (l : List α) (a : α) (g : α → List β)
    (X : List β) (hnd : l.Nodup) (ha : a ∈ l) :
    (l.flatMap fun d => g d ++ if d = a then X else []).Perm (X ++ l.flatMap g) := by
  induction l with
  | nil => cases ha
  | cons b l ih =>
    rw [List.nodup_cons] at hnd
    simp only [List.flatMap_cons]
    by_cases hb : b = a
    · subst hb
      have hrest : (l.flatMap fun d => g d ++ if d = b then X else []) = l.flatMap g := by
        refine List.flatMap_congr (fun d hd => ?_)
        have : d ≠ b := by
          rintro rfl
          exact hnd.1 hd
        simp [this]
      rw [hrest, if_pos rfl, ← List.append_assoc]
      exact (List.perm_append_comm).append_right _
    · have ha' : a ∈ l := by
        rcases List.mem_cons.1 ha with h | h
        · exact absurd h.symm hb
        · exact h
      rw [if_neg hb, List.append_nil]
      refine ((ih hnd.2 ha').append_left _).trans ?_
      rw [← List.append_assoc, ← List.append_assoc]
      exact (List.perm_append_comm).append_right _


/-! ## Idempotence -/

/-- C2, as amended.  Let the remote tree be well formed, the components of the destination be
names, and the entries of every source directory have distinct names that are one path
component.  If `walk` returns no error, leaving the source tree `es'` and the remote tree `s'`,
then every regular file of `es'` caches the hash of its content (`es'` is `es.cacheAll`), so that
its cache read gives that hash if and only if the hash has at most 256 bytes; and a second run on
`es'` and `s'`, with any counter, returns no error, leaves every cache as it is, and leaves the
remote tree holding at every path what it held.  The `files/rm` and `files/cp` requests of the
second run are, up to their order, exactly these: for every regular file whose cache read does
not give its hash, the pre-removal and the copy of that hash to its path (`republished`), and
for every empty directory the `files/rm` of `remakeDir` on its path (`remade`).  Every regular
file whose cache read gives its hash logs `SAME`.  So when no directory is empty and every hash
has at most 256 bytes, the second run sends no `files/rm` and no `files/cp`, and every regular
file logs `SAME`. -/
theorem idempotence_up_to_remade_dirs (dg : String → Hash) (src dest : Path) (rd : Bool)
    (es es' : Listing) (N N' : Int) (s s' : MFS) (t : List Event)
    (hwf : s.wf = true) (hdest : dest.all plainName = true) (hpl : es.plain = true)
    (hnd : es.noDup = true)
    (hrun : walk (mfs dg) src rd es dest N s = ⟨.ok es', s', t⟩) :
    es' = es.cacheAll dg ∧
    (∀ d ∈ ([], rd, es') :: es'.subdirs, ∀ f ∈ (readDir d.2.2).2,
      (Getxattr f = some (dg f.content) ↔ (dg f.content).utf8ByteSize ≤ originalHashSize)) ∧
    ∃ s'' t', walk (mfs dg) src rd es' dest N' s' = ⟨.ok es', s'', t'⟩ ∧
      (∀ q, s''.get q = s'.get q) ∧
      (t'.filter Event.mutates).Perm
        ((([], rd, es') :: es'.subdirs).flatMap fun d =>
          republished dg N' dest d ++ remade dest d) ∧
      (∀ d ∈ ([], rd, es') :: es'.subdirs, ∀ f ∈ (readDir d.2.2).2,
        Getxattr f = some (dg f.content) → Event.log "SAME" (dest ++ d.1 ++ [f.name]) ∈ t') ∧
      (es'.noEmptyDir = true → es'.hashesFit dg = true →
        t'.filter Event.mutates = [] ∧
        ∀ d ∈ ([], rd, es') :: es'.subdirs, ∀ f ∈ (readDir d.2.2).2,
          Event.log "SAME" (dest ++ d.1 ++ [f.name]) ∈ t') := by
  obtain ⟨rfl, _, hlev, hroot⟩ := walk_mfs_ok hwf (List.all_eq_true.1 hdest) hpl hnd hrun
  have hwf' : s'.wf = true := walk_ok_wf hwf (List.all_eq_true.1 hdest) hpl hrun
  have hhealthy := walk_ok_healthy hrun
  have hlev' : ∀ d0 ∈ ([], rd, es) :: es.subdirs,
      Level dg s' (dest ++ d0.1) d0.2.2 ∧ FilesPost dg s s' (dest ++ d0.1) d0.2.2 := by
    intro d0 hd0
    rcases List.mem_cons.1 hd0 with rfl | h
    · exact hlev ([], true, es) (List.mem_cons_self _ _)
    · exact hlev d0 (List.mem_cons_of_mem _ h)
  -- the levels of the tree after the first run are those of the tree before it
  have hlevels : ∀ d ∈ ([], rd, es.cacheAll dg) :: (es.cacheAll dg).subdirs,
      ∃ d0 ∈ ([], rd, es) :: es.subdirs, d = (d0.1, d0.2.1, d0.2.2.cacheAll dg) := by
    intro d hd
    rcases List.mem_cons.1 hd with rfl | hd
    · exact ⟨([], rd, es), List.mem_cons_self _ _, rfl⟩
    · rw [Listing.subdirs_cacheAll] at hd
      obtain ⟨d0, hd0, rfl⟩ := List.mem_map.1 hd
      exact ⟨d0, List.mem_cons_of_mem _ hd0, rfl⟩
  -- every level is ready on the remote tree the first run left
  have hready : ∀ d ∈ ([], rd, es.cacheAll dg) :: (es.cacheAll dg).subdirs,
      Ready dg s' (dest ++ d.1) d.2.1 d.2.2 := by
    intro d hd
    obtain ⟨d0, hd0, rfl⟩ := hlevels d hd
    obtain ⟨hl, hfp⟩ := hlev' d0 hd0
    refine ⟨(hhealthy d0 hd0).1, hl.1, fun f' hf' => ?_⟩
    simp only [Listing.readDir_cacheAll] at hf'
    obtain ⟨f, hf, rfl⟩ := List.mem_map.1 hf'
    refine ⟨(hhealthy d0 hd0).2 f hf, ?_⟩
    by_cases hfit : (dg f.content).utf8ByteSize ≤ originalHashSize
    · exact Or.inl ((Getxattr_eq_some _ _).2 ⟨rfl, hfit⟩)
    · have hmiss : Getxattr f ≠ some (dg f.content) :=
        fun h => hfit ((Getxattr_eq_some _ _).1 h).2
      exact Or.inr ⟨rfl, (hfp f hf).2 hmiss, hl.2.2.2 f hf hmiss⟩
  have hnd' : ∀ d ∈ ([], true, es.cacheAll dg) :: (es.cacheAll dg).subdirs,
      d.2.2.childNames.Nodup := by
    intro d hd
    rcases List.mem_cons.1 hd with rfl | hd
    · rw [Listing.childNames_cacheAll]
      exact (Listing.noDup_iff es).1 hnd _ (List.mem_cons_self _ _)
    · rw [Listing.subdirs_cacheAll] at hd
      obtain ⟨d0, hd0, rfl⟩ := List.mem_map.1 hd
      rw [Listing.childNames_cacheAll]
      exact (Listing.noDup_iff es).1 hnd _ (List.mem_cons_of_mem _ hd0)
  obtain ⟨s'', t', hrun2, hst, hkeep, hperm, hsame⟩ :=
    walk_ready src dest rd N' (es.cacheAll dg) s' hwf' hnd'
      (fun h => hroot (by rwa [Listing.childNames_cacheAll] at h)) hready
  -- no remote directory has an orphan
  have hnone : ∀ d ∈ ([], rd, es.cacheAll dg) :: (es.cacheAll dg).subdirs, ∀ n,
      n ∉ d.2.2.childNames → s'.get (dest ++ d.1 ++ [n]) = none := by
    intro d hd n hn
    obtain ⟨d0, hd0, rfl⟩ := hlevels d hd
    by_contra hex
    apply hn
    rw [Listing.childNames_cacheAll]
    exact (hlev' d0 hd0).1.2.1 n hex
  -- every regular file caches its hash
  have hcached : ∀ d ∈ ([], rd, es.cacheAll dg) :: (es.cacheAll dg).subdirs,
      ∀ f ∈ (readDir d.2.2).2, f.xattr = some (dg f.content) := by
    intro d hd f hf
    rcases (hready d hd).2.2 f hf with ⟨_, h | ⟨h, _⟩⟩
    · exact ((Getxattr_eq_some _ _).1 h).1
    · exact h
  have hmut : (t'.filter Event.mutates).Perm
      ((([], rd, es.cacheAll dg) :: (es.cacheAll dg).subdirs).flatMap fun d =>
        republished dg N' dest d ++ remade dest d) := by
    refine hperm.trans (List.Perm.of_eq (List.flatMap_congr (fun d hd => ?_)))
    have : swept s' dest d = [] := by
      unfold swept
      split
      · rfl
      · rw [MFS.orphans_eq_nil (fun n hex => by
          by_contra hn
          exact hex (hnone d hd n hn))]
        rfl
    rw [levelMutations, this, List.append_nil]
  refine ⟨rfl, fun d hd f hf => ⟨fun h => ((Getxattr_eq_some _ _).1 h).2,
    fun h => (Getxattr_eq_some _ _).2 ⟨hcached d hd f hf, h⟩⟩,
    s'', t', hrun2, fun q => ?_, hmut, hsame, fun hne hfit => ?_⟩
  · by_cases hq : Stale (([], rd, es.cacheAll dg) :: (es.cacheAll dg).subdirs) dest q
    · rw [hst q hq]
      obtain ⟨d, hd, n, hn, r, rfl⟩ := hq
      by_cases hr : r = []
      · subst hr
        rw [List.append_nil, hnone d hd n hn]
      · rw [MFS.absent_below hwf' (by rw [hnone d hd n hn]; simp) r hr]
    · exact hkeep q hq
  · have hgood : ∀ d ∈ ([], rd, es.cacheAll dg) :: (es.cacheAll dg).subdirs,
        d.2.2.childNames ≠ [] ∧ ∀ f ∈ (readDir d.2.2).2, Getxattr f = some (dg f.content) := by
      intro d hd
      have hd' : d ∈ ([], true, es.cacheAll dg) :: (es.cacheAll dg).subdirs ∨
          d.2.2 = es.cacheAll dg := by
        rcases List.mem_cons.1 hd with rfl | h
        · exact Or.inr rfl
        · exact Or.inl (List.mem_cons_of_mem _ h)
      unfold Listing.noEmptyDir at hne
      unfold Listing.hashesFit at hfit
      rw [List.all_eq_true] at hne hfit
      have key : d.2.2.childNames ≠ [] ∧
          ∀ f ∈ (readDir d.2.2).2, (dg f.content).utf8ByteSize ≤ originalHashSize := by
        rcases hd' with h | h
        · have h1 := hne d h
          have h2 := hfit d h
          simp only [Bool.not_eq_eq_eq_not, Bool.not_true, List.isEmpty_eq_false,
            List.all_eq_true, decide_eq_true_eq] at h1 h2
          exact ⟨h1, h2⟩
        · have h1 := hne _ (List.mem_cons_self _ _)
          have h2 := hfit _ (List.mem_cons_self _ _)
          simp only [Bool.not_eq_eq_eq_not, Bool.not_true, List.isEmpty_eq_false,
            List.all_eq_true, decide_eq_true_eq] at h1 h2
          rw [h]
          exact ⟨h1, h2⟩
      exact ⟨key.1, fun f hf => (Getxattr_eq_some _ _).2 ⟨hcached d hd f hf, key.2 f hf⟩⟩
    refine ⟨?_, fun d hd f hf => hsame d hd f hf ((hgood d hd).2 f hf)⟩
    have hnil : ((([], rd, es.cacheAll dg) :: (es.cacheAll dg).subdirs).flatMap fun d =>
        republished dg N' dest d ++ remade dest d) = [] := by
      rw [List.flatMap_eq_nil_iff]
      intro d hd
      have h1 : republished dg N' dest d = [] := by
        unfold republished
        rw [List.filter_eq_nil_iff.2 (fun f hf => by simp [(hgood d hd).2 f hf])]
        rfl
      have h2 : remade dest d = [] := by
        unfold remade
        rw [if_neg (hgood d hd).1]
      rw [h1, h2]
      rfl
    rw [hnil] at hmut
    exact List.Perm.eq_nil hmut

/-- The theorem `idempotence_up_to_remade_dirs` on the tree `A/{x.txt, B/{y.txt}}`, first
synchronized to an empty remote tree: the second run sends no `files/rm` and no `files/cp`. -/
theorem idempotence_up_to_remade_dirs_witness :
    MFS.wf [] = true ∧ List.all ["sync"] plainName = true ∧ exTree.plain = true ∧
    exTree.noDup = true ∧
    walk (mfs exDigest) ["A"] true exTree ["sync"] 4 [] =
      ⟨.ok exTreeCached, exRemote, (walk (mfs exDigest) ["A"] true exTree ["sync"] 4 []).trace⟩ ∧
    ∃ s'' t', walk (mfs exDigest) ["A"] true exTreeCached ["sync"] 4 exRemote =
        ⟨.ok exTreeCached, s'', t'⟩ ∧
      (∀ q, s''.get q = exRemote.get q) ∧ t'.filter Event.mutates = [] :=
  ⟨by decide, by decide, by decide, by decide, rfl,
    let ⟨s'', t', h1, h2, _, _, h5⟩ :=
      (idempotence_up_to_remade_dirs exDigest ["A"] ["sync"] true exTree exTreeCached 4 4 []
        exRemote _ (by decide) (by decide) (by decide) (by decide) rfl).2.2
    ⟨s'', t', h1, h2, (h5 (by decide) (by decide)).1⟩⟩

/-- C2 as stated fails.  The source tree `A/{E/, x.txt}` has the empty directory `E`: `walk`
returns no error, and the second run on the tree and the remote tree it left sends a `files/rm`
of `/sync/E`, which succeeds.  The file of the source tree `A/{x.bin}` has a hash of 257 bytes:
`walk` returns no error, and the second run sends a `files/cp` for the file and does not log
`SAME` for it. -/
theorem idempotence_counterexample :
    ((walk (mfs exDigest) ["A"] true exTreeWithEmpty ["sync"] 4 exRemoteWithEmpty).result =
        .ok exTreeWithEmpty ∧
      Event.call .remakeDir (.request (.rm ["sync", "E"] false true)) true ∈
        (walk (mfs exDigest) ["A"] true exTreeWithEmpty ["sync"] 4
          (walk (mfs exDigest) ["A"] true exTreeWithEmpty ["sync"] 4
            exRemoteWithEmpty).state).trace) ∧
    (isOk (walk (mfs exDigest) ["A"] true exTreeLong ["sync"] 4 []).result = true ∧
      Event.call .addFile (.request (.cp (exDigest (String.mk (List.replicate 255 'a')))
          ["sync", "x.bin"] true)) true ∈
        (walk (mfs exDigest) ["A"] true (exTreeLong.cacheAll exDigest) ["sync"] 4
          (walk (mfs exDigest) ["A"] true exTreeLong ["sync"] 4 []).state).trace ∧
      Event.log "SAME" ["sync", "x.bin"] ∉
        (walk (mfs exDigest) ["A"] true (exTreeLong.cacheAll exDigest) ["sync"] 4
          (walk (mfs exDigest) ["A"] true exTreeLong ["sync"] 4 []).state).trace) := by
  set_option maxRecDepth 100000 in decide


/-! ## Deletion -/

theorem ready_of_checks {dg : String → Hash} {s : MFS} {dest : Path} {rd : Bool}
    {es : Listing} (hh : es.healthy rd = true) (hc : es.allCached dg = true)
    (hsync : s.mirrors dest es = true) :
    ∀ d ∈ ([], rd, es) :: es.subdirs,
      d.2.1 = true ∧ (∀ f ∈ (readDir d.2.2).2, f.openable = true) ∧
      (∀ f ∈ (readDir d.2.2).2, Getxattr f = some (dg f.content)) ∧
      s.get (dest ++ d.1) = some .dir ∧
      (∀ n, s.get (dest ++ d.1 ++ [n]) ≠ none → n ∈ d.2.2.childNames) := by
  have key : ∀ d ∈ ([], true, es) :: es.subdirs,
      (∀ f ∈ (readDir d.2.2).2, Getxattr f = some (dg f.content)) ∧
      s.get (dest ++ d.1) = some .dir ∧
      (∀ n, s.get (dest ++ d.1 ++ [n]) ≠ none → n ∈ d.2.2.childNames) := by
    intro d hd
    unfold Listing.allCached at hc
    unfold MFS.mirrors at hsync
    rw [List.all_eq_true] at hc hsync
    have h2 := hc d hd
    have h3 := hsync d hd
    simp only [Bool.and_eq_true, List.all_eq_true, decide_eq_true_eq, beq_iff_eq] at h2 h3
    exact ⟨h2, (MFS.isDir_iff _ _).1 h3.1.1, fun n hn => h3.1.2 n ((MFS.mem_children _ _ _).2 hn)⟩
  intro d hd
  have hlt : d.2.1 = true ∧ ∀ f ∈ (readDir d.2.2).2, f.openable = true := by
    unfold Listing.healthy at hh
    rw [List.all_eq_true] at hh
    have := hh d hd
    simpa only [Bool.and_eq_true, List.all_eq_true] using this
  have hk : (∀ f ∈ (readDir d.2.2).2, Getxattr f = some (dg f.content)) ∧
      s.get (dest ++ d.1) = some .dir ∧
      (∀ n, s.get (dest ++ d.1 ++ [n]) ≠ none → n ∈ d.2.2.childNames) := by
    rcases List.mem_cons.1 hd with rfl | hd'
    · exact key ([], true, es) (List.mem_cons_self _ _)
    · exact key d (List.mem_cons_of_mem _ hd')
  exact ⟨hlt.1, hlt.2, hk⟩

/-- C3, as amended.  Let the entries of every source directory have distinct names, every
directory be readable and every regular file openable with a cache read that gives the hash of
its content, and let the well-formed remote tree `s` mirror the source tree below `dest`, where
`dest` is not the root of the remote tree when the source directory is empty.  Add to `s` one
extra entry, of any kind, whose name `x` is one path component and is not the name of an entry
of the local directory `d0`, in the remote directory of `d0`.  Then `walk` returns no error and
leaves the source tree as it is; afterwards the remote tree holds at every path what `s` holds;
and its `files/rm` and `files/cp` requests are, up to their order, exactly these: the `files/rm`
of the path of the extra entry by the loop over the listed entries, unless `d0` is empty, and for
every empty directory the `files/rm` of `remakeDir` on its path (`remade`).  So when no directory
is empty, the `files/rm` of the path of the extra entry is the only such request.
In general, for every daemon, when the loop over the listed entries returns no error it has
sent the `files/rm` of a path if and only if the path is `path.Join(dest, name)` for a listed
name that is not among the names processed for the directory; so, when every listed name is one
path component, it has sent the `files/rm` of the path of a listed entry if and only if the name
of the entry is not among the names processed. -/
theorem deletion_of_extra_entry (dg : String → Hash) (src dest : Path) (rd : Bool)
    (es : Listing) (N : Int) (s : MFS) (d0 : Path × Bool × Listing) (x : String) (k : Kind)
    (hwf : s.wf = true) (hnd : es.noDup = true)
    (hh : es.healthy rd = true) (hc : es.allCached dg = true)
    (hsync : s.mirrors dest es = true) (hroot : es.childNames = [] → dest ≠ [])
    (hd0 : d0 ∈ ([], rd, es) :: es.subdirs)
    (hx : x ∉ d0.2.2.childNames) (hxp : plainName x = true) :
    (∃ s' t, walk (mfs dg) src rd es dest N ((dest ++ d0.1 ++ [x], k) :: s) = ⟨.ok es, s', t⟩ ∧
      (∀ q, s'.get q = s.get q) ∧
      (t.filter Event.mutates).Perm
        ((if d0.2.2.childNames = [] then []
          else [.call .walk (.request (.rm (dest ++ d0.1 ++ [x]) false true)) true]) ++
          (([], rd, es) :: es.subdirs).flatMap (remade dest)) ∧
      (es.noEmptyDir = true → t.filter Event.mutates =
        [.call .walk (.request (.rm (dest ++ d0.1 ++ [x]) false true)) true])) ∧
    (∀ (σ : Type) (ipfs : Shell σ) (dir : Path) (children : List String)
      (entries : List UnixFSEntry) (s1 s2 : σ) (t1 : List Event),
      removeOrphans ipfs dir children entries s1 = ⟨.ok (), s2, t1⟩ →
      (∀ p, Event.call .walk (.request (.rm p false true)) true ∈ t1 ↔
        ∃ e ∈ entries, e.Name ∉ children ∧ pathJoin dir e.Name = p) ∧
      ((∀ e ∈ entries, plainName e.Name = true) → ∀ e ∈ entries,
        (Event.call .walk (.request (.rm (dir ++ [e.Name]) false true)) true ∈ t1 ↔
          e.Name ∉ children))) := by
  have hgen : ∀ (σ : Type) (ipfs : Shell σ) (dir : Path) (children : List String)
      (entries : List UnixFSEntry) (s1 s2 : σ) (t1 : List Event),
      removeOrphans ipfs dir children entries s1 = ⟨.ok (), s2, t1⟩ →
      ∀ p, Event.call .walk (.request (.rm p false true)) true ∈ t1 ↔
        ∃ e ∈ entries, e.Name ∉ children ∧ pathJoin dir e.Name = p := by
    intro σ ipfs dir children entries s1 s2 t1 hrun p
    have htr := removeOrphans_trace entries hrun
    have hmem : Event.call .walk (.request (.rm p false true)) true ∈ t1 ↔
        Event.call .walk (.request (.rm p false true)) true ∈
          t1.filter (Event.isRequest Request.isRm) := by
      simp [List.mem_filter, Event.isRequest, Request.isRm]
    rw [hmem, htr]
    simp only [List.mem_map, List.mem_filter, Bool.not_eq_eq_eq_not, Bool.not_true,
      decide_eq_false_iff_not, Event.call.injEq, Call.request.injEq, Request.rm.injEq, and_true,
      true_and]
    constructor
    · rintro ⟨e, ⟨he, hn⟩, hp⟩
      exact ⟨e, he, hn, hp⟩
    · rintro ⟨e, he, hn, hp⟩
      exact ⟨e, ⟨he, hn⟩, hp⟩
  refine ⟨?_, fun σ ipfs dir children entries s1 s2 t1 hrun =>
    ⟨hgen σ ipfs dir children entries s1 s2 t1 hrun, fun hpl e he => ?_⟩⟩
  swap
  · rw [hgen σ ipfs dir children entries s1 s2 t1 hrun]
    constructor
    · rintro ⟨e', he', hn, hp⟩
      rw [pathJoin_of_plainName dir (hpl e' he')] at hp
      have : e'.Name = e.Name := by simpa using hp
      rwa [← this]
    · intro hn
      exact ⟨e, he, hn, pathJoin_of_plainName dir (hpl e he)⟩
  have hchk := ready_of_checks hh hc hsync
  have hndl := (Listing.noDup_iff es).1 hnd
  obtain ⟨_, _, _, hdir0, hsub0⟩ := hchk d0 hd0
  -- the extra entry is not in the mirror
  have habs : s.get (dest ++ d0.1 ++ [x]) = none := by
    by_contra h
    exact hx (hsub0 x h)
  have hne : ∀ q, q ≠ dest ++ d0.1 ++ [x] →
      MFS.get ((dest ++ d0.1 ++ [x], k) :: s) q = s.get q :=
    fun q hq => MFS.get_cons_of_ne _ _ _ _ (fun e => hq e.symm)
  have hwf0 : MFS.wf ((dest ++ d0.1 ++ [x], k) :: s) = true := by
    refine MFS.wf_cons s _ k hwf (by simp) ?_ (by simpa using hdir0) (fun n => ?_)
    · exact plain_append (MFS.wf_names hwf _ (by rw [hdir0]; simp)) hxp
    · exact MFS.absent_below hwf (by rw [habs]; simp) [n] (by simp)
  have hlevel_ne : ∀ d ∈ ([], rd, es) :: es.subdirs, dest ++ d.1 ≠ dest ++ d0.1 ++ [x] := by
    intro d hd heq
    have := (hchk d hd).2.2.2.1
    rw [heq, habs] at this
    cases this
  have hready : ∀ d ∈ ([], rd, es) :: es.subdirs,
      Ready dg ((dest ++ d0.1 ++ [x], k) :: s) (dest ++ d.1) d.2.1 d.2.2 := by
    intro d hd
    obtain ⟨h1, h2, h3, h4, _⟩ := hchk d hd
    exact ⟨h1, by rw [hne _ (hlevel_ne d hd)]; exact h4, fun f hf => ⟨h2 f hf, Or.inl (h3 f hf)⟩⟩
  obtain ⟨s', t, hrun, hst, hkeep, hperm, _⟩ :=
    walk_ready src dest rd N es _ hwf0 hndl hroot hready
  -- what is at or below an orphan is not in the mirror
  have hstale : ∀ q, Stale (([], rd, es) :: es.subdirs) dest q → s.get q = none := by
    rintro q ⟨d, hd, n, hn, r, rfl⟩
    have h0 : s.get (dest ++ d.1 ++ [n]) = none := by
      by_contra h
      exact hn ((hchk d hd).2.2.2.2 n h)
    by_cases hr : r = []
    · subst hr
      rw [List.append_nil, h0]
    · exact MFS.absent_below hwf (by rw [h0]; simp) r hr
  have hmut : (t.filter Event.mutates).Perm
      ((if d0.2.2.childNames = [] then []
        else [.call .walk (.request (.rm (dest ++ d0.1 ++ [x]) false true)) true]) ++
        (([], rd, es) :: es.subdirs).flatMap (remade dest)) := by
    refine hperm.trans ?_
    refine (List.Perm.of_eq (List.flatMap_congr (fun d hd => ?_))).trans
      (flatMap_extra_perm _ d0 (remade dest) _ (Listing.levels_nodup hndl) hd0)
    have hrep : republished dg N dest d = [] := by
      unfold republished
      rw [List.filter_eq_nil_iff.2 (fun f hf => by simp [(hchk d hd).2.2.1 f hf])]
      rfl
    rw [levelMutations, hrep, List.nil_append]
    congr 1
    unfold swept
    by_cases hd' : d = d0
    · subst hd'
      rw [if_pos rfl]
      split
      · rfl
      · have horph : MFS.orphans ((dest ++ d.1 ++ [x], k) :: s) (dest ++ d.1) d.2.2 = [x] := by
          unfold MFS.orphans
          rw [MFS.children_cons_child habs, List.filter_cons_of_pos (by simpa using hx)]
          congr 1
          exact MFS.orphans_eq_nil hsub0
        rw [horph]
        rfl
    · rw [if_neg hd']
      have hpath : d.1 ≠ d0.1 := fun h => hd' (Listing.level_eq_of_path hndl hd hd0 h)
      have horph : MFS.orphans ((dest ++ d0.1 ++ [x], k) :: s) (dest ++ d.1) d.2.2 = [] := by
        refine MFS.orphans_eq_nil (fun n hn => ?_)
        have hq : dest ++ d.1 ++ [n] ≠ dest ++ d0.1 ++ [x] := by
          intro heq
          apply hpath
          have := List.append_cancel_left (by simpa [List.append_assoc] using heq :
            dest ++ (d.1 ++ [n]) = dest ++ (d0.1 ++ [x]))
          exact (List.append_inj' this rfl).1
        rw [hne _ hq] at hn
        exact (hchk d hd).2.2.2.2 n hn
      rw [horph]
      split <;> rfl
  refine ⟨s', t, hrun, fun q => ?_, hmut, fun hempty => ?_⟩
  · by_cases hq : Stale (([], rd, es) :: es.subdirs) dest q
    · rw [hst q hq, hstale q hq]
    · rw [hkeep q hq]
      refine hne q ?_
      rintro rfl
      exact hq ⟨d0, hd0, x, hx, List.prefix_refl _⟩
  · have hnon : ∀ d ∈ ([], rd, es) :: es.subdirs, d.2.2.childNames ≠ [] := by
      intro d hd
      unfold Listing.noEmptyDir at hempty
      rw [List.all_eq_true] at hempty
      rcases List.mem_cons.1 hd with rfl | hd'
      · simpa using hempty ([], true, es) (List.mem_cons_self _ _)
      · simpa using hempty d (List.mem_cons_of_mem _ hd')
    have hnil : (([], rd, es) :: es.subdirs).flatMap (remade dest) = [] := by
      rw [List.flatMap_eq_nil_iff]
      intro d hd
      unfold remade
      rw [if_neg (hnon d hd)]
    rw [hnil, if_neg (hnon d0 hd0), List.append_nil] at hmut
    exact List.perm_singleton.1 hmut

/-- The theorem `deletion_of_extra_entry` on the tree `A/{x.txt, B/{y.txt}}` and its mirror,
with the extra remote file `/sync/B/old.txt`: the only `files/rm` is that of the extra file, and
afterwards the remote tree holds what the mirror holds. -/
theorem deletion_of_extra_entry_witness :
    exRemote.wf = true ∧ exTreeCached.noDup = true ∧ exTreeCached.healthy true = true ∧
    exTreeCached.allCached exDigest = true ∧ exRemote.mirrors ["sync"] exTreeCached = true ∧
    (exTreeCached.childNames = [] → (["sync"] : Path) ≠ []) ∧
    "old.txt" ∉ (Listing.file ⟨"y.txt", true, "world", some "Qmworld", true⟩ .nil).childNames ∧
    plainName "old.txt" = true ∧
    ∃ s' t, walk (mfs exDigest) ["A"] true exTreeCached ["sync"] 4
        ((["sync"] ++ ["B"] ++ ["old.txt"], .file "Qmold") :: exRemote) =
        ⟨.ok exTreeCached, s', t⟩ ∧
      (∀ q, s'.get q = exRemote.get q) ∧
      t.filter Event.mutates =
        [.call .walk (.request (.rm (["sync"] ++ ["B"] ++ ["old.txt"]) false true)) true] :=
  ⟨by decide, by decide, by decide, by decide, by decide, fun _ => by decide, by decide,
    by decide,
    let ⟨s', t, h1, h2, _, h4⟩ :=
      (deletion_of_extra_entry exDigest ["A"] ["sync"] true exTreeCached 4 exRemote
        (["B"], true, .file ⟨"y.txt", true, "world", some "Qmworld", true⟩ .nil) "old.txt"
        (.file "Qmold") (by decide) (by decide) (by decide) (by decide) (by decide)
        (fun _ => by decide) (by decide) (by decide) (by decide)).1
    ⟨s', t, h1, h2, h4 (by decide)⟩⟩

/-- C3 as stated fails.  The remote tree mirrors the source tree `A/{E/, x.txt}`, whose file is
cached, but for the extra file `/sync/extra.txt`: `walk` returns no error and, besides the
`files/rm` of the extra file, sends the `files/rm` of `/sync/E`, the remote entry of the empty
directory `E`.  And when a daemon lists the names `a` and `./a` for a directory whose processed
names are `a`, the loop over the listed entries sends the `files/rm` of the path of the listed
entry `a`, whose name is among the names processed. -/
theorem deletion_counterexample :
    (exRemoteWithEmpty.mirrors ["sync"] exTreeWithEmpty = true ∧
      exTreeWithEmpty.allCached exDigest = true ∧
      "extra.txt" ∉ exTreeWithEmpty.childNames ∧
      isOk (walk (mfs exDigest) ["A"] true exTreeWithEmpty ["sync"] 4
        ((["sync", "extra.txt"], .file "Qmold") :: exRemoteWithEmpty)).result = true ∧
      (walk (mfs exDigest) ["A"] true exTreeWithEmpty ["sync"] 4
        ((["sync", "extra.txt"], .file "Qmold") :: exRemoteWithEmpty)).trace.filter
          (Event.isRequest Request.isRm) =
        [.call .remakeDir (.request (.rm ["sync", "E"] false true)) true,
          .call .walk (.request (.rm ["sync", "extra.txt"] false true)) true]) ∧
    (isOk (removeOrphans exShell ["sync"] ["a"] [⟨"a", 0, 0, ""⟩, ⟨"./a", 0, 0, ""⟩]
        ()).result = true ∧
      "a" ∈ ["a"] ∧
      Event.call .walk (.request (.rm ["sync", "a"] false true)) true ∈
        (removeOrphans exShell ["sync"] ["a"] [⟨"a", 0, 0, ""⟩, ⟨"./a", 0, 0, ""⟩]
          ()).trace) := by
  decide

end IpfsFilesSync
